import Mathlib

/-!
Shallow embedding of the incremental-rehashing hash table (`dict`) of this
repository.  The repository ships the header `src/redis5/src/dict.h` (struct
layout, macros and the API surface); the implementation file `dict.c` is not
part of the repository, so every operation body below is modelled from the
natural-language specification, as indicated by its doc comment.  Structures,
macros and constants that do appear in `dict.h` are translated directly.

Modelling conventions:
* C pointer chains (`dictEntry *next`) become Lean lists: a bucket is the list
  of entries of its collision chain, head first.
* The `dictht.table` array becomes a `List` of buckets; out-of-range reads
  yield `[]` (`getD`), out-of-range writes are no-ops (`List.set`), matching
  the fact that well-formed states never index out of range.
* Machine integers (`unsigned long`, `uint64_t`) are `Nat`; the scan cursor is
  explicitly reduced mod 2^64 where C overflow matters.  `rehashidx` is `Int`
  because `-1` is a sentinel.
* The key/value destructor callbacks are side effects with no return value;
  operations that may invoke them return an explicit trace of callback
  invocations (`CallbackEvent`) instead.
* `random()` is modelled as an externally supplied stream of draws
  `Nat → Nat` together with a fuel bound for the rejection loop.
* The process-wide resize toggle (`dictEnableResize`/`dictDisableResize`) is
  threaded explicitly as a `canResize : Bool` argument/state.
-/

set_option autoImplicit false
set_option linter.unusedSectionVars false

namespace Redis5Dict

/-- The value union of a `dictEntry` (`dict.h` lines 50-55): exactly one of an
opaque value pointer, a `uint64_t`, an `int64_t` or a `double` is active.  The
`double` member is represented by its 64-bit pattern since no arithmetic is
ever performed on it by this core.  `uninit` models the uninitialized union of
a freshly allocated node before any setter ran. -/
inductive DictUnion (V : Type) where
  | uninit : DictUnion V
  | val : V → DictUnion V
  | u64 : Nat → DictUnion V
  | s64 : Int → DictUnion V
  | dbl : Nat → DictUnion V
deriving DecidableEq, Repr

/-- A hash table node (`dictEntry`, `dict.h` lines 48-57).  The `next` link is
represented by list structure of the enclosing bucket. -/
structure DictEntry (K V : Type) where
  key : K
  v : DictUnion V
deriving DecidableEq, Repr

/-- A recorded invocation of one of the behavior set's callbacks. -/
inductive CallbackEvent (K V : Type) where
  | keyDupCall : K → CallbackEvent K V
  | valDupCall : V → CallbackEvent K V
  | keyDestructorCall : K → CallbackEvent K V
  | valDestructorCall : DictUnion V → CallbackEvent K V
deriving DecidableEq, Repr

/-- The behavior set (`dictType`, `dict.h` lines 59-77).  Keys and values are
modelled as values, so the duplication callbacks are value transformers; the
destructors have no observable return value and are therefore modelled by
presence flags, their invocations being recorded as `CallbackEvent`s. -/
structure DictType (K V : Type) where
  hashFunction : K → Nat
  keyDup : Option (K → K)
  valDup : Option (V → V)
  keyCompare : Option (K → K → Bool)
  hasKeyDestructor : Bool
  hasValDestructor : Bool

/-- A bucket: the collision chain hanging off one slot of the table array. -/
abbrev Bucket (K V : Type) := List (DictEntry K V)

/-- One generation of the hash table (`dictht`, `dict.h` lines 82-87). -/
structure Dictht (K V : Type) where
  table : List (Bucket K V)
  size : Nat
  sizemask : Nat
  used : Nat
deriving DecidableEq, Repr

/-- The dictionary (`dict`, `dict.h` lines 90-96).  `ht[0]`/`ht[1]` become the
fields `ht0`/`ht1`. -/
structure Dict (K V : Type) where
  type : DictType K V
  ht0 : Dictht K V
  ht1 : Dictht K V
  rehashidx : Int
  iterators : Nat

/-- The error taxonomy of the specification (section 7). -/
inductive ErrorKind where
  | conflict | notFound | empty | invalidSize | misuse
deriving DecidableEq, Repr

/-- `DICT_HT_INITIAL_SIZE` (`dict.h` line 116). -/
def DICT_HT_INITIAL_SIZE : Nat := 4

/-- Modelled from the spec: the emergency growth override ratio used while
resizing is disabled (`dict.c` is absent; spec section 6, resize
enable/disable).  The exact literal is a policy constant; the value used by
the original implementation is 5. -/
def dict_force_resize_limit : Nat := 5

variable {K V : Type} [DecidableEq K]

/-- `dictCompareKeys` macro (`dict.h` lines 150-153): use the behavior set's
comparator when supplied, otherwise fall back to identity comparison
(reference equality in C; keys are values here, so decidable equality). -/
def dictCompareKeys (t : DictType K V) (k1 k2 : K) : Bool :=
  match t.keyCompare with
  | some cmp => cmp k1 k2
  | none => k1 == k2

/-- The exact test used when scanning a chain for a key: reference equality
first, then `dictCompareKeys` (the `key==he->key || dictCompareKeys(...)`
pattern of the implementation described by the spec's find/insert/delete
operations). -/
def matchKey (t : DictType K V) (k k' : K) : Bool :=
  k == k' || dictCompareKeys t k k'

/-- Linear scan of one bucket's chain for a key. -/
def searchBucket (t : DictType K V) (k : K) (b : Bucket K V) : Option (DictEntry K V) :=
  b.find? (fun e => matchKey t k e.key)

/-- `_dictReset`: a zeroed table generation (unallocated: size 0). -/
def dicthtReset : Dictht K V := ⟨[], 0, 0, 0⟩

/-- A freshly allocated table generation of `n` slots, all empty, with
`sizemask = n - 1` as in `dict.h` line 85. -/
def dicthtMake (n : Nat) : Dictht K V := ⟨List.replicate n [], n, n - 1, 0⟩

/-- `dictCreate` (modelled from the spec, section 3 lifecycle: created empty,
both tables unallocated, rehash cursor `-1`, no iterators). -/
def dictCreate (t : DictType K V) : Dict K V :=
  ⟨t, dicthtReset, dicthtReset, -1, 0⟩

/-- `dictIsRehashing` macro (`dict.h` line 163). -/
def dictIsRehashing (d : Dict K V) : Bool := d.rehashidx != -1

/-- `dictSize` macro (`dict.h` line 162). -/
def dictSize (d : Dict K V) : Nat := d.ht0.used + d.ht1.used

/-- `dictSlots` macro (`dict.h` line 161). -/
def dictSlots (d : Dict K V) : Nat := d.ht0.size + d.ht1.size

/-- The bucket of `ht` that key hash `h` falls in: index `h & sizemask`. -/
def bucketOf (ht : Dictht K V) (h : Nat) : Bucket K V :=
  ht.table.getD (h &&& ht.sizemask) []

/-- All entries stored in one table generation, in bucket order, chains head
first. -/
def htEntries (ht : Dictht K V) : List (DictEntry K V) := ht.table.flatten

/-- All entries stored in the dictionary (both generations). -/
def allEntries (d : Dict K V) : List (DictEntry K V) := htEntries d.ht0 ++ htEntries d.ht1

/-- All stored keys. -/
def allKeys (d : Dict K V) : List K := (allEntries d).map (·.key)

/-- The number of entries reachable by traversing every bucket chain of both
tables. -/
def totalCount (d : Dict K V) : Nat := (allEntries d).length

/-- Modelled from the spec (section 4.1, `dict.c` absent): the table size
actually allocated for a requested capacity — the smallest power of two that
is at least the request, and at least the initial size 4. -/
def nextPowerLoop (size : Nat) : Nat → Nat → Nat
  | cur, 0 => cur
  | cur, fuel + 1 => if size ≤ cur then cur else nextPowerLoop size (cur * 2) fuel

/-- The doubling loop of `_dictNextPower`: start at the initial size 4 and
double until the request is covered; the fuel (the request itself suffices,
as the running size gains at least one per doubling) makes the loop
structurally recursive. -/
def _dictNextPower (size : Nat) : Nat :=
  nextPowerLoop size DICT_HT_INITIAL_SIZE size

/-- Modelled from the spec: `dictExpand` (`dict.h` line 168, body absent).
Section 4.1: a resize request fails with `InvalidSize` if a rehash is already
in progress or the requested size is not large enough for the current used
count; the "(when growing)" qualifier together with the shrink-to-fit
operation (resize down to the smallest power of two >= used) forces the strict
reading `used > size`, since a request exactly equal to the used count must be
able to succeed.  Allocation picks the smallest power of two >= the request.
If table 0 is still unallocated this is the first initialization and table 0
is installed directly (section 4.1 allocation); otherwise table 1 is allocated
at the target size and the rehash cursor is set to 0 (section 4.2). -/
def dictExpand (d : Dict K V) (size : Nat) : Dict K V × Except ErrorKind Unit :=
  if dictIsRehashing d || d.ht0.used > size then (d, .error .invalidSize)
  else
    let realsize := _dictNextPower size
    if d.ht0.size == 0 then ({ d with ht0 := dicthtMake realsize }, .ok ())
    else ({ d with ht1 := dicthtMake realsize, rehashidx := 0 }, .ok ())

/-- Modelled from the spec: `_dictExpandIfNeeded` (growth trigger, section
4.1): on insert, expand when the load factor reaches 1 while resizing is
enabled, or when it exceeds the much higher emergency ratio while resizing is
disabled; a table of size 0 is first allocated at the initial size. -/
def _dictExpandIfNeeded (d : Dict K V) (canResize : Bool) : Dict K V × Except ErrorKind Unit :=
  if dictIsRehashing d then (d, .ok ())
  else if d.ht0.size == 0 then dictExpand d DICT_HT_INITIAL_SIZE
  else if d.ht0.used ≥ d.ht0.size &&
      (canResize || d.ht0.used / d.ht0.size > dict_force_resize_limit) then
    dictExpand d (d.ht0.used * 2)
  else (d, .ok ())

/-- Head-insert an entry into slot `idx` of a table generation, incrementing
its used count. -/
def htInsertHead (ht : Dictht K V) (idx : Nat) (e : DictEntry K V) : Dictht K V :=
  { ht with table := ht.table.set idx (e :: ht.table.getD idx []), used := ht.used + 1 }

/-- Modelled from the spec (section 4.2): migrate a single node into table 1,
recomputing its index against table 1's mask and head-inserting it. -/
def migrateEntry (t : DictType K V) (ht1 : Dictht K V) (e : DictEntry K V) : Dictht K V :=
  htInsertHead ht1 (t.hashFunction e.key &&& ht1.sizemask) e

/-- Modelled from the spec (section 4.2): migrate every node of one bucket
chain, head first, into table 1. -/
def migrateBucket (t : DictType K V) (b : Bucket K V) (ht1 : Dictht K V) : Dictht K V :=
  b.foldl (migrateEntry t) ht1

/-- Modelled from the spec (section 4.2): rehash completion — table 0 becomes
table 1, table 1 is reset to empty, the cursor returns to -1. -/
def completeRehash (d : Dict K V) : Dict K V :=
  { d with ht0 := d.ht1, ht1 := dicthtReset, rehashidx := -1 }

/-- Modelled from the spec (section 4.2): advance the rehash cursor over a run
of empty buckets, visiting at most `visits` buckets.  Returns the new cursor,
the remaining budget, and whether a non-empty bucket (or the end of the table)
was reached; `false` means the per-call scan limit was exhausted. -/
def rehashSkip (tbl : List (Bucket K V)) : Nat → Nat → Nat × Nat × Bool
  | idx, 0 => (idx, 0, false)
  | idx, visits + 1 =>
    if tbl.length ≤ idx then (idx, visits + 1, true)
    else if ¬(tbl.getD idx []).isEmpty then (idx, visits + 1, true)
    else if visits = 0 then (idx + 1, 0, false)
    else rehashSkip tbl (idx + 1) visits

/-- Modelled from the spec (section 4.2): the bucket-step loop of
`dictRehash`.  Performs up to `n` bucket-steps with an empty-bucket scan
budget of `visits`; completes the rehash when the cursor reaches table 0's
size.  Returns the new dictionary and whether more rehash work remains. -/
def dictRehashLoop : Dict K V → Nat → Nat → Dict K V × Bool
  | d, n, visits =>
    if d.ht0.size ≤ d.rehashidx.toNat then (completeRehash d, false)
    else
      match n with
      | 0 => (d, true)
      | n + 1 =>
        match rehashSkip d.ht0.table d.rehashidx.toNat visits with
        | (idx, _, false) => ({ d with rehashidx := (idx : Int) }, true)
        | (idx, visits', true) =>
          if d.ht0.size ≤ idx then (completeRehash { d with rehashidx := (idx : Int) }, false)
          else
            let b := d.ht0.table.getD idx []
            let d' : Dict K V :=
              { d with
                ht0 := { d.ht0 with table := d.ht0.table.set idx [], used := d.ht0.used - b.length },
                ht1 := migrateBucket d.type b d.ht1,
                rehashidx := (idx + 1 : Nat) }
            dictRehashLoop d' n visits'

/-- Modelled from the spec: `dictRehash` (`dict.h` line 216, body absent) —
the explicit bulk driver performing `n` bucket-steps in one call, with a
per-call empty-bucket scan limit of `10 * n`.  Returns `false` when no rehash
is active or the rehash completed in this call, `true` when more work
remains. -/
def dictRehash (d : Dict K V) (n : Nat) : Dict K V × Bool :=
  if ¬dictIsRehashing d then (d, false)
  else dictRehashLoop d n (n * 10)

/-- Modelled from the spec (section 4.2, implicit single-bucket step): one
bucket-step performed on entry to most operations, suppressed while any safe
iterator is outstanding. -/
def _dictRehashStep (d : Dict K V) : Dict K V :=
  if d.iterators == 0 then (dictRehash d 1).1 else d

/-- Driving the bulk rehash driver, one bucket-step per call, until the
rehash state machine reports it is no longer rehashing; `fuel` bounds the
number of calls. -/
def rehashUntilDone : Dict K V → Nat → Dict K V
  | d, 0 => d
  | d, fuel + 1 =>
    if dictIsRehashing d then rehashUntilDone (dictRehash d 1).1 fuel else d

/-- Modelled from the spec: `dictFind` (`dict.h` line 186, body absent).
Empty dictionary short-circuits; otherwise a bounded rehash step runs first,
then the key's bucket of table 0 is scanned and, while rehashing, table 1's
bucket as well (section 4.3 Find).  Returns the possibly-stepped dictionary
and the found entry. -/
def dictFind (d : Dict K V) (key : K) : Dict K V × Option (DictEntry K V) :=
  if dictSize d == 0 then (d, none)
  else
    let d1 := _dictRehashStep d
    let h := d1.type.hashFunction key
    match searchBucket d1.type key (bucketOf d1.ht0 h) with
    | some e => (d1, some e)
    | none =>
      if dictIsRehashing d1 then (d1, searchBucket d1.type key (bucketOf d1.ht1 h))
      else (d1, none)

/-- Result of `_dictKeyIndex`: either the key already exists (the entry is
returned, C's `*existing`), or the slot index in the write table where the
key should be inserted, or an expansion error. -/
inductive KeyIndexResult (K V : Type) where
  | existing : DictEntry K V → KeyIndexResult K V
  | index : Nat → KeyIndexResult K V
  | err : KeyIndexResult K V
deriving DecidableEq, Repr

/-- Modelled from the spec: `_dictKeyIndex` — expand if needed, then compute
the key's slot in the write table (table 0 when not rehashing, table 1 when
rehashing, section 4.3 Insert-if-absent), reporting the existing entry
instead when the key is already present in either scanned table. -/
def _dictKeyIndex (d : Dict K V) (key : K) (hash : Nat) (canResize : Bool) :
    Dict K V × KeyIndexResult K V :=
  match _dictExpandIfNeeded d canResize with
  | (d', .error _) => (d', .err)
  | (d', .ok _) =>
    let idx0 := hash &&& d'.ht0.sizemask
    match searchBucket d'.type key (d'.ht0.table.getD idx0 []) with
    | some e => (d', .existing e)
    | none =>
      if dictIsRehashing d' then
        let idx1 := hash &&& d'.ht1.sizemask
        match searchBucket d'.type key (d'.ht1.table.getD idx1 []) with
        | some e => (d', .existing e)
        | none => (d', .index idx1)
      else (d', .index idx0)

/-- Result of `dictAddRaw`: on success the write table (`true` = table 1) and
slot index of the newly head-inserted node (standing for the returned node
pointer), otherwise the already-existing entry or an expansion error. -/
inductive AddRawResult (K V : Type) where
  | added : Bool → Nat → AddRawResult K V
  | existing : DictEntry K V → AddRawResult K V
  | err : AddRawResult K V
deriving DecidableEq, Repr

/-- `dictSetKey` macro (`dict.h` lines 143-148): duplicate the key via the
behavior set, or store the reference itself when no duplicator is supplied. -/
def dictStoredKey (t : DictType K V) (key : K) : K :=
  match t.keyDup with
  | some f => f key
  | none => key

/-- Modelled from the spec: `dictAddRaw` (`dict.h` line 172, body absent).
A bounded rehash step runs first; `_dictKeyIndex` then yields either the
existing entry (conflict: no insertion) or the target slot in the write
table — table 0 when not rehashing, table 1 when rehashing — where a new node
with the (possibly duplicated) key and uninitialized value is head-inserted
and that table's used count incremented (section 4.3). -/
def dictAddRaw (d : Dict K V) (key : K) (canResize : Bool) : Dict K V × AddRawResult K V :=
  let d0 := _dictRehashStep d
  match _dictKeyIndex d0 key (d0.type.hashFunction key) canResize with
  | (d1, .err) => (d1, .err)
  | (d1, .existing e) => (d1, .existing e)
  | (d1, .index idx) =>
    let entry : DictEntry K V := ⟨dictStoredKey d1.type key, .uninit⟩
    if dictIsRehashing d1 then
      ({ d1 with ht1 := htInsertHead d1.ht1 idx entry }, .added true idx)
    else
      ({ d1 with ht0 := htInsertHead d1.ht0 idx entry }, .added false idx)

/-- `dictSetVal` macro (`dict.h` lines 123-128) at the entry level: duplicate
the value via the behavior set if a duplicator is supplied, else store the
reference; the duplicator invocation is recorded. -/
def dictSetVal (t : DictType K V) (e : DictEntry K V) (value : V) :
    DictEntry K V × List (CallbackEvent K V) :=
  match t.valDup with
  | some f => ({ e with v := .val (f value) }, [.valDupCall value])
  | none => ({ e with v := .val value }, [])

/-- Replace the value union of the head entry of slot `idx` (the node just
head-inserted by `dictAddRaw`). -/
def htSetHeadVal (ht : Dictht K V) (idx : Nat) (newV : DictUnion V) : Dictht K V :=
  { ht with
    table := ht.table.set idx
      (match ht.table.getD idx [] with
       | [] => []
       | e :: rest => { e with v := newV } :: rest) }

/-- Modelled from the spec: `dictAdd` (`dict.h` line 170, body absent) —
`dictAddRaw`, then set the new node's value via the `dictSetVal` macro; a
conflict is reported without touching the existing node's value. -/
def dictAdd (d : Dict K V) (key : K) (value : V) (canResize : Bool) :
    Dict K V × Except ErrorKind Unit :=
  match dictAddRaw d key canResize with
  | (d1, .added tbl1 idx) =>
    let newV : DictUnion V :=
      match d1.type.valDup with
      | some f => .val (f value)
      | none => .val value
    if tbl1 then ({ d1 with ht1 := htSetHeadVal d1.ht1 idx newV }, .ok ())
    else ({ d1 with ht0 := htSetHeadVal d1.ht0 idx newV }, .ok ())
  | (d1, .existing _) => (d1, .error .conflict)
  | (d1, .err) => (d1, .error .invalidSize)

/-- Remove the first entry of a chain matching `key`, returning it and the
shortened chain (the `prevHe`/`he` unlink walk of the delete loop). -/
def removeFirst (t : DictType K V) (key : K) : Bucket K V → Option (DictEntry K V × Bucket K V)
  | [] => none
  | e :: rest =>
    if matchKey t key e.key then some (e, rest)
    else
      match removeFirst t key rest with
      | some (f, rest') => some (f, e :: rest')
      | none => none

/-- `dictFreeKey` then `dictFreeVal` (`dict.h` lines 139-141 and 119-121):
the destructor invocations performed when a node leaves the table for good. -/
def freeEntryEvents (t : DictType K V) (e : DictEntry K V) : List (CallbackEvent K V) :=
  (if t.hasKeyDestructor then [.keyDestructorCall e.key] else []) ++
    (if t.hasValDestructor then [.valDestructorCall e.v] else [])

/-- Modelled from the spec: the shared delete helper (`dictGenericDelete`) —
empty dictionary short-circuits; a bounded rehash step runs first; the key's
bucket of table 0 and, while rehashing, of table 1 is searched and the first
matching node unlinked from its chain, decrementing the owning table's used
count; with `nofree` the destructors are not invoked (section 4.3 Unlink then
Free). -/
def dictGenericDelete (d : Dict K V) (key : K) (nofree : Bool) :
    Dict K V × Option (DictEntry K V) × List (CallbackEvent K V) :=
  if d.ht0.used == 0 && d.ht1.used == 0 then (d, none, [])
  else
    let d1 := _dictRehashStep d
    let h := d1.type.hashFunction key
    let idx0 := h &&& d1.ht0.sizemask
    match removeFirst d1.type key (d1.ht0.table.getD idx0 []) with
    | some (e, b') =>
      ({ d1 with ht0 := { d1.ht0 with table := d1.ht0.table.set idx0 b', used := d1.ht0.used - 1 } },
        some e, if nofree then [] else freeEntryEvents d1.type e)
    | none =>
      if dictIsRehashing d1 then
        let idx1 := h &&& d1.ht1.sizemask
        match removeFirst d1.type key (d1.ht1.table.getD idx1 []) with
        | some (e, b') =>
          ({ d1 with ht1 := { d1.ht1 with table := d1.ht1.table.set idx1 b', used := d1.ht1.used - 1 } },
            some e, if nofree then [] else freeEntryEvents d1.type e)
        | none => (d1, none, [])
      else (d1, none, [])

/-- Modelled from the spec: `dictDelete` (`dict.h` line 178, body absent) —
generic delete with destructors invoked; `NotFound` when the key is absent. -/
def dictDelete (d : Dict K V) (key : K) :
    Dict K V × Except ErrorKind Unit × List (CallbackEvent K V) :=
  match dictGenericDelete d key false with
  | (d', some _, ev) => (d', .ok (), ev)
  | (d', none, ev) => (d', .error .notFound, ev)

/-- Modelled from the spec: `dictUnlink` (`dict.h` line 180, body absent) —
generic delete without invoking destructors; ownership of the node passes to
the caller; `NotFound` when the key is absent. -/
def dictUnlink (d : Dict K V) (key : K) :
    Dict K V × Except ErrorKind (DictEntry K V) × List (CallbackEvent K V) :=
  match dictGenericDelete d key true with
  | (d', some e, ev) => (d', .ok e, ev)
  | (d', none, ev) => (d', .error .notFound, ev)

/-- Modelled from the spec: `dictFreeUnlinkedEntry` (`dict.h` line 182, body
absent) — invoke the key and value destructors on a node previously returned
by `dictUnlink` and release it; a null entry is ignored. -/
def dictFreeUnlinkedEntry (t : DictType K V) : Option (DictEntry K V) → List (CallbackEvent K V)
  | none => []
  | some e => freeEntryEvents t e

/-- `dictFreeVal` macro (`dict.h` lines 119-121): invoke the value destructor
on the entry's value union when the behavior set supplies one. -/
def dictFreeVal (t : DictType K V) (e : DictEntry K V) : List (CallbackEvent K V) :=
  if t.hasValDestructor then [.valDestructorCall e.v] else []

/-- `dictSetSignedIntegerVal` macro (`dict.h` lines 130-131): write the `s64`
member of the entry's value union directly; no behavior-set callback is
consulted, so the callback trace is empty. -/
def dictSetSignedIntegerVal (e : DictEntry K V) (x : Int) :
    DictEntry K V × List (CallbackEvent K V) :=
  ({ e with v := .s64 x }, [])

/-- `dictSetUnsignedIntegerVal` macro (`dict.h` lines 133-134). -/
def dictSetUnsignedIntegerVal (e : DictEntry K V) (x : Nat) :
    DictEntry K V × List (CallbackEvent K V) :=
  ({ e with v := .u64 x }, [])

/-- `dictSetDoubleVal` macro (`dict.h` lines 136-137); the double member is
carried as its 64-bit pattern. -/
def dictSetDoubleVal (e : DictEntry K V) (x : Nat) :
    DictEntry K V × List (CallbackEvent K V) :=
  ({ e with v := .dbl x }, [])

/-- Apply an entry transformer to the entry at chain position `pos` of bucket
`idx` of one table generation — the C pattern of holding a `dictEntry *` into
the table and writing through it; out-of-range positions leave the table
untouched. -/
def updateEntryAt (ht : Dictht K V) (idx pos : Nat) (f : DictEntry K V → DictEntry K V) :
    Dictht K V :=
  let b := ht.table.getD idx []
  match b.get? pos with
  | some e => { ht with table := ht.table.set idx (b.set pos (f e)) }
  | none => ht

/-- The dictionary-level view of writing through an entry pointer: table
generation `tb` (`false` = table 0), bucket `idx`, chain position `pos`. -/
def dictUpdateEntryAt (d : Dict K V) (tb : Bool) (idx pos : Nat)
    (f : DictEntry K V → DictEntry K V) : Dict K V :=
  if tb then { d with ht1 := updateEntryAt d.ht1 idx pos f }
  else { d with ht0 := updateEntryAt d.ht0 idx pos f }

/-- The frame of an in-place entry update at table `tb`, bucket `idx`, chain
position `pos`: the behavior set, rehash cursor, iterator count, the other
table generation, the updated generation's geometry and used count, every
other bucket, every other chain position, and the stored keys (the targeted
position's key included) are unchanged. -/
def UpdateFrame (d d' : Dict K V) (tb : Bool) (idx pos : Nat) : Prop :=
  d'.type = d.type ∧ d'.rehashidx = d.rehashidx ∧ d'.iterators = d.iterators ∧
  (if tb then d'.ht0 = d.ht0 else d'.ht1 = d.ht1) ∧
  (let h' := if tb then d'.ht1 else d'.ht0
   let h := if tb then d.ht1 else d.ht0
   h'.size = h.size ∧ h'.sizemask = h.sizemask ∧ h'.used = h.used ∧
   (∀ j, j ≠ idx → h'.table.getD j [] = h.table.getD j []) ∧
   (∀ q, q ≠ pos → (h'.table.getD idx []).get? q = (h.table.getD idx []).get? q) ∧
   ((h'.table.getD idx []).get? pos).map (·.key)
     = ((h.table.getD idx []).get? pos).map (·.key)) ∧
  allKeys d' = allKeys d

/-- Modelled from the spec: `dictResize` (`dict.h` line 190, body absent) —
the explicit shrink-to-fit maintenance operation: fails while resizing is
disabled or a rehash is in progress, else requests the smallest size holding
all elements (at least the initial size). -/
def dictResize (d : Dict K V) (canResize : Bool) : Dict K V × Except ErrorKind Unit :=
  if ¬canResize || dictIsRehashing d then (d, .error .invalidSize)
  else dictExpand d (max d.ht0.used DICT_HT_INITIAL_SIZE)

/-! ### Iterators and the structural fingerprint -/

/-- Modelled from the spec (section 4.4): the structural fingerprint of the
dictionary — a value combining both tables' sizes and used counts (the table
addresses of the C original have no counterpart in a value model), captured
at unsafe-iterator creation and compared at release.  The combination is the
injective `Nat.pair` pairing. -/
def dictFingerprint (d : Dict K V) : Nat :=
  Nat.pair (Nat.pair d.ht0.size d.ht0.used) (Nat.pair d.ht1.size d.ht1.used)

/-- An iterator (`dictIterator`, `dict.h` lines 102-109); the current/next
entry pointers are not needed for the release-time misuse check modelled
here. -/
structure DictIterator where
  index : Int
  table : Nat
  safe : Bool
  fingerprint : Nat
deriving DecidableEq, Repr

/-- Modelled from the spec (section 4.4 Acquire): a fresh unsafe iterator with
`index = -1`, `table = 0`; the fingerprint summarizing both tables is
captured at creation. -/
def dictGetIterator (d : Dict K V) : DictIterator :=
  ⟨-1, 0, false, dictFingerprint d⟩

/-- Modelled from the spec (section 4.4 Acquire, safe variant). -/
def dictGetSafeIterator (d : Dict K V) : DictIterator :=
  ⟨-1, 0, true, dictFingerprint d⟩

/-- Modelled from the spec (section 4.4 Release): a safe iterator decrements
the live-iterator count; an unsafe iterator whose captured fingerprint no
longer matches the dictionary's current fingerprint fails fatally — the fatal
Misuse abort is modelled as `none`, a matching release as `some` of the
resulting dictionary. -/
def dictReleaseIterator (d : Dict K V) (it : DictIterator) : Option (Dict K V) :=
  if it.safe then some { d with iterators := d.iterators - 1 }
  else if it.fingerprint == dictFingerprint d then some d
  else none

/-! ### Random-key sampling -/

/-- Result of `dictGetRandomKey`: an entry, the `Empty` failure on an empty
dictionary, or exhaustion of the supplied random draws (the C original would
still be spinning in its rejection loop). -/
inductive RandResult (K V : Type) where
  | found : DictEntry K V → RandResult K V
  | emptyErr : RandResult K V
  | outOfDraws : RandResult K V
deriving DecidableEq, Repr

/-- Modelled from the spec (section 4.3 Random key sampling): the rejection
loop locating a non-empty bucket.  Draw `g i` selects, when rehashing, an
index in `[rehashidx, size0 + size1)` spanning both tables (buckets below the
cursor are already empty), otherwise a masked index of table 0.  Returns the
index of the next unconsumed draw together with the located bucket. -/
def randomNonemptyBucket (d : Dict K V) (g : Nat → Nat) : Nat → Nat → Option (Nat × Bucket K V)
  | _, 0 => none
  | i, fuel + 1 =>
    let b :=
      if dictIsRehashing d then
        let c := d.rehashidx.toNat
        let h := c + g i % (d.ht0.size + d.ht1.size - c)
        if h ≥ d.ht0.size then d.ht1.table.getD (h - d.ht0.size) []
        else d.ht0.table.getD h []
      else d.ht0.table.getD (g i &&& d.ht0.sizemask) []
    if b.isEmpty then randomNonemptyBucket d g (i + 1) fuel
    else some (i + 1, b)

/-- Modelled from the spec: `dictGetRandomKey` (`dict.h` line 200, body
absent) — fail with `Empty` on an empty dictionary; otherwise perform a
bounded rehash step, locate a non-empty bucket by rejection sampling, count
its chain and pick one node uniformly by a further draw (section 4.3). -/
def dictGetRandomKey (d : Dict K V) (g : Nat → Nat) (fuel : Nat) :
    Dict K V × RandResult K V :=
  if dictSize d == 0 then (d, .emptyErr)
  else
    let d1 := _dictRehashStep d
    match randomNonemptyBucket d1 g 0 fuel with
    | none => (d1, .outOfDraws)
    | some (i, b) =>
      match b.get? (g i % b.length) with
      | some e => (d1, .found e)
      | none => (d1, .outOfDraws)

/-- One conditioned round of the non-rehashing sampler: bucket draw `h`,
chain draw `r`.  `dictGetRandomKey` returns exactly `sampleOut d h r` when
its first accepted bucket draw is `h` and the following draw is `r`. -/
def sampleOut (d : Dict K V) (h r : Nat) : Option (DictEntry K V) :=
  let b := d.ht0.table.getD (h &&& d.ht0.sizemask) []
  if b.isEmpty then none else b.get? (r % b.length)

/-- The number of draw pairs `(h, r)` with `h < size0` and `r < range` whose
sampling outcome is the entry `e`: with uniform draws, the selection
probability of `e` is this count divided by the (entry-independent) count of
accepted pairs. -/
def sampleCount [DecidableEq V] (d : Dict K V) (range : Nat) (e : DictEntry K V) : Nat :=
  ((Finset.range d.ht0.size ×ˢ Finset.range range).filter
    (fun p => sampleOut d p.1 p.2 = some e)).card

/-! ### The scan cursor protocol -/

/-- Reversal of the low `n` bits of a natural number (the cursor `rev`
operation of the scan algorithm, on `n = 64` bits in C). -/
def bitRev (n : Nat) (x : Nat) : Nat :=
  match n with
  | 0 => 0
  | m + 1 => (x % 2) * 2 ^ m + bitRev m (x / 2)

/-- One reverse-binary cursor increment against mask `m` on 64-bit cursors:
`v |= ~m; v = rev(v); v++; v = rev(v);` with `~` and `++` at 64 bits. -/
def scanStep (m : Nat) (v : Nat) : Nat :=
  bitRev 64 ((bitRev 64 (v ||| (2 ^ 64 - 1 - m)) + 1) % 2 ^ 64)

/-- Modelled from the spec (section 4.5): the inner loop of a scan call while
rehashing — visit every bucket of the larger table expanding the cursor's
index in the smaller table, advancing the cursor by reverse-binary increment
against the larger mask until the bits covered by the mask difference return
to zero.  The fuel bound only guards totality; well-formed states exit on
their own. -/
def scanExpand (t1 : Dictht K V) (m0 m1 : Nat) : Nat → Nat → List (DictEntry K V) × Nat
  | v, 0 => ([], v)
  | v, fuel + 1 =>
    let es := t1.table.getD (v &&& m1) []
    let v' := scanStep m1 v
    if v' &&& (m0 ^^^ m1) == 0 then (es, v')
    else
      let (rest, vf) := scanExpand t1 m0 m1 v' fuel
      (es ++ rest, vf)

/-- Modelled from the spec: `dictScan` (`dict.h` lines 224-226, body absent).
One scan call: an empty dictionary immediately returns cursor 0; otherwise
the bucket of the cursor (masked) is emitted and the cursor reverse-binary
incremented; while rehashing, the smaller table's bucket is emitted followed
by every corresponding bucket of the larger table (section 4.5).  Returns the
entries visited (in emission order) and the next cursor. -/
def dictScan (d : Dict K V) (v : Nat) : List (DictEntry K V) × Nat :=
  if dictSize d == 0 then ([], 0)
  else if ¬dictIsRehashing d then
    (d.ht0.table.getD (v &&& d.ht0.sizemask) [], scanStep d.ht0.sizemask v)
  else
    let t0 := if d.ht0.size > d.ht1.size then d.ht1 else d.ht0
    let t1 := if d.ht0.size > d.ht1.size then d.ht0 else d.ht1
    let es0 := t0.table.getD (v &&& t0.sizemask) []
    let (es1, v') := scanExpand t1 t0.sizemask t1.sizemask v t1.size
    (es0 ++ es1, v')

/-- A full scan-cursor walk over an unmutated dictionary: repeated `dictScan`
calls feeding each returned cursor into the next call, ending when a call
returns 0; `fuel` bounds the number of calls. -/
def scanWalk (d : Dict K V) : Nat → Nat → List (DictEntry K V)
  | _, 0 => []
  | v, fuel + 1 =>
    let (es, v') := dictScan d v
    if v' == 0 then es else es ++ scanWalk d v' fuel

/-- A concrete behavior set over `Nat` keys and values — identity hash, no
callbacks — used to instantiate the general theorems on executable states. -/
def natType : DictType Nat Nat :=
  ⟨id, none, none, none, false, false⟩

/-! ### Operation sequences -/

/-- The public mutating/lookup operations a client can drive a dictionary
with, used to quantify over "any sequence of operations". -/
inductive DictOp (K V : Type) where
  | add : K → V → DictOp K V
  | delete : K → DictOp K V
  | unlink : K → DictOp K V
  | find : K → DictOp K V
  | expand : Nat → DictOp K V
  | resize : DictOp K V
  | rehash : Nat → DictOp K V
  | enableResize : DictOp K V
  | disableResize : DictOp K V
deriving DecidableEq, Repr

/-- A dictionary together with the process-wide resize toggle. -/
structure World (K V : Type) where
  d : Dict K V
  canResize : Bool

/-- Apply one operation (dropping results, keeping the state). -/
def applyOp (w : World K V) : DictOp K V → World K V
  | .add k v => { w with d := (dictAdd w.d k v w.canResize).1 }
  | .delete k => { w with d := (dictDelete w.d k).1 }
  | .unlink k => { w with d := (dictUnlink w.d k).1 }
  | .find k => { w with d := (dictFind w.d k).1 }
  | .expand n => { w with d := (dictExpand w.d n).1 }
  | .resize => { w with d := (dictResize w.d w.canResize).1 }
  | .rehash n => { w with d := (dictRehash w.d n).1 }
  | .enableResize => { w with canResize := true }
  | .disableResize => { w with canResize := false }

/-- Run an operation sequence from a freshly created dictionary (resizing
initially enabled). -/
def runOps (t : DictType K V) (ops : List (DictOp K V)) : World K V :=
  ops.foldl applyOp ⟨dictCreate t, true⟩

/-- An interactive scan session (spec section 4.5 usage protocol): repeated
`dictScan` calls feeding each returned cursor into the next call, the client
applying a batch of operations between consecutive calls; ends successfully
when a call returns cursor 0.  Returns the entries emitted across all calls
and whether the walk completed within `fuel` calls. -/
def scanSessionAux : World K V → Nat → List (List (DictOp K V)) → Nat →
    List (DictEntry K V) × Bool
  | _, _, _, 0 => ([], false)
  | w, v, batches, fuel + 1 =>
    let (es, v') := dictScan w.d v
    if v' == 0 then (es, true)
    else
      let w2 := (batches.headD []).foldl applyOp w
      let (rest, done) := scanSessionAux w2 v' batches.tail fuel
      (es ++ rest, done)

/-- A session started at cursor 0. -/
def scanSession (w : World K V) (batches : List (List (DictOp K V))) (fuel : Nat) :
    List (DictEntry K V) × Bool :=
  scanSessionAux w 0 batches fuel

/-- The dictionary states at which the session's successive calls are issued
(used to state boundedness of the table sizes along a session). -/
def sessionStates : World K V → Nat → List (List (DictOp K V)) → Nat → List (World K V)
  | _, _, _, 0 => []
  | w, v, batches, fuel + 1 =>
    let (_, v') := dictScan w.d v
    if v' == 0 then [w]
    else w :: sessionStates ((batches.headD []).foldl applyOp w) v' batches.tail fuel

/-- Whether a key is findable inside one table generation by the table's own
lookup procedure: scan the chain of the key's bucket under this table's
mask. -/
def findInHt (t : DictType K V) (ht : Dictht K V) (k : K) : Option (DictEntry K V) :=
  searchBucket t k (bucketOf ht (t.hashFunction k))

/-! ### Well-formedness -/

/-- A lawful behavior set for correctness statements: the chain-scan test is
genuine key equality (always true for the identity-comparison fallback, and
the contract of a supplied comparator), and key duplication produces an equal
key (duplication copies the key's value). -/
structure GoodType (t : DictType K V) : Prop where
  cmp_iff : ∀ a b, matchKey t a b = true ↔ a = b
  dup_id : ∀ f, t.keyDup = some f → ∀ a, f a = a

/-- Well-formedness of one table generation: the cached size, mask and used
count are consistent with the bucket array, the size is zero or a power of
two, and every entry sits in the bucket its masked hash selects. -/
structure HtWF (hash : K → Nat) (ht : Dictht K V) : Prop where
  size_def : ht.size = ht.table.length
  mask_def : ht.sizemask = ht.size - 1
  pow : ht.size = 0 ∨ ∃ k, ht.size = 2 ^ k
  used_def : ht.used = (ht.table.map List.length).sum
  placed : ∀ i, ∀ e ∈ ht.table.getD i [], hash e.key &&& ht.sizemask = i

/-- The dictionary invariant maintained by every operation: both generations
well formed, no key stored twice, and the rehash state consistent — when not
rehashing, table 1 is the reset table; when rehashing, both tables are
allocated and every table-0 bucket below the cursor has been emptied. -/
structure Inv (d : Dict K V) : Prop where
  wf0 : HtWF d.type.hashFunction d.ht0
  wf1 : HtWF d.type.hashFunction d.ht1
  nodup : (allKeys d).Nodup
  rehash_state :
    (d.rehashidx = -1 ∧ d.ht1 = dicthtReset) ∨
      (0 ≤ d.rehashidx ∧ d.ht0.size ≠ 0 ∧ d.ht1.size ≠ 0 ∧
        ∀ i < d.rehashidx.toNat, d.ht0.table.getD i [] = [])

/-! ### List helper lemmas -/

theorem getD_set_self {α : Type _} {l : List α} {i : Nat} {b d : α} (h : i < l.length) :
    (l.set i b).getD i d = b := by
  simp [List.getD, List.getElem?_set_self', h]

theorem getD_set_ne {α : Type _} {l : List α} {i j : Nat} {b d : α} (h : j ≠ i) :
    (l.set i b).getD j d = l.getD j d := by
  simp [List.getD, List.getElem?_set_ne (Ne.symm h)]

theorem getD_replicate {α : Type _} {n i : Nat} {x d : α} (h : i < n) :
    (List.replicate n x).getD i d = x := by
  simp [List.getD, List.getElem?_replicate, h]

theorem getD_append_left {α : Type _} {l₁ l₂ : List α} {i : Nat} {d : α} (h : i < l₁.length) :
    (l₁ ++ l₂).getD i d = l₁.getD i d := by
  simp [List.getD, List.getElem?_append_left h]

theorem getD_eq_default_of_le {α : Type _} {l : List α} {i : Nat} {d : α}
    (h : l.length ≤ i) : l.getD i d = d := by
  simp [List.getD, List.getElem?_eq_none h]

theorem mem_getD_flatten {α : Type _} {l : List (List α)} {i : Nat} {x : α}
    (h : x ∈ l.getD i []) : x ∈ l.flatten := by
  rcases Nat.lt_or_ge i l.length with hi | hi
  · refine List.mem_flatten.2 ⟨l.getD i [], ?_, h⟩
    rw [List.getD, List.get?_eq_getElem?, List.getElem?_eq_getElem hi]
    exact List.getElem_mem _
  · rw [getD_eq_default_of_le hi] at h
    cases h

theorem set_eq_take_cons_drop {α : Type _} {l : List α} {i : Nat} {b : α} (h : i < l.length) :
    l.set i b = l.take i ++ b :: l.drop (i + 1) := by
  induction l generalizing i with
  | nil => cases h
  | cons a l ih =>
    cases i with
    | zero => simp
    | succ i =>
      simp only [List.set, List.take, List.drop, List.cons_append, List.cons.injEq, true_and]
      exact ih (by simpa using h)

theorem self_eq_take_cons_drop {α : Type _} {l : List α} {i : Nat} (h : i < l.length)
    (d : α) : l = l.take i ++ l.getD i d :: l.drop (i + 1) := by
  rw [List.getD, List.get?_eq_getElem?, List.getElem?_eq_getElem h]
  conv_lhs => rw [← List.take_append_drop i l]
  congr 1
  rw [List.drop_eq_getElem_cons h]
  rfl

/-- The flatten of a table with bucket `i` replaced, as a frame around the
replaced bucket. -/
theorem flatten_set {α : Type _} {l : List (List α)} {i : Nat} {b : List α}
    (h : i < l.length) :
    (l.set i b).flatten = (l.take i).flatten ++ b ++ (l.drop (i + 1)).flatten := by
  rw [set_eq_take_cons_drop h]
  simp

/-- The flatten of a table, as a frame around bucket `i`. -/
theorem flatten_frame {α : Type _} {l : List (List α)} {i : Nat}
    (h : i < l.length) :
    l.flatten = (l.take i).flatten ++ l.getD i [] ++ (l.drop (i + 1)).flatten := by
  conv_lhs => rw [self_eq_take_cons_drop h ([] : List α)]
  simp

theorem sum_map_length_set {α : Type _} {l : List (List α)} {i : Nat} {b : List α}
    (h : i < l.length) :
    ((l.set i b).map List.length).sum + (l.getD i []).length
      = (l.map List.length).sum + b.length := by
  conv_rhs => rw [self_eq_take_cons_drop h ([] : List α)]
  rw [set_eq_take_cons_drop h]
  simp
  omega

theorem exists_index_of_mem_flatten {α : Type _} {l : List (List α)} {x : α}
    (h : x ∈ l.flatten) : ∃ i < l.length, x ∈ l.getD i [] := by
  rcases List.mem_flatten.1 h with ⟨b, hb, hx⟩
  rcases List.mem_iff_getElem.1 hb with ⟨i, hi, rfl⟩
  refine ⟨i, hi, ?_⟩
  rw [List.getD, List.get?_eq_getElem?, List.getElem?_eq_getElem hi]
  exact hx

/-! ### Bucket search and removal -/

section Search

variable {t : DictType K V} {k : K} {b : Bucket K V} {e : DictEntry K V}

theorem searchBucket_eq_none : searchBucket t k b = none ↔ ∀ x ∈ b, ¬matchKey t k x.key := by
  simp [searchBucket, List.find?_eq_none]

theorem searchBucket_some_mem (h : searchBucket t k b = some e) : e ∈ b :=
  List.mem_of_find?_eq_some h

theorem searchBucket_some_match (h : searchBucket t k b = some e) :
    matchKey t k e.key = true := by
  have h2 := List.find?_some h
  simpa using h2

theorem searchBucket_isSome :
    (searchBucket t k b).isSome ↔ ∃ x ∈ b, matchKey t k x.key := by
  simp [searchBucket, List.find?_isSome]

theorem GoodType.searchBucket_some_key (hg : GoodType t) (h : searchBucket t k b = some e) :
    e.key = k := ((hg.cmp_iff k e.key).1 (searchBucket_some_match h)).symm

theorem GoodType.searchBucket_eq_none_iff (hg : GoodType t) :
    searchBucket t k b = none ↔ k ∉ b.map (·.key) := by
  rw [searchBucket_eq_none]
  constructor
  · intro h hk
    rcases List.mem_map.1 hk with ⟨x, hx, hkey⟩
    exact h x hx ((hg.cmp_iff k x.key).2 hkey.symm)
  · intro h x hx hm
    exact h (List.mem_map.2 ⟨x, hx, ((hg.cmp_iff k x.key).1 hm).symm⟩)

theorem GoodType.searchBucket_isSome_iff (hg : GoodType t) :
    (searchBucket t k b).isSome ↔ k ∈ b.map (·.key) := by
  rw [searchBucket_isSome]
  constructor
  · rintro ⟨x, hx, hm⟩
    exact List.mem_map.2 ⟨x, hx, ((hg.cmp_iff k x.key).1 hm).symm⟩
  · intro hk
    rcases List.mem_map.1 hk with ⟨x, hx, hkey⟩
    exact ⟨x, hx, (hg.cmp_iff k x.key).2 hkey.symm⟩

/-- A successful removal decomposes the chain around the first matching entry. -/
theorem removeFirst_some {b' : Bucket K V} (h : removeFirst t k b = some (e, b')) :
    ∃ pre post, b = pre ++ e :: post ∧ b' = pre ++ post ∧
      matchKey t k e.key = true ∧ ∀ x ∈ pre, ¬matchKey t k x.key := by
  induction b generalizing b' with
  | nil => simp [removeFirst] at h
  | cons a rest ih =>
    by_cases hm : matchKey t k a.key
    · rw [removeFirst, if_pos hm] at h
      injection h with h2
      injection h2 with h3 h4
      subst h3; subst h4
      exact ⟨[], rest, rfl, rfl, hm, by simp⟩
    · rw [removeFirst, if_neg hm] at h
      rcases hrec : removeFirst t k rest with _ | ⟨f, rest'⟩
      · rw [hrec] at h; cases h
      · rw [hrec] at h
        injection h with h2
        injection h2 with h3 h4
        subst h3; subst h4
        rcases ih hrec with ⟨pre, post, hb, hb', hme, hpre⟩
        exact ⟨a :: pre, post, by simp [hb], by simp [hb'],
          hme, by simpa [hm] using hpre⟩

theorem removeFirst_none : removeFirst t k b = none ↔ ∀ x ∈ b, ¬matchKey t k x.key := by
  induction b with
  | nil => simp [removeFirst]
  | cons a rest ih =>
    by_cases hm : matchKey t k a.key
    · simp [removeFirst, hm]
    · rw [removeFirst, if_neg hm]
      rcases hrec : removeFirst t k rest with _ | ⟨f, rest'⟩
      · constructor
        · intro _ x hx
          rcases List.mem_cons.1 hx with rfl | hx'
          · exact hm
          · exact ih.1 hrec x hx'
        · intro _
          rfl
      · rcases removeFirst_some hrec with ⟨pre, post, hb, _, hme, _⟩
        simp only [List.mem_cons]
        constructor
        · intro h; cases h
        · intro h
          exact absurd hme (h f (Or.inr (by simp [hb])))

end Search

/-! ### Well-formedness facts -/

section WF

variable {t : DictType K V} {hash : K → Nat} {ht : Dictht K V} {d : Dict K V}

theorem HtWF.mask_lt (h : HtWF hash ht) (hs : ht.size ≠ 0) (x : Nat) :
    x &&& ht.sizemask < ht.size := by
  rcases h.pow with h0 | ⟨k, hk⟩
  · exact absurd h0 hs
  · rw [h.mask_def, hk]
    exact Nat.and_lt_two_pow x (Nat.sub_lt (Nat.two_pow_pos k) Nat.one_pos)

theorem HtWF.idx_lt_length (h : HtWF hash ht) (hs : ht.size ≠ 0) (x : Nat) :
    x &&& ht.sizemask < ht.table.length := by
  rw [← h.size_def]; exact h.mask_lt hs x

theorem HtWF.table_eq_nil (h : HtWF hash ht) (hs : ht.size = 0) : ht.table = [] :=
  List.length_eq_zero.1 (by rw [← h.size_def, hs])

theorem HtWF.used_eq_length (h : HtWF hash ht) : ht.used = (htEntries ht).length := by
  rw [h.used_def, htEntries, List.length_flatten]

theorem HtWF.entry_mem_bucket (h : HtWF hash ht) {e : DictEntry K V}
    (he : e ∈ htEntries ht) : e ∈ ht.table.getD (hash e.key &&& ht.sizemask) [] := by
  rcases exists_index_of_mem_flatten he with ⟨i, hi, hmem⟩
  rw [h.placed i e hmem]
  exact hmem

/-- A key is findable in a well-formed table exactly when it is stored in it. -/
theorem HtWF.findInHt_isSome (hg : GoodType t) (h : HtWF t.hashFunction ht) {k : K} :
    (findInHt t ht k).isSome ↔ k ∈ (htEntries ht).map (·.key) := by
  rw [findInHt, searchBucket_isSome]
  constructor
  · rintro ⟨x, hx, hm⟩
    exact List.mem_map.2 ⟨x, mem_getD_flatten hx, ((hg.cmp_iff k x.key).1 hm).symm⟩
  · intro hk
    rcases List.mem_map.1 hk with ⟨x, hx, hkey⟩
    subst hkey
    exact ⟨x, h.entry_mem_bucket hx, (hg.cmp_iff x.key x.key).2 rfl⟩

theorem dicthtReset_wf : HtWF hash (dicthtReset : Dictht K V) := by
  refine ⟨rfl, rfl, Or.inl rfl, rfl, ?_⟩
  intro i e he
  simp [dicthtReset, List.getD] at he

theorem nextPowerLoop_spec (size fuel cur : Nat) (h1 : 1 ≤ cur)
    (h2 : size ≤ cur + fuel) :
    cur ≤ nextPowerLoop size cur fuel ∧ size ≤ nextPowerLoop size cur fuel ∧
      ∀ k, cur = 2 ^ k → ∃ j, nextPowerLoop size cur fuel = 2 ^ j := by
  induction fuel generalizing cur with
  | zero =>
    simp only [nextPowerLoop]
    exact ⟨le_refl _, by omega, fun k hk => ⟨k, hk⟩⟩
  | succ f ih =>
    simp only [nextPowerLoop]
    by_cases hle : size ≤ cur
    · rw [if_pos hle]
      exact ⟨le_refl _, hle, fun k hk => ⟨k, hk⟩⟩
    · rw [if_neg hle]
      rcases ih (cur * 2) (by omega) (by omega) with ⟨ha, hb, hc⟩
      exact ⟨le_trans (by omega) ha, hb,
        fun k hk => hc (k + 1) (by rw [hk]; ring)⟩

theorem _dictNextPower_isPow (s : Nat) : ∃ k, _dictNextPower s = 2 ^ k := by
  rcases nextPowerLoop_spec s s DICT_HT_INITIAL_SIZE (by norm_num [DICT_HT_INITIAL_SIZE])
      (by omega) with ⟨_, _, hc⟩
  exact hc 2 (by norm_num [DICT_HT_INITIAL_SIZE])

theorem _dictNextPower_ge (s : Nat) : s ≤ _dictNextPower s :=
  (nextPowerLoop_spec s s DICT_HT_INITIAL_SIZE (by norm_num [DICT_HT_INITIAL_SIZE])
    (by omega)).2.1

theorem _dictNextPower_pos (s : Nat) : 0 < _dictNextPower s :=
  lt_of_lt_of_le (by norm_num [DICT_HT_INITIAL_SIZE])
    (nextPowerLoop_spec s s DICT_HT_INITIAL_SIZE (by norm_num [DICT_HT_INITIAL_SIZE])
      (by omega)).1

theorem dicthtMake_wf {n : Nat} (hn : ∃ k, n = 2 ^ k) :
    HtWF hash (dicthtMake n : Dictht K V) := by
  refine ⟨by simp [dicthtMake], rfl, Or.inr hn, ?_, ?_⟩
  · simp [dicthtMake, List.map_replicate]
  · intro i e he
    rcases Nat.lt_or_ge i n with hi | hi
    · rw [show (dicthtMake n : Dictht K V).table = List.replicate n [] from rfl,
        getD_replicate hi] at he
      cases he
    · rw [getD_eq_default_of_le (by simpa [dicthtMake] using hi)] at he
      cases he

theorem htEntries_reset : htEntries (dicthtReset : Dictht K V) = [] := rfl

theorem htEntries_make (n : Nat) : htEntries (dicthtMake n : Dictht K V) = [] := by
  rw [htEntries, dicthtMake]
  simp [List.flatten_eq_nil_iff]

theorem Inv.size_eq_total (h : Inv d) : dictSize d = totalCount d := by
  rw [dictSize, totalCount, allEntries, List.length_append,
    h.wf0.used_eq_length, h.wf1.used_eq_length]

theorem Inv.dictCreate (tp : DictType K V) : Inv (Redis5Dict.dictCreate tp) := by
  refine ⟨dicthtReset_wf, dicthtReset_wf, ?_, Or.inl ⟨rfl, rfl⟩⟩
  simp [allKeys, allEntries, Redis5Dict.dictCreate, htEntries_reset]

/-- Any stored key is findable in exactly one of the two tables. -/
theorem Inv.findable_xor (hg : GoodType d.type) (h : Inv d) {k : K}
    (hk : k ∈ allKeys d) :
    (findInHt d.type d.ht0 k).isSome ≠ (findInHt d.type d.ht1 k).isSome := by
  have h0 := HtWF.findInHt_isSome hg h.wf0 (k := k)
  have h1 := HtWF.findInHt_isSome hg h.wf1 (k := k)
  have hmem : k ∈ (htEntries d.ht0).map (·.key) ∨ k ∈ (htEntries d.ht1).map (·.key) := by
    rw [allKeys, allEntries, List.map_append] at hk
    exact List.mem_append.1 hk
  have hnd := h.nodup
  rw [allKeys, allEntries, List.map_append] at hnd
  have hdisj := List.disjoint_of_nodup_append hnd
  rcases hmem with hm | hm
  · have e0 : (findInHt d.type d.ht0 k).isSome = true := h0.2 hm
    cases hv : (findInHt d.type d.ht1 k).isSome with
    | false => rw [e0]; simp
    | true => exact (hdisj hm (h1.1 hv)).elim
  · have e1 : (findInHt d.type d.ht1 k).isSome = true := h1.2 hm
    cases hv : (findInHt d.type d.ht0 k).isSome with
    | false => rw [e1]; simp
    | true => exact (hdisj (h0.1 hv) hm).elim

end WF

/-! ### Effects of the table-level primitives -/

section Primitives

variable {t : DictType K V} {hash : K → Nat} {ht : Dictht K V}
variable {e : DictEntry K V} {idx : Nat} {b : Bucket K V}

theorem htInsertHead_entries (hlt : idx < ht.table.length) :
    List.Perm (htEntries (htInsertHead ht idx e)) (e :: htEntries ht) := by
  rw [htEntries, htInsertHead, flatten_set hlt]
  conv_rhs => rw [htEntries, flatten_frame hlt]
  simp only [List.cons_append, List.append_assoc]
  exact List.perm_middle

theorem htInsertHead_wf (h : HtWF hash ht) (hs : ht.size ≠ 0)
    (hidx : hash e.key &&& ht.sizemask = idx) :
    HtWF hash (htInsertHead ht idx e) := by
  have hlt : idx < ht.table.length := hidx ▸ h.idx_lt_length hs _
  refine ⟨by simp [htInsertHead, h.size_def], h.mask_def, h.pow, ?_, ?_⟩
  · have := sum_map_length_set (l := ht.table) (b := e :: ht.table.getD idx []) hlt
    have hud := h.used_def
    simp only [htInsertHead, List.length_cons] at this ⊢
    omega
  · intro i x hx
    rcases eq_or_ne i idx with rfl | hne
    · rw [show (htInsertHead ht i e).table = ht.table.set i (e :: ht.table.getD i []) from rfl,
        getD_set_self hlt] at hx
      rcases List.mem_cons.1 hx with rfl | hx'
      · exact hidx
      · exact h.placed i x hx'
    · rw [show (htInsertHead ht idx e).table = ht.table.set idx (e :: ht.table.getD idx [])
        from rfl, getD_set_ne hne] at hx
      exact h.placed i x hx

theorem htInsertHead_size : (htInsertHead ht idx e).size = ht.size := rfl

theorem htInsertHead_used : (htInsertHead ht idx e).used = ht.used + 1 := rfl

theorem htInsertHead_mask : (htInsertHead ht idx e).sizemask = ht.sizemask := rfl

theorem migrateEntry_used : (migrateEntry t ht e).used = ht.used + 1 := rfl

theorem migrateEntry_size : (migrateEntry t ht e).size = ht.size := rfl

theorem migrateEntry_mask : (migrateEntry t ht e).sizemask = ht.sizemask := rfl

/-- Combined effect of migrating a chain into table 1: well-formedness is
preserved, the migrated entries join the table's entries, the used count
grows by the chain length, and the geometry is unchanged. -/
theorem migrateBucket_spec (h : HtWF t.hashFunction ht) (hs : ht.size ≠ 0) :
    HtWF t.hashFunction (migrateBucket t b ht) ∧
      List.Perm (htEntries (migrateBucket t b ht)) (b ++ htEntries ht) ∧
      (migrateBucket t b ht).used = ht.used + b.length ∧
      (migrateBucket t b ht).size = ht.size ∧
      (migrateBucket t b ht).sizemask = ht.sizemask := by
  induction b generalizing ht with
  | nil => exact ⟨h, by simp [migrateBucket], by simp [migrateBucket], rfl, rfl⟩
  | cons x rest ih =>
    have hstep : migrateBucket t (x :: rest) ht
        = migrateBucket t rest (migrateEntry t ht x) := rfl
    have hwf' : HtWF t.hashFunction (migrateEntry t ht x) :=
      htInsertHead_wf h hs rfl
    have hs' : (migrateEntry t ht x).size ≠ 0 := hs
    rcases ih hwf' hs' with ⟨hwf2, hperm2, hused2, hsize2, hmask2⟩
    refine ⟨hstep ▸ hwf2, ?_, ?_, ?_, ?_⟩
    · rw [hstep]
      refine hperm2.trans ?_
      refine (List.Perm.append_left rest
        (htInsertHead_entries (h.idx_lt_length hs _))).trans ?_
      simp only [List.cons_append]
      exact List.perm_middle
    · rw [hstep, hused2, migrateEntry_used]
      simp only [List.length_cons]
      omega
    · rw [hstep, hsize2, migrateEntry_size]
    · rw [hstep, hmask2, migrateEntry_mask]

theorem htSetHeadVal_keys {newV : DictUnion V} :
    (htEntries (htSetHeadVal ht idx newV)).map (·.key) = (htEntries ht).map (·.key) ∧
      (htSetHeadVal ht idx newV).used = ht.used ∧
      (htSetHeadVal ht idx newV).size = ht.size ∧
      (htSetHeadVal ht idx newV).sizemask = ht.sizemask := by
  refine ⟨?_, rfl, rfl, rfl⟩
  rcases Nat.lt_or_ge idx ht.table.length with hlt | hge
  · rw [htEntries, htEntries, htSetHeadVal]
    rw [flatten_set hlt]
    conv_rhs => rw [flatten_frame hlt]
    simp only [List.map_append]
    congr 1
    congr 1
    cases hb : ht.table.getD idx [] with
    | nil => simp
    | cons y ys => simp
  · rw [htSetHeadVal, getD_eq_default_of_le hge, List.set_eq_of_length_le hge]

theorem htSetHeadVal_wf (h : HtWF hash ht) {newV : DictUnion V} :
    HtWF hash (htSetHeadVal ht idx newV) := by
  refine ⟨by simp [htSetHeadVal, h.size_def], h.mask_def, h.pow, ?_, ?_⟩
  · rcases Nat.lt_or_ge idx ht.table.length with hlt | hge
    · cases hb : ht.table.getD idx [] with
      | nil =>
        have hfr := sum_map_length_set (l := ht.table) (b := ([] : Bucket K V)) hlt
        have hud := h.used_def
        simp only [htSetHeadVal, hb]
        rw [hb] at hfr
        simp only [List.length_nil] at hfr
        omega
      | cons y ys =>
        have hfr := sum_map_length_set (l := ht.table)
          (b := ({ y with v := newV } :: ys)) hlt
        have hud := h.used_def
        simp only [htSetHeadVal, hb]
        rw [hb] at hfr
        simp only [List.length_cons] at hfr
        omega
    · simp only [htSetHeadVal, List.set_eq_of_length_le hge]
      exact h.used_def
  · intro i x hx
    rcases Nat.lt_or_ge idx ht.table.length with hlt | hge
    · rcases eq_or_ne i idx with rfl | hne
      · rw [show (htSetHeadVal ht i newV).table = ht.table.set i
            (match ht.table.getD i [] with
             | [] => []
             | e :: rest => { e with v := newV } :: rest) from rfl,
          getD_set_self hlt] at hx
        cases hb : ht.table.getD i [] with
        | nil => rw [hb] at hx; cases hx
        | cons y ys =>
          rw [hb] at hx
          rcases List.mem_cons.1 hx with rfl | hx'
          · have := h.placed i y (by rw [hb]; exact List.mem_cons_self y ys)
            simpa using this
          · exact h.placed i x (by rw [hb]; exact List.mem_cons_of_mem y hx')
      · rw [show (htSetHeadVal ht idx newV).table = ht.table.set idx
            (match ht.table.getD idx [] with
             | [] => []
             | e :: rest => { e with v := newV } :: rest) from rfl,
          getD_set_ne hne] at hx
        exact h.placed i x hx
    · rw [show (htSetHeadVal ht idx newV).table = ht.table.set idx
          (match ht.table.getD idx [] with
           | [] => []
           | e :: rest => { e with v := newV } :: rest) from rfl,
        List.set_eq_of_length_le hge] at hx
      exact h.placed i x hx

end Primitives

/-! ### Expansion preserves the invariant -/

section Expand

variable {d : Dict K V}

theorem not_rehashing_iff : dictIsRehashing d = false ↔ d.rehashidx = -1 := by
  simp [dictIsRehashing]

theorem rehashing_iff : dictIsRehashing d = true ↔ d.rehashidx ≠ -1 := by
  simp [dictIsRehashing]

theorem Inv.ht1_reset (h : Inv d) (hr : dictIsRehashing d = false) : d.ht1 = dicthtReset := by
  rcases h.rehash_state with ⟨_, h1⟩ | ⟨hge, _⟩
  · exact h1
  · rw [not_rehashing_iff.1 hr] at hge
    cases hge

theorem Inv.rehash_inr (h : Inv d) (hr : dictIsRehashing d = true) :
    0 ≤ d.rehashidx ∧ d.ht0.size ≠ 0 ∧ d.ht1.size ≠ 0 ∧
      ∀ i < d.rehashidx.toNat, d.ht0.table.getD i [] = [] := by
  rcases h.rehash_state with ⟨he, _⟩ | hh
  · exact absurd he (rehashing_iff.1 hr)
  · exact hh

theorem dictExpand_spec (h : Inv d) (n : Nat) :
    Inv (dictExpand d n).1 ∧ (dictExpand d n).1.type = d.type ∧
      allEntries (dictExpand d n).1 = allEntries d := by
  by_cases hg : (dictIsRehashing d || decide (d.ht0.used > n)) = true
  · rw [dictExpand, if_pos hg]
    exact ⟨h, rfl, rfl⟩
  · have hg' := hg
    rw [Bool.or_eq_true, not_or] at hg'
    obtain ⟨hr, _⟩ := hg'
    have hr : dictIsRehashing d = false := by
      cases hv : dictIsRehashing d
      · rfl
      · exact absurd hv hr
    have hridx : d.rehashidx = -1 := not_rehashing_iff.1 hr
    have hpow := _dictNextPower_isPow n
    by_cases h0 : (d.ht0.size == 0) = true
    · rw [dictExpand, if_neg hg, if_pos h0]
      have htab : d.ht0.table = [] := h.wf0.table_eq_nil (by simpa using h0)
      have hent : htEntries d.ht0 = [] := by rw [htEntries, htab]; rfl
      refine ⟨⟨dicthtMake_wf hpow, h.wf1, ?_, Or.inl ⟨hridx, h.ht1_reset hr⟩⟩, rfl, ?_⟩
      · have : allKeys { d with ht0 := dicthtMake (_dictNextPower n) } = allKeys d := by
          rw [allKeys, allKeys, allEntries, allEntries]
          simp only [htEntries_make, hent]
        rw [this]
        exact h.nodup
      · rw [allEntries, allEntries]
        simp only [htEntries_make, hent]
    · rw [dictExpand, if_neg hg, if_neg h0]
      have hs0 : d.ht0.size ≠ 0 := by simpa using h0
      have hsmk : (dicthtMake (_dictNextPower n) : Dictht K V).size ≠ 0 := by
        have := _dictNextPower_pos n
        simp [dicthtMake]
        omega
      have hent1 : htEntries d.ht1 = [] := by
        rw [h.ht1_reset hr]
        rfl
      refine ⟨⟨h.wf0, dicthtMake_wf hpow, ?_, Or.inr ⟨le_refl 0, hs0, hsmk, ?_⟩⟩, rfl, ?_⟩
      · have : allKeys { d with ht1 := dicthtMake (_dictNextPower n), rehashidx := 0 }
            = allKeys d := by
          rw [allKeys, allKeys, allEntries, allEntries]
          simp only [htEntries_make, hent1]
        rw [this]
        exact h.nodup
      · intro i hi
        simp at hi
      · rw [allEntries, allEntries]
        simp only [htEntries_make, hent1]

theorem dictExpand_ok {n : Nat} (hr : dictIsRehashing d = false) (hle : d.ht0.used ≤ n) :
    (dictExpand d n).2 = .ok () := by
  have hg : (dictIsRehashing d || decide (d.ht0.used > n)) = false := by
    rw [hr]
    simpa using hle
  rw [dictExpand, if_neg (by rw [hg]; simp)]
  by_cases h0 : (d.ht0.size == 0) = true
  · rw [if_pos h0]
  · rw [if_neg h0]

theorem _dictExpandIfNeeded_spec (h : Inv d) (c : Bool) :
    Inv (_dictExpandIfNeeded d c).1 ∧ (_dictExpandIfNeeded d c).1.type = d.type ∧
      allEntries (_dictExpandIfNeeded d c).1 = allEntries d ∧
      (_dictExpandIfNeeded d c).2 = .ok () ∧
      (_dictExpandIfNeeded d c).1.ht0.size ≠ 0 := by
  rw [_dictExpandIfNeeded]
  by_cases hr : dictIsRehashing d = true
  · rw [if_pos hr]
    exact ⟨h, rfl, rfl, rfl, (h.rehash_inr hr).2.1⟩
  · have hr' : dictIsRehashing d = false := by
      cases hv : dictIsRehashing d
      · rfl
      · exact absurd hv hr
    rw [if_neg hr]
    by_cases h0 : (d.ht0.size == 0) = true
    · rw [if_pos h0]
      have htab : d.ht0.table = [] := h.wf0.table_eq_nil (by simpa using h0)
      have hu : d.ht0.used = 0 := by
        rw [h.wf0.used_def, htab]
        rfl
      rcases dictExpand_spec h DICT_HT_INITIAL_SIZE with ⟨hi, ht, he⟩
      refine ⟨hi, ht, he, dictExpand_ok hr' (by rw [hu]; exact Nat.zero_le _), ?_⟩
      rw [dictExpand, if_neg (by rw [hr']; simp; omega), if_pos h0]
      have := _dictNextPower_pos DICT_HT_INITIAL_SIZE
      simp [dicthtMake]
      omega
    · rw [if_neg h0]
      by_cases htr : (decide (d.ht0.used ≥ d.ht0.size) &&
          (c || decide (d.ht0.used / d.ht0.size > dict_force_resize_limit))) = true
      · rw [if_pos htr]
        rcases dictExpand_spec h (d.ht0.used * 2) with ⟨hi, ht, he⟩
        refine ⟨hi, ht, he, dictExpand_ok hr' (by omega), ?_⟩
        rw [dictExpand, if_neg (by rw [hr']; simp; omega), if_neg h0]
        simpa using h0
      · rw [if_neg htr]
        exact ⟨h, rfl, rfl, rfl, by simpa using h0⟩

end Expand

/-! ### Rehashing preserves the invariant -/

section Rehash

variable {d : Dict K V}

theorem rehashSkip_spec (tbl : List (Bucket K V)) (idx visits : Nat) :
    idx ≤ (rehashSkip tbl idx visits).1 ∧
      (∀ j, idx ≤ j → j < (rehashSkip tbl idx visits).1 → tbl.getD j [] = []) ∧
      ((rehashSkip tbl idx visits).2.2 = true →
        tbl.length ≤ (rehashSkip tbl idx visits).1 ∨
          tbl.getD (rehashSkip tbl idx visits).1 [] ≠ []) ∧
      (1 ≤ visits → (rehashSkip tbl idx visits).2.2 = false →
        idx < (rehashSkip tbl idx visits).1) := by
  induction visits generalizing idx with
  | zero =>
    refine ⟨le_refl idx, ?_, ?_, ?_⟩
    · intro j h1 h2
      rw [rehashSkip] at h2
      omega
    · intro hc
      rw [rehashSkip] at hc
      cases hc
    · intro hv
      omega
  | succ v ih =>
    by_cases hlen : tbl.length ≤ idx
    · rw [show rehashSkip tbl idx (v + 1) = (idx, v + 1, true) from by
        rw [rehashSkip, if_pos hlen]]
      exact ⟨le_refl idx, fun j h1 h2 => absurd h2 (by omega), fun _ => Or.inl hlen,
        fun _ hc => by cases hc⟩
    · by_cases hne : ¬(tbl.getD idx []).isEmpty = true
      · rw [show rehashSkip tbl idx (v + 1) = (idx, v + 1, true) from by
          rw [rehashSkip, if_neg hlen, if_pos hne]]
        refine ⟨le_refl idx, fun j h1 h2 => absurd h2 (by omega), fun _ => Or.inr ?_,
          fun _ hc => by cases hc⟩
        intro he
        exact hne (by rw [he]; rfl)
      · have hemp : tbl.getD idx [] = [] := by
          rcases hb : tbl.getD idx [] with _ | ⟨y, ys⟩
          · rfl
          · rw [hb] at hne
            simp at hne
        by_cases hv0 : v = 0
        · subst hv0
          rw [show rehashSkip tbl idx (0 + 1) = (idx + 1, 0, false) from by
            rw [rehashSkip, if_neg hlen, if_neg hne, if_pos rfl]]
          refine ⟨Nat.le_succ idx, ?_, ?_, ?_⟩
          · intro j h1 h2
            simp only at h2
            have hj : j = idx := by omega
            rw [hj]
            exact hemp
          · intro hc
            simp at hc
          · intro _ _
            exact Nat.lt_succ_self idx
        · rw [show rehashSkip tbl idx (v + 1) = rehashSkip tbl (idx + 1) v from by
            rw [rehashSkip, if_neg hlen, if_neg hne, if_neg hv0]]
          rcases ih (idx + 1) with ⟨ih1, ih2, ih3, _⟩
          refine ⟨le_trans (Nat.le_succ idx) ih1, ?_, ih3, fun _ _ => by omega⟩
          intro j h1 h2
          rcases Nat.eq_or_lt_of_le h1 with rfl | hgt
          · exact hemp
          · exact ih2 j hgt h2

theorem completeRehash_inv (h : Inv d) (hempty : htEntries d.ht0 = []) :
    Inv (completeRehash d) ∧ allEntries (completeRehash d) = allEntries d := by
  have hent : allEntries (completeRehash d) = allEntries d := by
    rw [allEntries, allEntries, completeRehash]
    simp only [htEntries_reset, hempty]
    simp
  refine ⟨⟨h.wf1, dicthtReset_wf, ?_, Or.inl ⟨rfl, rfl⟩⟩, hent⟩
  rw [allKeys, hent]
  exact h.nodup

theorem Inv.ht0_empty_of_cursor_end (h : Inv d) (hc : d.ht0.size ≤ d.rehashidx.toNat) :
    htEntries d.ht0 = [] := by
  rw [htEntries, List.flatten_eq_nil_iff]
  intro b hb
  rcases List.mem_iff_getElem.1 hb with ⟨i, hi, rfl⟩
  have hgd : d.ht0.table.getD i [] = d.ht0.table[i] := by
    rw [List.getD, List.get?_eq_getElem?, List.getElem?_eq_getElem hi]
    rfl
  rcases h.rehash_state with ⟨he, _⟩ | ⟨_, _, _, hpre⟩
  · have hs : d.ht0.size = 0 := by
      rw [he] at hc
      simpa using hc
    have := h.wf0.table_eq_nil hs
    rw [this] at hi
    cases hi
  · rw [← hgd]
    exact hpre i (by rw [h.wf0.size_def] at hc; omega)

theorem perm_shuffle {α : Type _} (T D b E : List α) :
    List.Perm ((T ++ ([] : List α) ++ D) ++ (b ++ E)) ((T ++ b ++ D) ++ E) := by
  simp only [List.append_nil, List.append_assoc]
  refine List.Perm.append_left T ?_
  rw [← List.append_assoc, ← List.append_assoc]
  exact List.Perm.append_right E List.perm_append_comm

/-- Advancing the rehash cursor over a run of buckets already known to be
empty preserves the invariant. -/
theorem Inv.advance_cursor (h : Inv d) (hr : dictIsRehashing d = true) {idx : Nat}
    (hge : d.rehashidx.toNat ≤ idx)
    (hemp : ∀ j, d.rehashidx.toNat ≤ j → j < idx → d.ht0.table.getD j [] = []) :
    Inv { d with rehashidx := (idx : Int) } := by
  rcases h.rehash_inr hr with ⟨_, hs0, hs1, hpre⟩
  refine ⟨h.wf0, h.wf1, h.nodup, Or.inr ⟨by exact Int.natCast_nonneg idx, hs0, hs1, ?_⟩⟩
  intro i hi
  simp only [Int.toNat_natCast] at hi
  rcases Nat.lt_or_ge i d.rehashidx.toNat with hlt | hge'
  · exact hpre i hlt
  · exact hemp i hge' hi

/-- The state after migrating the non-empty bucket at the cursor: the
invariant is preserved and the stored entries are merely permuted. -/
theorem Inv.migrate_state (h : Inv d) (hr : dictIsRehashing d = true) {idx : Nat}
    (hcur : d.rehashidx.toNat ≤ idx) (hlt : idx < d.ht0.size)
    (hemp : ∀ j, d.rehashidx.toNat ≤ j → j < idx → d.ht0.table.getD j [] = []) :
    Inv { d with
            ht0 := { d.ht0 with
                       table := d.ht0.table.set idx [],
                       used := d.ht0.used - (d.ht0.table.getD idx []).length },
            ht1 := migrateBucket d.type (d.ht0.table.getD idx []) d.ht1,
            rehashidx := ((idx + 1 : Nat) : Int) } ∧
      List.Perm
        (allEntries { d with
            ht0 := { d.ht0 with
                       table := d.ht0.table.set idx [],
                       used := d.ht0.used - (d.ht0.table.getD idx []).length },
            ht1 := migrateBucket d.type (d.ht0.table.getD idx []) d.ht1,
            rehashidx := ((idx + 1 : Nat) : Int) })
        (allEntries d) := by
  rcases h.rehash_inr hr with ⟨_, hs0, hs1, hpre⟩
  have hlen : idx < d.ht0.table.length := by rw [← h.wf0.size_def]; exact hlt
  set b := d.ht0.table.getD idx [] with hb
  rcases migrateBucket_spec (b := b) h.wf1 hs1 with ⟨hwf1, hperm1, hused1, hsize1, hmask1⟩
  have hwf0 : HtWF d.type.hashFunction
      { d.ht0 with table := d.ht0.table.set idx [], used := d.ht0.used - b.length } := by
    refine ⟨by simp [h.wf0.size_def], h.wf0.mask_def, h.wf0.pow, ?_, ?_⟩
    · have hfr := sum_map_length_set (l := d.ht0.table) (b := ([] : Bucket K V)) hlen
      have hud := h.wf0.used_def
      simp only [List.length_nil, ← hb] at hfr ⊢
      omega
    · intro i x hx
      rcases eq_or_ne i idx with rfl | hne
      · rw [getD_set_self hlen] at hx
        cases hx
      · rw [getD_set_ne hne] at hx
        exact h.wf0.placed i x hx
  have hperm : List.Perm
      (allEntries { d with
          ht0 := { d.ht0 with
                     table := d.ht0.table.set idx [],
                     used := d.ht0.used - b.length },
          ht1 := migrateBucket d.type b d.ht1,
          rehashidx := ((idx + 1 : Nat) : Int) })
      (allEntries d) := by
    rw [allEntries, allEntries]
    have he0 : htEntries { d.ht0 with
          table := d.ht0.table.set idx [],
          used := d.ht0.used - b.length }
          = (d.ht0.table.take idx).flatten ++ ([] : Bucket K V)
            ++ (d.ht0.table.drop (idx + 1)).flatten := by
      rw [htEntries]
      exact flatten_set hlen
    have he0' : htEntries d.ht0 = (d.ht0.table.take idx).flatten ++ b
        ++ (d.ht0.table.drop (idx + 1)).flatten := by
      rw [htEntries, hb]
      exact flatten_frame hlen
    rw [he0, he0']
    refine List.Perm.trans (List.Perm.append_left _ hperm1) ?_
    exact perm_shuffle _ _ _ _
  refine ⟨⟨hwf0, hwf1, ?_, Or.inr ⟨by exact Int.natCast_nonneg (idx + 1), hs0,
      by rw [hsize1]; exact hs1, ?_⟩⟩, hperm⟩
  · have hkeysperm := hperm.map (fun e : DictEntry K V => e.key)
    rw [allKeys]
    exact hkeysperm.nodup_iff.2 h.nodup
  · intro i hi
    simp only [Int.toNat_natCast] at hi
    rcases eq_or_ne i idx with rfl | hne
    · exact getD_set_self hlen
    · rw [getD_set_ne hne]
      rcases Nat.lt_or_ge i d.rehashidx.toNat with hlt' | hge'
      · exact hpre i hlt'
      · exact hemp i hge' (by omega)

/-- The bulk rehash loop preserves the invariant and only permutes the stored
entries; when it reports completion the dictionary is no longer rehashing and
table 1 has been reset, and while it reports more work the cursor has not
moved backwards and table 0 keeps its size. -/
theorem dictRehashLoop_spec (h : Inv d) (hr : dictIsRehashing d = true)
    (n visits : Nat) :
    Inv (dictRehashLoop d n visits).1 ∧
      (dictRehashLoop d n visits).1.type = d.type ∧
      List.Perm (allEntries (dictRehashLoop d n visits).1) (allEntries d) ∧
      ((dictRehashLoop d n visits).2 = false →
        (dictRehashLoop d n visits).1.rehashidx = -1 ∧
          (dictRehashLoop d n visits).1.ht1 = dicthtReset) ∧
      ((dictRehashLoop d n visits).2 = true →
        dictIsRehashing (dictRehashLoop d n visits).1 = true ∧
          (dictRehashLoop d n visits).1.ht0.size = d.ht0.size ∧
          d.rehashidx.toNat ≤ (dictRehashLoop d n visits).1.rehashidx.toNat) := by
  induction n generalizing d visits with
  | zero =>
    by_cases hc : d.ht0.size ≤ d.rehashidx.toNat
    · rw [show dictRehashLoop d 0 visits = (completeRehash d, false) from by
        rw [dictRehashLoop, if_pos hc]]
      rcases completeRehash_inv h (h.ht0_empty_of_cursor_end hc) with ⟨hi, he⟩
      refine ⟨hi, rfl, by rw [he], ?_, ?_⟩
      · intro _
        exact ⟨rfl, rfl⟩
      · intro hc'
        simp at hc'
    · rw [show dictRehashLoop d 0 visits = (d, true) from by
        rw [dictRehashLoop, if_neg hc]]
      refine ⟨h, rfl, List.Perm.refl _, ?_, ?_⟩
      · intro hc'
        simp at hc'
      · intro _
        exact ⟨hr, rfl, le_refl _⟩
  | succ m ih =>
    by_cases hc : d.ht0.size ≤ d.rehashidx.toNat
    · rw [show dictRehashLoop d (m + 1) visits = (completeRehash d, false) from by
        rw [dictRehashLoop, if_pos hc]]
      rcases completeRehash_inv h (h.ht0_empty_of_cursor_end hc) with ⟨hi, he⟩
      refine ⟨hi, rfl, by rw [he], ?_, ?_⟩
      · intro _
        exact ⟨rfl, rfl⟩
      · intro hc'
        simp at hc'
    · rcases hsk : rehashSkip d.ht0.table d.rehashidx.toNat visits with ⟨idx, visits', fnd⟩
      rcases rehashSkip_spec d.ht0.table d.rehashidx.toNat visits with ⟨hsk1, hsk2, hsk3, _⟩
      rw [hsk] at hsk1 hsk2 hsk3
      simp only at hsk1 hsk2 hsk3
      cases fnd with
      | false =>
        rw [show dictRehashLoop d (m + 1) visits = ({ d with rehashidx := (idx : Int) }, true)
            from by rw [dictRehashLoop, if_neg hc, hsk]]
        have hinv := h.advance_cursor hr hsk1 hsk2
        refine ⟨hinv, rfl, List.Perm.refl _, ?_, ?_⟩
        · intro hc'
          simp at hc'
        · intro _
          refine ⟨?_, rfl, ?_⟩
          · rw [rehashing_iff]
            simp
          · simp only [Int.toNat_natCast]
            exact hsk1
      | true =>
        by_cases hsz : d.ht0.size ≤ idx
        · rw [show dictRehashLoop d (m + 1) visits
              = (completeRehash { d with rehashidx := (idx : Int) }, false) from by
            rw [dictRehashLoop, if_neg hc, hsk]
            simp only [if_pos hsz]]
          have hinv := h.advance_cursor hr hsk1 hsk2
          have hempty : htEntries ({ d with rehashidx := (idx : Int) } : Dict K V).ht0 = [] :=
            hinv.ht0_empty_of_cursor_end (by simpa using hsz)
          rcases completeRehash_inv hinv hempty with ⟨hi, he⟩
          refine ⟨hi, rfl, by rw [he]; exact List.Perm.refl _, ?_, ?_⟩
          · intro _
            exact ⟨rfl, rfl⟩
          · intro hc'
            simp at hc'
        · have hlt : idx < d.ht0.size := by omega
          have hlen : idx < d.ht0.table.length := by rw [← h.wf0.size_def]; exact hlt
          have hne : d.ht0.table.getD idx [] ≠ [] := by
            rcases hsk3 rfl with hbig | hne
            · exact absurd hbig (by omega)
            · exact hne
          rw [show dictRehashLoop d (m + 1) visits
              = dictRehashLoop { d with
                  ht0 := { d.ht0 with
                             table := d.ht0.table.set idx [],
                             used := d.ht0.used - (d.ht0.table.getD idx []).length },
                  ht1 := migrateBucket d.type (d.ht0.table.getD idx []) d.ht1,
                  rehashidx := ((idx + 1 : Nat) : Int) } m visits' from by
            rw [dictRehashLoop, if_neg hc, hsk]
            simp only [if_neg hsz]]
          rcases h.migrate_state hr hsk1 hlt hsk2 with ⟨hinv', hperm'⟩
          have hr' : dictIsRehashing { d with
              ht0 := { d.ht0 with
                         table := d.ht0.table.set idx [],
                         used := d.ht0.used - (d.ht0.table.getD idx []).length },
              ht1 := migrateBucket d.type (d.ht0.table.getD idx []) d.ht1,
              rehashidx := ((idx + 1 : Nat) : Int) } = true := by
            rw [rehashing_iff]
            simp
            omega
          rcases ih hinv' hr' visits' with ⟨ih1, ih2, ih3, ih4, ih5⟩
          refine ⟨ih1, ih2, ih3.trans hperm', ih4, fun hm => ?_⟩
          rcases ih5 hm with ⟨ha, hb', hc'⟩
          refine ⟨ha, by simpa using hb', ?_⟩
          have hcnat : ({ d with
              ht0 := { d.ht0 with
                         table := d.ht0.table.set idx [],
                         used := d.ht0.used - (d.ht0.table.getD idx []).length },
              ht1 := migrateBucket d.type (d.ht0.table.getD idx []) d.ht1,
              rehashidx := ((idx + 1 : Nat) : Int) } : Dict K V).rehashidx.toNat = idx + 1 := rfl
          rw [hcnat] at hc'
          omega

theorem dictRehash_spec (h : Inv d) (n : Nat) :
    Inv (dictRehash d n).1 ∧ (dictRehash d n).1.type = d.type ∧
      List.Perm (allEntries (dictRehash d n).1) (allEntries d) := by
  rw [dictRehash]
  by_cases hr : dictIsRehashing d = true
  · rw [if_neg (by rw [hr]; simp)]
    rcases dictRehashLoop_spec h hr n (n * 10) with ⟨h1, h2, h3, _⟩
    exact ⟨h1, h2, h3⟩
  · rw [if_pos (by simpa using hr)]
    exact ⟨h, rfl, List.Perm.refl _⟩

theorem dictRehash_done (h : Inv d) (n : Nat) (hdone : (dictRehash d n).2 = false) :
    (dictRehash d n).1.rehashidx = -1 ∧ (dictRehash d n).1.ht1 = dicthtReset := by
  rw [dictRehash] at hdone ⊢
  by_cases hr : dictIsRehashing d = true
  · rw [if_neg (by rw [hr]; simp)] at hdone ⊢
    exact (dictRehashLoop_spec h hr n (n * 10)).2.2.2.1 hdone
  · rw [if_pos (by simpa using hr)]
    have hr' : dictIsRehashing d = false := by
      cases hv : dictIsRehashing d
      · rfl
      · exact absurd hv hr
    exact ⟨not_rehashing_iff.1 hr', h.ht1_reset hr'⟩

theorem _dictRehashStep_spec (h : Inv d) :
    Inv (_dictRehashStep d) ∧ (_dictRehashStep d).type = d.type ∧
      List.Perm (allEntries (_dictRehashStep d)) (allEntries d) := by
  rw [_dictRehashStep]
  by_cases hit : (d.iterators == 0) = true
  · rw [if_pos hit]
    exact dictRehash_spec h 1
  · rw [if_neg hit]
    exact ⟨h, rfl, List.Perm.refl _⟩

/-- One call of the single-step bulk driver either completes the rehash or
strictly advances the cursor while keeping table 0's size. -/
theorem dictRehash_one_progress (h : Inv d) (hr : dictIsRehashing d = true)
    (hmore : (dictRehash d 1).2 = true) :
    dictIsRehashing (dictRehash d 1).1 = true ∧
      (dictRehash d 1).1.ht0.size = d.ht0.size ∧
      d.rehashidx.toNat < (dictRehash d 1).1.rehashidx.toNat := by
  have hloop : dictRehash d 1 = dictRehashLoop d 1 10 := by
    rw [dictRehash, if_neg (by rw [hr]; simp)]
  rw [hloop] at hmore ⊢
  by_cases hc : d.ht0.size ≤ d.rehashidx.toNat
  · rw [show dictRehashLoop d 1 10 = (completeRehash d, false) from by
      rw [dictRehashLoop, if_pos hc]] at hmore
    cases hmore
  · rcases hsk : rehashSkip d.ht0.table d.rehashidx.toNat 10 with ⟨idx, visits', fnd⟩
    rcases rehashSkip_spec d.ht0.table d.rehashidx.toNat 10 with ⟨hsk1, hsk2, hsk3, hsk4⟩
    rw [hsk] at hsk1 hsk2 hsk3 hsk4
    simp only at hsk1 hsk2 hsk3 hsk4
    cases fnd with
    | false =>
      have hstrict : d.rehashidx.toNat < idx := hsk4 (by omega) rfl
      rw [show dictRehashLoop d 1 10 = ({ d with rehashidx := (idx : Int) }, true) from by
        rw [dictRehashLoop, if_neg hc, hsk]]
      refine ⟨by rw [rehashing_iff]; simp, rfl, by simpa using hstrict⟩
    | true =>
      by_cases hsz : d.ht0.size ≤ idx
      · rw [show dictRehashLoop d 1 10
            = (completeRehash { d with rehashidx := (idx : Int) }, false) from by
          rw [dictRehashLoop, if_neg hc, hsk]
          simp only [if_pos hsz]] at hmore
        cases hmore
      · have heq : dictRehashLoop d 1 10
            = dictRehashLoop { d with
                ht0 := { d.ht0 with
                           table := d.ht0.table.set idx [],
                           used := d.ht0.used - (d.ht0.table.getD idx []).length },
                ht1 := migrateBucket d.type (d.ht0.table.getD idx []) d.ht1,
                rehashidx := ((idx + 1 : Nat) : Int) } 0 visits' := by
          conv_lhs => rw [dictRehashLoop]
          rw [if_neg hc, hsk]
          simp only [if_neg hsz]
        rw [heq] at hmore ⊢
        set d' : Dict K V := { d with
            ht0 := { d.ht0 with
                       table := d.ht0.table.set idx [],
                       used := d.ht0.used - (d.ht0.table.getD idx []).length },
            ht1 := migrateBucket d.type (d.ht0.table.getD idx []) d.ht1,
            rehashidx := ((idx + 1 : Nat) : Int) } with hd'
        by_cases hc' : d'.ht0.size ≤ d'.rehashidx.toNat
        · rw [show dictRehashLoop d' 0 visits' = (completeRehash d', false) from by
            conv_lhs => rw [dictRehashLoop]
            rw [if_pos hc']] at hmore
          cases hmore
        · rw [show dictRehashLoop d' 0 visits' = (d', true) from by
            conv_lhs => rw [dictRehashLoop]
            rw [if_neg hc']]
          refine ⟨?_, ?_, ?_⟩
          · rw [rehashing_iff]
            show ¬((idx + 1 : Nat) : Int) = -1
            omega
          · show d.ht0.size = d.ht0.size
            rfl
          · show d.rehashidx.toNat < (((idx + 1 : Nat) : Int)).toNat
            rw [Int.toNat_natCast]
            omega

theorem rehashUntilDone_of_not (hr : dictIsRehashing d = false) (fuel : Nat) :
    rehashUntilDone d fuel = d := by
  cases fuel with
  | zero => rfl
  | succ f => rw [rehashUntilDone, if_neg (by rw [hr]; simp)]

/-- Driving the bulk step repeatedly from any state terminates, within
`ht0.size + 1` calls, in a state that is not rehashing and whose table 1 has
been reset, preserving the invariant and the stored entries. -/
theorem rehashUntilDone_spec (h : Inv d) (fuel : Nat)
    (hfuel : d.ht0.size + 1 ≤ fuel + min d.rehashidx.toNat d.ht0.size) :
    dictIsRehashing (rehashUntilDone d fuel) = false ∧
      (rehashUntilDone d fuel).ht1 = dicthtReset ∧
      Inv (rehashUntilDone d fuel) ∧
      (rehashUntilDone d fuel).type = d.type ∧
      List.Perm (allEntries (rehashUntilDone d fuel)) (allEntries d) := by
  induction fuel generalizing d with
  | zero =>
    by_cases hr : dictIsRehashing d = true
    · exfalso
      omega
    · have hr' : dictIsRehashing d = false := by
        cases hv : dictIsRehashing d
        · rfl
        · exact absurd hv hr
      rw [rehashUntilDone_of_not hr']
      exact ⟨hr', h.ht1_reset hr', h, rfl, List.Perm.refl _⟩
  | succ f ih =>
    by_cases hr : dictIsRehashing d = true
    · rw [rehashUntilDone, if_pos hr]
      rcases dictRehash_spec h 1 with ⟨hinv1, htype1, hperm1⟩
      cases hmore : (dictRehash d 1).2 with
      | false =>
        rcases dictRehash_done h 1 hmore with ⟨hidx, hht1⟩
        have hnr : dictIsRehashing (dictRehash d 1).1 = false := not_rehashing_iff.2 hidx
        rw [rehashUntilDone_of_not hnr f]
        exact ⟨hnr, hht1, hinv1, htype1, hperm1⟩
      | true =>
        rcases dictRehash_one_progress h hr hmore with ⟨hr1, hsz1, hcur1⟩
        have hc : d.rehashidx.toNat < d.ht0.size := by
          by_contra hge
          have hcomp : dictRehash d 1 = (completeRehash d, false) := by
            rw [dictRehash, if_neg (by rw [hr]; simp), dictRehashLoop, if_pos (by omega)]
          rw [hcomp] at hmore
          cases hmore
        rcases ih hinv1 (by rw [hsz1]; omega) with ⟨a, b, c, dd, e⟩
        exact ⟨a, b, c, by rw [dd, htype1], e.trans hperm1⟩
    · have hr' : dictIsRehashing d = false := by
        cases hv : dictIsRehashing d
        · rfl
        · exact absurd hv hr
      rw [rehashUntilDone_of_not hr']
      exact ⟨hr', h.ht1_reset hr', h, rfl, List.Perm.refl _⟩

end Rehash

/-! ### Lookup, insertion and deletion preserve the invariant -/

section Ops

variable {d : Dict K V} {k : K} {v : V} {c : Bool}

theorem GoodType.storedKey_eq (hg : GoodType (d : Dict K V).type) :
    dictStoredKey d.type k = k := by
  rw [dictStoredKey]
  rcases hdup : d.type.keyDup with _ | f
  · rfl
  · exact hg.dup_id f hdup k

theorem Inv.search0_some (hg : GoodType d.type) (h : Inv d) {e : DictEntry K V}
    (hs : searchBucket d.type k (bucketOf d.ht0 (d.type.hashFunction k)) = some e) :
    e ∈ htEntries d.ht0 ∧ e.key = k :=
  ⟨mem_getD_flatten (searchBucket_some_mem hs), hg.searchBucket_some_key hs⟩

theorem Inv.search1_some (hg : GoodType d.type) (h : Inv d) {e : DictEntry K V}
    (hs : searchBucket d.type k (bucketOf d.ht1 (d.type.hashFunction k)) = some e) :
    e ∈ htEntries d.ht1 ∧ e.key = k :=
  ⟨mem_getD_flatten (searchBucket_some_mem hs), hg.searchBucket_some_key hs⟩

theorem Inv.keys0_not_mem (hg : GoodType d.type) (h : Inv d)
    (hk : k ∉ (htEntries d.ht0).map (·.key)) :
    searchBucket d.type k (bucketOf d.ht0 (d.type.hashFunction k)) = none := by
  have := HtWF.findInHt_isSome hg h.wf0 (k := k)
  rcases hs : findInHt d.type d.ht0 k with _ | e
  · exact hs
  · exact absurd (this.1 (by rw [hs]; rfl)) hk

theorem Inv.keys1_not_mem (hg : GoodType d.type) (h : Inv d)
    (hk : k ∉ (htEntries d.ht1).map (·.key)) :
    searchBucket d.type k (bucketOf d.ht1 (d.type.hashFunction k)) = none := by
  have := HtWF.findInHt_isSome hg h.wf1 (k := k)
  rcases hs : findInHt d.type d.ht1 k with _ | e
  · exact hs
  · exact absurd (this.1 (by rw [hs]; rfl)) hk

/-- A stored key is found by the two-bucket probe exactly as `dictFind`
performs it: in table 0's bucket, or — while rehashing — missing there and
present in table 1's bucket. -/
theorem Inv.found_cases (hg : GoodType d.type) (h : Inv d) (hk : k ∈ allKeys d) :
    (∃ e, searchBucket d.type k (bucketOf d.ht0 (d.type.hashFunction k)) = some e ∧
      e.key = k) ∨
    (dictIsRehashing d = true ∧
      searchBucket d.type k (bucketOf d.ht0 (d.type.hashFunction k)) = none ∧
      ∃ e, searchBucket d.type k (bucketOf d.ht1 (d.type.hashFunction k)) = some e ∧
        e.key = k) := by
  have hnd := h.nodup
  rw [allKeys, allEntries, List.map_append] at hnd hk
  have hdisj := List.disjoint_of_nodup_append hnd
  rcases List.mem_append.1 hk with hm | hm
  · left
    have := (HtWF.findInHt_isSome hg h.wf0).2 hm
    rcases hs : findInHt d.type d.ht0 k with _ | e
    · rw [hs] at this; cases this
    · exact ⟨e, hs, hg.searchBucket_some_key hs⟩
  · right
    have hreh : dictIsRehashing d = true := by
      cases hv : dictIsRehashing d
      · exfalso
        have := h.ht1_reset hv
        rw [this] at hm
        simp [htEntries_reset] at hm
      · rfl
    refine ⟨hreh, h.keys0_not_mem hg (fun hc => hdisj hc hm), ?_⟩
    have := (HtWF.findInHt_isSome hg h.wf1).2 hm
    rcases hs : findInHt d.type d.ht1 k with _ | e
    · rw [hs] at this; cases this
    · exact ⟨e, hs, hg.searchBucket_some_key hs⟩

theorem Inv.absent_of_miss (hg : GoodType d.type) (h : Inv d)
    (h0 : searchBucket d.type k (bucketOf d.ht0 (d.type.hashFunction k)) = none)
    (h1 : dictIsRehashing d = true →
      searchBucket d.type k (bucketOf d.ht1 (d.type.hashFunction k)) = none) :
    k ∉ allKeys d := by
  intro hk
  rcases h.found_cases hg hk with ⟨e, hs, _⟩ | ⟨hreh, _, e, hs, _⟩
  · rw [h0] at hs; cases hs
  · rw [h1 hreh] at hs; cases hs

theorem Inv.pos_of_mem (h : Inv d) (hk : k ∈ allKeys d) : dictSize d ≠ 0 := by
  rw [h.size_eq_total, totalCount]
  rw [allKeys] at hk
  rcases List.mem_map.1 hk with ⟨e, he, _⟩
  intro hzero
  rw [List.length_eq_zero.1 hzero] at he
  cases he

/-- `dictFind` finds every stored key and returns an entry carrying it. -/
theorem dictFind_found (hg : GoodType d.type) (h : Inv d) (hk : k ∈ allKeys d) :
    ∃ e, (dictFind d k).2 = some e ∧ e.key = k := by
  have hsz : dictSize d ≠ 0 := h.pos_of_mem hk
  simp only [dictFind]
  rw [if_neg (by simpa using hsz)]
  rcases _dictRehashStep_spec h with ⟨hinv1, htype1, hperm1⟩
  have hk1 : k ∈ allKeys (_dictRehashStep d) := by
    rw [allKeys]
    have := (hperm1.map (fun e : DictEntry K V => e.key)).mem_iff (a := k)
    rw [allKeys] at hk
    exact this.2 hk
  have hg1 : GoodType (_dictRehashStep d).type := htype1 ▸ hg
  rcases hinv1.found_cases hg1 hk1 with ⟨e, hs, hek⟩ | ⟨hreh, h0, e, hs, hek⟩
  · rw [hs]
    exact ⟨e, rfl, hek⟩
  · rw [h0, if_pos hreh, hs]
    exact ⟨e, rfl, hek⟩

theorem dictFind_state (h : Inv d) :
    Inv (dictFind d k).1 ∧ (dictFind d k).1.type = d.type ∧
      List.Perm (allEntries (dictFind d k).1) (allEntries d) := by
  simp only [dictFind]
  by_cases hsz : (dictSize d == 0) = true
  · rw [if_pos hsz]
    exact ⟨h, rfl, List.Perm.refl _⟩
  · rw [if_neg hsz]
    rcases _dictRehashStep_spec h with ⟨h1, h2, h3⟩
    rcases hs : searchBucket (_dictRehashStep d).type k
        (bucketOf (_dictRehashStep d).ht0 ((_dictRehashStep d).type.hashFunction k))
        with _ | e
    · by_cases hr : dictIsRehashing (_dictRehashStep d) = true
      · rw [if_pos hr]
        exact ⟨h1, h2, h3⟩
      · rw [if_neg hr]
        exact ⟨h1, h2, h3⟩
    · exact ⟨h1, h2, h3⟩

theorem _dictKeyIndex_spec (hg : GoodType d.type) (h : Inv d) (c : Bool) :
    (_dictKeyIndex d k (d.type.hashFunction k) c).1 = (_dictExpandIfNeeded d c).1 ∧
      (∀ e, (_dictKeyIndex d k (d.type.hashFunction k) c).2 = .existing e →
        e.key = k ∧ k ∈ allKeys d) ∧
      (∀ i, (_dictKeyIndex d k (d.type.hashFunction k) c).2 = .index i →
        k ∉ allKeys d ∧
          i = d.type.hashFunction k &&&
            (if dictIsRehashing (_dictExpandIfNeeded d c).1 = true
             then (_dictExpandIfNeeded d c).1.ht1.sizemask
             else (_dictExpandIfNeeded d c).1.ht0.sizemask)) ∧
      (_dictKeyIndex d k (d.type.hashFunction k) c).2 ≠ .err := by
  rcases _dictExpandIfNeeded_spec h c with ⟨hinv', htype', hent', hok, _⟩
  rcases hE : _dictExpandIfNeeded d c with ⟨d', res⟩
  rw [hE] at hinv' htype' hent' hok
  simp only at hinv' htype' hent' hok
  subst hok
  have hkeys' : allKeys d' = allKeys d := by rw [allKeys, allKeys, hent']
  have hhash : d.type.hashFunction k = d'.type.hashFunction k := by rw [htype']
  have hg' : GoodType d'.type := htype' ▸ hg
  simp only [_dictKeyIndex, hE]
  rcases hs0 : searchBucket d'.type k
      (d'.ht0.table.getD (d.type.hashFunction k &&& d'.ht0.sizemask) []) with _ | e0
  · by_cases hr : dictIsRehashing d' = true
    · rw [if_pos hr]
      rcases hs1 : searchBucket d'.type k
          (d'.ht1.table.getD (d.type.hashFunction k &&& d'.ht1.sizemask) []) with _ | e1
      · refine ⟨rfl, ?_, ?_, by intro hc'; cases hc'⟩
        · intro e he
          cases he
        · intro i hi
          injection hi with hi
          subst hi
          refine ⟨?_, by rw [if_pos hr]⟩
          rw [← hkeys']
          refine hinv'.absent_of_miss hg' ?_ ?_
          · rw [bucketOf, ← hhash]
            exact hs0
          · intro _
            rw [bucketOf, ← hhash]
            exact hs1
      · refine ⟨rfl, ?_, ?_, by intro hc'; cases hc'⟩
        · intro e he
          injection he with he
          subst he
          have := hinv'.search1_some hg' (by rw [bucketOf, ← hhash]; exact hs1)
          refine ⟨this.2, ?_⟩
          rw [← hkeys', allKeys]
          exact List.mem_map.2 ⟨e1, by rw [allEntries]; simp [this.1], this.2⟩
        · intro i hi
          cases hi
    · rw [if_neg hr]
      refine ⟨rfl, ?_, ?_, by intro hc'; cases hc'⟩
      · intro e he
        cases he
      · intro i hi
        injection hi with hi
        subst hi
        refine ⟨?_, by rw [if_neg hr]⟩
        rw [← hkeys']
        refine hinv'.absent_of_miss hg' ?_ ?_
        · rw [bucketOf, ← hhash]
          exact hs0
        · intro hreh
          exact absurd hreh hr
  · refine ⟨rfl, ?_, ?_, by intro hc'; cases hc'⟩
    · intro e he
      injection he with he
      subst he
      have := hinv'.search0_some hg' (by rw [bucketOf, ← hhash]; exact hs0)
      refine ⟨this.2, ?_⟩
      rw [← hkeys', allKeys]
      exact List.mem_map.2 ⟨e0, by rw [allEntries]; simp [this.1], this.2⟩
    · intro i hi
      cases hi

/-- Combined effect of `dictAddRaw`: the invariant is preserved, an expansion
error is impossible, a conflict returns an entry carrying the key and mutates
the dictionary only through the implicit rehash step and expansion trigger,
and a successful insertion adds exactly the key. -/
theorem dictAddRaw_spec (hg : GoodType d.type) (h : Inv d) (c : Bool) :
    Inv (dictAddRaw d k c).1 ∧ (dictAddRaw d k c).1.type = d.type ∧
      (dictAddRaw d k c).2 ≠ .err ∧
      (∀ e, (dictAddRaw d k c).2 = .existing e → e.key = k ∧ k ∈ allKeys d ∧
        List.Perm (allKeys (dictAddRaw d k c).1) (allKeys d) ∧
        (dictAddRaw d k c).1 = (_dictExpandIfNeeded (_dictRehashStep d) c).1) ∧
      (∀ t1 i, (dictAddRaw d k c).2 = .added t1 i → k ∉ allKeys d ∧
        List.Perm (allKeys (dictAddRaw d k c).1) (k :: allKeys d)) := by
  rcases _dictRehashStep_spec h with ⟨hinv0, htype0, hperm0⟩
  have hg0 : GoodType (_dictRehashStep d).type := htype0 ▸ hg
  have hkperm0 : List.Perm (allKeys (_dictRehashStep d)) (allKeys d) := by
    rw [allKeys, allKeys]
    exact hperm0.map (fun e : DictEntry K V => e.key)
  rcases _dictKeyIndex_spec (d := _dictRehashStep d) (k := k) hg0 hinv0 c
    with ⟨hKd, hKex, hKidx, hKerr⟩
  rcases _dictExpandIfNeeded_spec hinv0 c with ⟨hinv1, htype1, hent1, _, hsz1⟩
  rcases hKI : _dictKeyIndex (_dictRehashStep d) k
      ((_dictRehashStep d).type.hashFunction k) c with ⟨d1, res⟩
  rw [hKI] at hKd hKex hKidx hKerr
  simp only at hKd hKex hKidx hKerr
  rw [← hKd] at hinv1 htype1 hent1 hsz1
  have htype1' : d1.type = d.type := by rw [htype1, htype0]
  have hg1 : GoodType d1.type := htype1' ▸ hg
  have hkeys1 : allKeys d1 = allKeys (_dictRehashStep d) := by
    rw [allKeys, allKeys, hent1]
  cases res with
  | err => exact absurd rfl hKerr
  | existing e =>
    simp only [dictAddRaw, hKI]
    rcases hKex e rfl with ⟨hek, hkmem⟩
    refine ⟨hinv1, htype1', ?_, ?_, ?_⟩
    · intro hc'
      cases hc'
    · intro e' he'
      injection he' with he'
      subst he'
      refine ⟨hek, hkperm0.mem_iff.1 (hkeys1 ▸ hkmem), ?_, hKd⟩
      rw [hkeys1]
      exact hkperm0
    · intro t1 i hti
      cases hti
  | index i =>
    simp only [dictAddRaw, hKI]
    rcases hKidx i rfl with ⟨habs1, hidx⟩
    rw [← hKd] at hidx
    have habs : k ∉ allKeys d := fun hk => habs1 (hkperm0.mem_iff.2 hk)
    have habs1' : k ∉ allKeys d1 := by rw [hkeys1]; exact habs1
    have hkey : (⟨dictStoredKey d1.type k, DictUnion.uninit⟩ : DictEntry K V).key = k := by
      simp [GoodType.storedKey_eq hg1]
    have hhash1 : d.type.hashFunction k = d1.type.hashFunction k := by rw [htype1']
    have hhash0 : (_dictRehashStep d).type.hashFunction k = d1.type.hashFunction k := by
      rw [htype1, htype0]
    by_cases hr1 : dictIsRehashing d1 = true
    · rw [if_pos hr1] at hidx
      rcases hinv1.rehash_inr hr1 with ⟨hnn, hs0, hs1, hpre⟩
      have hidx' : d1.type.hashFunction
          (⟨dictStoredKey d1.type k, DictUnion.uninit⟩ : DictEntry K V).key
            &&& d1.ht1.sizemask = i := by
        rw [hkey, ← hhash0, ← hidx]
      have hwf1' := htInsertHead_wf hinv1.wf1 hs1 hidx'
      have hlt : i < d1.ht1.table.length := by
        rw [← hidx']
        exact hinv1.wf1.idx_lt_length hs1 _
      have hperm2 : List.Perm
          (htEntries (htInsertHead d1.ht1 i ⟨dictStoredKey d1.type k, DictUnion.uninit⟩))
          ((⟨dictStoredKey d1.type k, DictUnion.uninit⟩ : DictEntry K V) :: htEntries d1.ht1) :=
        htInsertHead_entries hlt
      have hallperm : List.Perm
          (allEntries { d1 with
            ht1 := htInsertHead d1.ht1 i ⟨dictStoredKey d1.type k, DictUnion.uninit⟩ })
          ((⟨dictStoredKey d1.type k, DictUnion.uninit⟩ : DictEntry K V) :: allEntries d1) := by
        rw [allEntries, allEntries]
        exact List.Perm.trans (List.Perm.append_left _ hperm2) List.perm_middle
      have hkeysperm : List.Perm
          (allKeys { d1 with
            ht1 := htInsertHead d1.ht1 i ⟨dictStoredKey d1.type k, DictUnion.uninit⟩ })
          (k :: allKeys d1) := by
        rw [allKeys, allKeys]
        have := hallperm.map (fun e : DictEntry K V => e.key)
        simpa [GoodType.storedKey_eq hg1] using this
      rw [if_pos hr1]
      refine ⟨⟨hinv1.wf0, hwf1', ?_, ?_⟩, htype1', ?_, ?_, ?_⟩
      · exact hkeysperm.nodup_iff.2 (List.nodup_cons.2 ⟨habs1', hinv1.nodup⟩)
      · exact Or.inr ⟨hnn, hs0, by rw [htInsertHead_size]; exact hs1, hpre⟩
      · intro hc'
        cases hc'
      · intro e' he'
        cases he'
      · intro t1 i' hti
        exact ⟨habs, hkeysperm.trans (List.Perm.cons k (by rw [hkeys1]; exact hkperm0))⟩
    · rw [if_neg hr1] at hidx
      have hidx' : d1.type.hashFunction
          (⟨dictStoredKey d1.type k, DictUnion.uninit⟩ : DictEntry K V).key
            &&& d1.ht0.sizemask = i := by
        rw [hkey, ← hhash0, ← hidx]
      have hwf0' := htInsertHead_wf hinv1.wf0 hsz1 hidx'
      have hlt : i < d1.ht0.table.length := by
        rw [← hidx']
        exact hinv1.wf0.idx_lt_length hsz1 _
      have hperm2 : List.Perm
          (htEntries (htInsertHead d1.ht0 i ⟨dictStoredKey d1.type k, DictUnion.uninit⟩))
          ((⟨dictStoredKey d1.type k, DictUnion.uninit⟩ : DictEntry K V) :: htEntries d1.ht0) :=
        htInsertHead_entries hlt
      have hallperm : List.Perm
          (allEntries { d1 with
            ht0 := htInsertHead d1.ht0 i ⟨dictStoredKey d1.type k, DictUnion.uninit⟩ })
          ((⟨dictStoredKey d1.type k, DictUnion.uninit⟩ : DictEntry K V) :: allEntries d1) := by
        rw [allEntries, allEntries]
        exact List.Perm.append_right _ hperm2
      have hkeysperm : List.Perm
          (allKeys { d1 with
            ht0 := htInsertHead d1.ht0 i ⟨dictStoredKey d1.type k, DictUnion.uninit⟩ })
          (k :: allKeys d1) := by
        rw [allKeys, allKeys]
        have := hallperm.map (fun e : DictEntry K V => e.key)
        simpa [GoodType.storedKey_eq hg1] using this
      rw [if_neg hr1]
      refine ⟨⟨hwf0', hinv1.wf1, ?_, ?_⟩, htype1', ?_, ?_, ?_⟩
      · exact hkeysperm.nodup_iff.2 (List.nodup_cons.2 ⟨habs1', hinv1.nodup⟩)
      · rcases hinv1.rehash_state with ⟨ha, hb⟩ | ⟨ha, _⟩
        · exact Or.inl ⟨ha, hb⟩
        · exact absurd (rehashing_iff.2 (show d1.rehashidx ≠ -1 by omega)) (by simpa using hr1)
      · intro hc'
        cases hc'
      · intro e' he'
        cases he'
      · intro t1 i' hti
        exact ⟨habs, hkeysperm.trans (List.Perm.cons k (by rw [hkeys1]; exact hkperm0))⟩

theorem htSetHeadVal_getD_empty {ht : Dictht K V} {idx j : Nat} {newV : DictUnion V}
    (hj : ht.table.getD j [] = []) :
    (htSetHeadVal ht idx newV).table.getD j [] = [] := by
  rcases Nat.lt_or_ge idx ht.table.length with hlt | hge
  · rcases eq_or_ne j idx with rfl | hne
    · rw [show (htSetHeadVal ht j newV).table = ht.table.set j
          (match ht.table.getD j [] with
           | [] => []
           | e :: rest => { e with v := newV } :: rest) from rfl,
        getD_set_self hlt, hj]
    · rw [show (htSetHeadVal ht idx newV).table = ht.table.set idx
          (match ht.table.getD idx [] with
           | [] => []
           | e :: rest => { e with v := newV } :: rest) from rfl,
        getD_set_ne hne]
      exact hj
  · rw [show (htSetHeadVal ht idx newV).table = ht.table.set idx
        (match ht.table.getD idx [] with
         | [] => []
         | e :: rest => { e with v := newV } :: rest) from rfl,
      List.set_eq_of_length_le hge]
    exact hj

theorem perm_cons_extract {α : Type _} (e : α) (T pre post D E : List α) :
    List.Perm (e :: ((T ++ (pre ++ post) ++ D) ++ E)) ((T ++ (pre ++ e :: post) ++ D) ++ E) := by
  have h : List.Perm (e :: ((T ++ pre) ++ (post ++ D ++ E)))
      ((T ++ pre) ++ e :: (post ++ D ++ E)) := List.perm_middle.symm
  simpa [List.append_assoc, List.cons_append] using h

/-- Combined effect of `dictAdd`: the invariant is preserved and a successful
insertion adds exactly the key (absent beforehand), while a failed insertion
keys-permutes the dictionary. -/
theorem dictAdd_spec (hg : GoodType d.type) (h : Inv d) (c : Bool) :
    Inv (dictAdd d k v c).1 ∧ (dictAdd d k v c).1.type = d.type ∧
      ((dictAdd d k v c).2 = .ok () → k ∉ allKeys d ∧
        List.Perm (allKeys (dictAdd d k v c).1) (k :: allKeys d)) ∧
      ((dictAdd d k v c).2 ≠ .ok () →
        List.Perm (allKeys (dictAdd d k v c).1) (allKeys d)) := by
  rcases dictAddRaw_spec (k := k) hg h c with ⟨hinv2, htype2, herr2, hex2, hadd2⟩
  rcases hAR : dictAddRaw d k c with ⟨d2, res⟩
  rw [hAR] at hinv2 htype2 herr2 hex2 hadd2
  simp only at hinv2 htype2 herr2 hex2 hadd2
  cases res with
  | err => exact absurd rfl herr2
  | existing e =>
    simp only [dictAdd, hAR]
    rcases hex2 e rfl with ⟨_, _, hperm, _⟩
    refine ⟨hinv2, htype2, ?_, ?_⟩
    · intro hc'
      cases hc'
    · intro _
      exact hperm
  | added t1 i =>
    rcases hadd2 t1 i rfl with ⟨habs, hperm⟩
    have hkeys3 : ∀ (ht' : Dictht K V) (idx : Nat) (nv : DictUnion V),
        (htEntries (htSetHeadVal ht' idx nv)).map (·.key) = (htEntries ht').map (·.key) :=
      fun ht' idx nv => And.left htSetHeadVal_keys
    cases t1 with
    | true =>
      simp only [dictAdd, hAR]
      rw [if_pos trivial]
      have hkeq : ∀ nv : DictUnion V,
          allKeys { d2 with ht1 := htSetHeadVal d2.ht1 i nv } = allKeys d2 := by
        intro nv
        rw [allKeys, allKeys, allEntries, allEntries]
        simp only [List.map_append]
        rw [hkeys3]
      refine ⟨?_, htype2, ?_, ?_⟩
      · refine ⟨hinv2.wf0, htSetHeadVal_wf hinv2.wf1, by rw [hkeq]; exact hinv2.nodup, ?_⟩
        rcases hinv2.rehash_state with ⟨ha, hb⟩ | ⟨ha, hb, hc', hdp⟩
        · refine Or.inl ⟨ha, ?_⟩
          rw [hb]
          rfl
        · exact Or.inr ⟨ha, hb, hc', hdp⟩
      · intro _
        rw [hkeq]
        exact ⟨habs, hperm⟩
      · intro hc'
        exact absurd (by trivial) hc'
    | false =>
      simp only [dictAdd, hAR]
      rw [if_neg Bool.false_ne_true]
      have hkeq : ∀ nv : DictUnion V,
          allKeys { d2 with ht0 := htSetHeadVal d2.ht0 i nv } = allKeys d2 := by
        intro nv
        rw [allKeys, allKeys, allEntries, allEntries]
        simp only [List.map_append]
        rw [hkeys3]
      refine ⟨?_, htype2, ?_, ?_⟩
      · refine ⟨htSetHeadVal_wf hinv2.wf0, hinv2.wf1, by rw [hkeq]; exact hinv2.nodup, ?_⟩
        rcases hinv2.rehash_state with ⟨ha, hb⟩ | ⟨ha, hb, hc', hdp⟩
        · exact Or.inl ⟨ha, hb⟩
        · refine Or.inr ⟨ha, by simpa using hb, hc', ?_⟩
          intro j hj
          exact htSetHeadVal_getD_empty (hdp j hj)
      · intro _
        rw [hkeq]
        exact ⟨habs, hperm⟩
      · intro hc'
        exact absurd (by trivial) hc'

theorem perm_cons_extract_right {α : Type _} (e : α) (E T pre post D : List α) :
    List.Perm (e :: (E ++ (T ++ (pre ++ post) ++ D)))
      (E ++ (T ++ (pre ++ e :: post) ++ D)) := by
  have h : List.Perm (e :: ((E ++ T ++ pre) ++ (post ++ D)))
      ((E ++ T ++ pre) ++ e :: (post ++ D)) := List.perm_middle.symm
  simpa [List.append_assoc, List.cons_append] using h

/-- Removing one chain node from its table-0 bucket preserves the invariant,
and the removed entry is exactly the dropped element of the entry multiset. -/
theorem Inv.remove_entry0 (h : Inv d) {idx : Nat} {e : DictEntry K V}
    {pre post : List (DictEntry K V)}
    (hb : d.ht0.table.getD idx [] = pre ++ e :: post)
    (hlt : idx < d.ht0.table.length) :
    Inv { d with ht0 := { d.ht0 with
            table := d.ht0.table.set idx (pre ++ post),
            used := d.ht0.used - 1 } } ∧
      List.Perm
        (e :: allEntries { d with ht0 := { d.ht0 with
            table := d.ht0.table.set idx (pre ++ post),
            used := d.ht0.used - 1 } })
        (allEntries d) := by
  set d2 : Dict K V := { d with ht0 := { d.ht0 with
      table := d.ht0.table.set idx (pre ++ post),
      used := d.ht0.used - 1 } } with hd2
  have hE2 : allEntries d2
      = ((d.ht0.table.take idx).flatten ++ (pre ++ post)
          ++ (d.ht0.table.drop (idx + 1)).flatten) ++ htEntries d.ht1 := by
    rw [hd2]
    simp only [allEntries, htEntries]
    rw [flatten_set hlt]
  have hE1 : allEntries d
      = ((d.ht0.table.take idx).flatten ++ (pre ++ e :: post)
          ++ (d.ht0.table.drop (idx + 1)).flatten) ++ htEntries d.ht1 := by
    simp only [allEntries, htEntries]
    rw [flatten_frame (l := d.ht0.table) (i := idx) hlt, hb]
  have hperm : List.Perm (e :: allEntries d2) (allEntries d) := by
    rw [hE1, hE2]
    exact perm_cons_extract e _ pre post _ _
  refine ⟨⟨?_, h.wf1, ?_, ?_⟩, hperm⟩
  · refine ⟨?_, h.wf0.mask_def, h.wf0.pow, ?_, ?_⟩
    · show d.ht0.size = (d.ht0.table.set idx (pre ++ post)).length
      rw [List.length_set]
      exact h.wf0.size_def
    · show d.ht0.used - 1 = ((d.ht0.table.set idx (pre ++ post)).map List.length).sum
      have hsum := sum_map_length_set (l := d.ht0.table) (i := idx) (b := pre ++ post) hlt
      have hud := h.wf0.used_def
      rw [hb] at hsum
      simp only [List.length_append, List.length_cons] at hsum
      omega
    · intro i x hx
      have hx' : x ∈ (d.ht0.table.set idx (pre ++ post)).getD i [] := hx
      show d.type.hashFunction x.key &&& d.ht0.sizemask = i
      rcases eq_or_ne i idx with rfl | hne
      · rw [getD_set_self hlt] at hx'
        refine h.wf0.placed _ x ?_
        rw [hb]
        rcases List.mem_append.1 hx' with h1 | h2
        · exact List.mem_append.2 (Or.inl h1)
        · exact List.mem_append.2 (Or.inr (List.mem_cons_of_mem e h2))
      · rw [getD_set_ne hne] at hx'
        exact h.wf0.placed i x hx'
  · have h2 : List.Perm (e.key :: allKeys d2) (allKeys d) := by
      have h3 := hperm.map (fun x : DictEntry K V => x.key)
      rw [List.map_cons] at h3
      exact h3
    exact ((h2.nodup_iff).2 h.nodup).of_cons
  · rcases h.rehash_state with ⟨ha, hb1⟩ | ⟨ha, hs0, hs1, hp⟩
    · exact Or.inl ⟨ha, hb1⟩
    · refine Or.inr ⟨ha, hs0, hs1, ?_⟩
      intro i hi
      have hi' : i < d.rehashidx.toNat := hi
      show (d.ht0.table.set idx (pre ++ post)).getD i [] = []
      rcases eq_or_ne i idx with rfl | hne
      · have h0 := hp _ hi'
        rw [h0] at hb
        exact absurd hb.symm (by simp)
      · rw [getD_set_ne hne]
        exact hp i hi'

/-- Removing one chain node from its table-1 bucket preserves the invariant,
and the removed entry is exactly the dropped element of the entry multiset. -/
theorem Inv.remove_entry1 (h : Inv d) {idx : Nat} {e : DictEntry K V}
    {pre post : List (DictEntry K V)}
    (hb : d.ht1.table.getD idx [] = pre ++ e :: post)
    (hlt : idx < d.ht1.table.length) :
    Inv { d with ht1 := { d.ht1 with
            table := d.ht1.table.set idx (pre ++ post),
            used := d.ht1.used - 1 } } ∧
      List.Perm
        (e :: allEntries { d with ht1 := { d.ht1 with
            table := d.ht1.table.set idx (pre ++ post),
            used := d.ht1.used - 1 } })
        (allEntries d) := by
  set d2 : Dict K V := { d with ht1 := { d.ht1 with
      table := d.ht1.table.set idx (pre ++ post),
      used := d.ht1.used - 1 } } with hd2
  have hE2 : allEntries d2
      = htEntries d.ht0 ++ ((d.ht1.table.take idx).flatten ++ (pre ++ post)
          ++ (d.ht1.table.drop (idx + 1)).flatten) := by
    rw [hd2]
    simp only [allEntries, htEntries]
    rw [flatten_set hlt]
  have hE1 : allEntries d
      = htEntries d.ht0 ++ ((d.ht1.table.take idx).flatten ++ (pre ++ e :: post)
          ++ (d.ht1.table.drop (idx + 1)).flatten) := by
    simp only [allEntries, htEntries]
    rw [flatten_frame (l := d.ht1.table) (i := idx) hlt, hb]
  have hperm : List.Perm (e :: allEntries d2) (allEntries d) := by
    rw [hE1, hE2]
    exact perm_cons_extract_right e _ _ pre post _
  refine ⟨⟨h.wf0, ?_, ?_, ?_⟩, hperm⟩
  · refine ⟨?_, h.wf1.mask_def, h.wf1.pow, ?_, ?_⟩
    · show d.ht1.size = (d.ht1.table.set idx (pre ++ post)).length
      rw [List.length_set]
      exact h.wf1.size_def
    · show d.ht1.used - 1 = ((d.ht1.table.set idx (pre ++ post)).map List.length).sum
      have hsum := sum_map_length_set (l := d.ht1.table) (i := idx) (b := pre ++ post) hlt
      have hud := h.wf1.used_def
      rw [hb] at hsum
      simp only [List.length_append, List.length_cons] at hsum
      omega
    · intro i x hx
      have hx' : x ∈ (d.ht1.table.set idx (pre ++ post)).getD i [] := hx
      show d.type.hashFunction x.key &&& d.ht1.sizemask = i
      rcases eq_or_ne i idx with rfl | hne
      · rw [getD_set_self hlt] at hx'
        refine h.wf1.placed _ x ?_
        rw [hb]
        rcases List.mem_append.1 hx' with h1 | h2
        · exact List.mem_append.2 (Or.inl h1)
        · exact List.mem_append.2 (Or.inr (List.mem_cons_of_mem e h2))
      · rw [getD_set_ne hne] at hx'
        exact h.wf1.placed i x hx'
  · have h2 : List.Perm (e.key :: allKeys d2) (allKeys d) := by
      have h3 := hperm.map (fun x : DictEntry K V => x.key)
      rw [List.map_cons] at h3
      exact h3
    exact ((h2.nodup_iff).2 h.nodup).of_cons
  · rcases h.rehash_state with ⟨ha, hb1⟩ | ⟨ha, hs0, hs1, hp⟩
    · rw [hb1] at hlt
      simp [dicthtReset] at hlt
    · refine Or.inr ⟨ha, hs0, ?_, ?_⟩
      · show d.ht1.size ≠ 0
        exact hs1
      · intro i hi
        have hi' : i < d.rehashidx.toNat := hi
        exact hp i hi'

/-- Combined effect of the shared delete helper: the invariant is preserved;
a miss leaves the dictionary unchanged apart from the implicit rehash step,
reports nothing removed and fires no destructor, and happens exactly when the
key is absent; a hit unlinks exactly one entry carrying the key, firing the
destructors unless `nofree` is set. -/
theorem dictGenericDelete_spec (hg : GoodType d.type) (h : Inv d) (nofree : Bool) :
    Inv (dictGenericDelete d k nofree).1 ∧
      (dictGenericDelete d k nofree).1.type = d.type ∧
      ((dictGenericDelete d k nofree).2.1 = none → k ∉ allKeys d ∧
        List.Perm (allKeys (dictGenericDelete d k nofree).1) (allKeys d) ∧
        (dictGenericDelete d k nofree).2.2 = [] ∧
        ((dictSize d = 0 ∧ (dictGenericDelete d k nofree).1 = d) ∨
          (dictSize d ≠ 0 ∧ (dictGenericDelete d k nofree).1 = _dictRehashStep d))) ∧
      (∀ e, (dictGenericDelete d k nofree).2.1 = some e → e.key = k ∧ k ∈ allKeys d ∧
        List.Perm (k :: allKeys (dictGenericDelete d k nofree).1) (allKeys d) ∧
        (dictGenericDelete d k nofree).2.2
          = (if nofree then [] else freeEntryEvents d.type e)) := by
  by_cases hz : (d.ht0.used == 0 && d.ht1.used == 0) = true
  · have hres : dictGenericDelete d k nofree = (d, none, []) := by
      simp only [dictGenericDelete]
      rw [if_pos hz]
    rw [hres]
    have hsz : dictSize d = 0 := by
      rw [dictSize]
      simp at hz
      omega
    have habs : k ∉ allKeys d := by
      intro hk
      exact h.pos_of_mem hk hsz
    refine ⟨h, rfl, ?_, ?_⟩
    · intro _
      exact ⟨habs, List.Perm.refl _, rfl, Or.inl ⟨hsz, rfl⟩⟩
    · intro e he
      cases he
  · have hsz : dictSize d ≠ 0 := by
      rw [dictSize]
      simp at hz
      omega
    rcases _dictRehashStep_spec h with ⟨hinv1, htype1, hperm1⟩
    have hg1 : GoodType (_dictRehashStep d).type := htype1 ▸ hg
    have hkperm1 : List.Perm (allKeys (_dictRehashStep d)) (allKeys d) := by
      rw [allKeys, allKeys]
      exact hperm1.map (fun e : DictEntry K V => e.key)
    simp only [dictGenericDelete]
    rw [if_neg hz]
    set d1 := _dictRehashStep d with hd1
    rcases hr0 : removeFirst d1.type k
        (d1.ht0.table.getD (d1.type.hashFunction k &&& d1.ht0.sizemask) []) with _ | ⟨e, b'⟩
    · simp only [hr0]
      by_cases hreh : dictIsRehashing d1 = true
      · rw [if_pos hreh]
        rcases hr1 : removeFirst d1.type k
            (d1.ht1.table.getD (d1.type.hashFunction k &&& d1.ht1.sizemask) []) with _ | ⟨e, b'⟩
        · simp only [hr1]
          refine ⟨hinv1, htype1, ?_, ?_⟩
          · intro _
            refine ⟨?_, hkperm1, by trivial, Or.inr ⟨hsz, by trivial⟩⟩
            intro hk
            have hk1 : k ∈ allKeys d1 := hkperm1.mem_iff.2 hk
            have habs1 := hinv1.absent_of_miss hg1
              (searchBucket_eq_none.2 (removeFirst_none.1 hr0))
              (fun _ => searchBucket_eq_none.2 (removeFirst_none.1 hr1))
            exact habs1 hk1
          · intro e he
            cases he
        · simp only [hr1]
          rcases removeFirst_some hr1 with ⟨pre, post, hb, hb', hme, _⟩
          subst hb'
          have hek : e.key = k := ((hg1.cmp_iff k e.key).1 hme).symm
          have hlt : d1.type.hashFunction k &&& d1.ht1.sizemask < d1.ht1.table.length := by
            refine hinv1.wf1.idx_lt_length ?_ _
            exact (hinv1.rehash_inr hreh).2.2.1
          rcases hinv1.remove_entry1 hb hlt with ⟨hinv2, hperm2⟩
          refine ⟨hinv2, htype1, ?_, ?_⟩
          · intro hc'
            cases hc'
          · intro e' he'
            injection he' with he2
            subst he2
            refine ⟨hek, ?_, ?_, ?_⟩
            · have he1 : e ∈ allEntries d1 := hperm2.mem_iff.1 (List.mem_cons_self e _)
              have hk1 : k ∈ allKeys d1 := List.mem_map.2 ⟨e, he1, hek⟩
              exact hkperm1.mem_iff.1 hk1
            · have h2 := hperm2.map (fun x : DictEntry K V => x.key)
              rw [List.map_cons, hek] at h2
              exact h2.trans hkperm1
            · rw [htype1]
      · rw [if_neg hreh]
        refine ⟨hinv1, htype1, ?_, ?_⟩
        · intro _
          refine ⟨?_, hkperm1, by trivial, Or.inr ⟨hsz, by trivial⟩⟩
          intro hk
          have hk1 : k ∈ allKeys d1 := hkperm1.mem_iff.2 hk
          have habs1 := hinv1.absent_of_miss hg1
            (searchBucket_eq_none.2 (removeFirst_none.1 hr0))
            (fun hc' => absurd hc' hreh)
          exact habs1 hk1
        · intro e he
          cases he
    · simp only [hr0]
      rcases removeFirst_some hr0 with ⟨pre, post, hb, hb', hme, _⟩
      subst hb'
      have hek : e.key = k := ((hg1.cmp_iff k e.key).1 hme).symm
      have hmem0 : e ∈ d1.ht0.table.getD (d1.type.hashFunction k &&& d1.ht0.sizemask) [] := by
        rw [hb]
        exact List.mem_append.2 (Or.inr (List.mem_cons_self e post))
      have hs0 : d1.ht0.size ≠ 0 := by
        intro hs
        have hnil := hinv1.wf0.table_eq_nil hs
        have hlen : d1.ht0.table.length ≤ d1.type.hashFunction k &&& d1.ht0.sizemask := by
          rw [hnil]
          exact Nat.zero_le _
        rw [getD_eq_default_of_le hlen] at hmem0
        cases hmem0
      have hlt : d1.type.hashFunction k &&& d1.ht0.sizemask < d1.ht0.table.length :=
        hinv1.wf0.idx_lt_length hs0 _
      rcases hinv1.remove_entry0 hb hlt with ⟨hinv2, hperm2⟩
      refine ⟨hinv2, htype1, ?_, ?_⟩
      · intro hc'
        cases hc'
      · intro e' he'
        injection he' with he2
        subst he2
        refine ⟨hek, ?_, ?_, ?_⟩
        · have he1 : e ∈ allEntries d1 := hperm2.mem_iff.1 (List.mem_cons_self e _)
          have hk1 : k ∈ allKeys d1 := List.mem_map.2 ⟨e, he1, hek⟩
          exact hkperm1.mem_iff.1 hk1
        · have h2 := hperm2.map (fun x : DictEntry K V => x.key)
          rw [List.map_cons, hek] at h2
          exact h2.trans hkperm1
        · rw [htype1]

theorem dictDelete_fst (d : Dict K V) (k : K) :
    (dictDelete d k).1 = (dictGenericDelete d k false).1 := by
  simp only [dictDelete]
  rcases hG : dictGenericDelete d k false with ⟨d1, r, ev⟩
  cases r with
  | none => simp only [hG]
  | some e => simp only [hG]

theorem dictUnlink_fst (d : Dict K V) (k : K) :
    (dictUnlink d k).1 = (dictGenericDelete d k true).1 := by
  simp only [dictUnlink]
  rcases hG : dictGenericDelete d k true with ⟨d1, r, ev⟩
  cases r with
  | none => simp only [hG]
  | some e => simp only [hG]

/-- One step of the operation language: the invariant and the behavior typing
are preserved, and every stored key survives except one targeted by a delete
or an unlink. -/
theorem applyOp_spec (w : World K V) (hg : GoodType w.d.type) (h : Inv w.d)
    (op : DictOp K V) :
    Inv (applyOp w op).d ∧ (applyOp w op).d.type = w.d.type ∧
      ∀ k, k ∈ allKeys w.d → op ≠ .delete k → op ≠ .unlink k →
        k ∈ allKeys (applyOp w op).d := by
  cases op with
  | add k' vv =>
    simp only [applyOp]
    rcases dictAdd_spec (d := w.d) (k := k') (v := vv) hg h w.canResize
      with ⟨h1, h2, hok, hfail⟩
    refine ⟨h1, h2, ?_⟩
    intro k hk _ _
    by_cases hres : (dictAdd w.d k' vv w.canResize).2 = .ok ()
    · rcases hok hres with ⟨_, hperm⟩
      exact hperm.mem_iff.2 (List.mem_cons_of_mem k' hk)
    · exact (hfail hres).mem_iff.2 hk
  | delete k' =>
    simp only [applyOp]
    rcases dictGenericDelete_spec (d := w.d) (k := k') hg h false
      with ⟨h1, h2, hnone, hsome⟩
    rw [dictDelete_fst w.d k']
    refine ⟨h1, h2, ?_⟩
    intro k hk hdel _
    have hne : k' ≠ k := by
      intro he
      exact hdel (by rw [he])
    rcases hN : (dictGenericDelete w.d k' false).2.1 with _ | e
    · rcases hnone hN with ⟨_, hperm, _, _⟩
      exact hperm.mem_iff.2 hk
    · rcases hsome e hN with ⟨_, _, hperm, _⟩
      have hmem : k ∈ k' :: allKeys (dictGenericDelete w.d k' false).1 :=
        hperm.mem_iff.2 hk
      rcases List.mem_cons.1 hmem with he | hm
      · exact absurd he.symm hne
      · exact hm
  | unlink k' =>
    simp only [applyOp]
    rcases dictGenericDelete_spec (d := w.d) (k := k') hg h true
      with ⟨h1, h2, hnone, hsome⟩
    rw [dictUnlink_fst w.d k']
    refine ⟨h1, h2, ?_⟩
    intro k hk _ hunl
    have hne : k' ≠ k := by
      intro he
      exact hunl (by rw [he])
    rcases hN : (dictGenericDelete w.d k' true).2.1 with _ | e
    · rcases hnone hN with ⟨_, hperm, _, _⟩
      exact hperm.mem_iff.2 hk
    · rcases hsome e hN with ⟨_, _, hperm, _⟩
      have hmem : k ∈ k' :: allKeys (dictGenericDelete w.d k' true).1 :=
        hperm.mem_iff.2 hk
      rcases List.mem_cons.1 hmem with he | hm
      · exact absurd he.symm hne
      · exact hm
  | find k' =>
    simp only [applyOp]
    rcases dictFind_state (d := w.d) (k := k') h with ⟨h1, h2, h3⟩
    refine ⟨h1, h2, ?_⟩
    intro k hk _ _
    exact ((h3.map (fun x : DictEntry K V => x.key)).mem_iff).2 hk
  | expand n =>
    simp only [applyOp]
    rcases dictExpand_spec h n with ⟨h1, h2, h3⟩
    refine ⟨h1, h2, ?_⟩
    intro k hk _ _
    have hkeq : allKeys (dictExpand w.d n).1 = allKeys w.d :=
      congrArg (List.map (fun x : DictEntry K V => x.key)) h3
    rw [hkeq]
    exact hk
  | resize =>
    simp only [applyOp]
    by_cases hgr : (¬w.canResize || dictIsRehashing w.d) = true
    · have hres : (dictResize w.d w.canResize).1 = w.d := by
        rw [dictResize, if_pos hgr]
      rw [hres]
      exact ⟨h, rfl, fun k hk _ _ => hk⟩
    · have hres : (dictResize w.d w.canResize).1
          = (dictExpand w.d (max w.d.ht0.used DICT_HT_INITIAL_SIZE)).1 := by
        rw [dictResize, if_neg hgr]
      rw [hres]
      rcases dictExpand_spec h (max w.d.ht0.used DICT_HT_INITIAL_SIZE) with ⟨h1, h2, h3⟩
      refine ⟨h1, h2, ?_⟩
      intro k hk _ _
      have hkeq : allKeys (dictExpand w.d (max w.d.ht0.used DICT_HT_INITIAL_SIZE)).1
          = allKeys w.d :=
        congrArg (List.map (fun x : DictEntry K V => x.key)) h3
      rw [hkeq]
      exact hk
  | rehash n =>
    simp only [applyOp]
    rcases dictRehash_spec h n with ⟨h1, h2, h3⟩
    refine ⟨h1, h2, ?_⟩
    intro k hk _ _
    exact ((h3.map (fun x : DictEntry K V => x.key)).mem_iff).2 hk
  | enableResize =>
    simp only [applyOp]
    exact ⟨h, trivial, fun k hk _ _ => hk⟩
  | disableResize =>
    simp only [applyOp]
    exact ⟨h, trivial, fun k hk _ _ => hk⟩

theorem foldl_applyOp_inv (w : World K V) (hg : GoodType w.d.type) (h : Inv w.d)
    (ops : List (DictOp K V)) :
    Inv (ops.foldl applyOp w).d ∧ (ops.foldl applyOp w).d.type = w.d.type := by
  induction ops generalizing w with
  | nil => exact ⟨h, rfl⟩
  | cons op rest ih =>
    rcases applyOp_spec w hg h op with ⟨h1, h2, _⟩
    rcases ih (applyOp w op) (by rw [h2]; exact hg) h1 with ⟨h3, h4⟩
    refine ⟨h3, ?_⟩
    rw [List.foldl_cons, h4, h2]

theorem foldl_applyOp_presence (w : World K V) (hg : GoodType w.d.type) (h : Inv w.d)
    (ops : List (DictOp K V)) {k : K} (hk : k ∈ allKeys w.d)
    (hnd : DictOp.delete k ∉ ops) (hnu : DictOp.unlink k ∉ ops) :
    k ∈ allKeys (ops.foldl applyOp w).d := by
  induction ops generalizing w with
  | nil => exact hk
  | cons op rest ih =>
    rcases applyOp_spec w hg h op with ⟨h1, h2, h3⟩
    have hk2 : k ∈ allKeys (applyOp w op).d := by
      refine h3 k hk ?_ ?_
      · intro he
        exact hnd (by rw [← he]; exact List.mem_cons_self _ _)
      · intro he
        exact hnu (by rw [← he]; exact List.mem_cons_self _ _)
    exact ih (applyOp w op) (by rw [h2]; exact hg) h1 hk2
      (fun hm => hnd (List.mem_cons_of_mem _ hm))
      (fun hm => hnu (List.mem_cons_of_mem _ hm))

/-- Running any operation sequence from a fresh dictionary maintains the
invariant and the behavior typing. -/
theorem runOps_inv (t : DictType K V) (hg : GoodType t) (ops : List (DictOp K V)) :
    Inv (runOps t ops).d ∧ (runOps t ops).d.type = t := by
  have h0 : Inv (World.mk (dictCreate t) true).d := Inv.dictCreate t
  exact foldl_applyOp_inv ⟨dictCreate t, true⟩ hg h0 ops

end Ops

/-! ### The claims -/

section Claims

variable {K V : Type} [DecidableEq K]

theorem goodType_natType : GoodType natType := by
  constructor
  · intro a b
    simp [matchKey, dictCompareKeys, natType]
  · intro f hf
    simp [natType] at hf

theorem runOps_natType_inv (ops : List (DictOp Nat Nat)) : Inv (runOps natType ops).d :=
  (runOps_inv natType goodType_natType ops).1

theorem runOps_natType_good (ops : List (DictOp Nat Nat)) :
    GoodType (runOps natType ops).d.type := by
  rw [(runOps_inv natType goodType_natType ops).2]
  exact goodType_natType

/-- C1: across any operation sequence, while the rehash cursor is active every
stored key is findable in exactly one of the two table generations, and the
cached size `ht[0].used + ht[1].used` always equals the number of entries
reachable by traversing every bucket chain of both tables. -/
theorem spec_c1 (t : DictType K V) (hg : GoodType t) (ops : List (DictOp K V)) :
    (dictIsRehashing (runOps t ops).d = true →
      ∀ k ∈ allKeys (runOps t ops).d,
        (findInHt (runOps t ops).d.type (runOps t ops).d.ht0 k).isSome
          ≠ (findInHt (runOps t ops).d.type (runOps t ops).d.ht1 k).isSome) ∧
    dictSize (runOps t ops).d = totalCount (runOps t ops).d := by
  rcases runOps_inv t hg ops with ⟨hi, ht⟩
  refine ⟨?_, hi.size_eq_total⟩
  intro _ k hk
  exact hi.findable_xor (by rw [ht]; exact hg) hk

theorem spec_c1_witness :
    (dictIsRehashing (runOps natType [DictOp.add 1 10, DictOp.add 2 20, DictOp.add 3 30,
        DictOp.add 4 40, DictOp.add 5 50]).d = true →
      ∀ k ∈ allKeys (runOps natType [DictOp.add 1 10, DictOp.add 2 20, DictOp.add 3 30,
        DictOp.add 4 40, DictOp.add 5 50]).d,
        (findInHt (runOps natType [DictOp.add 1 10, DictOp.add 2 20, DictOp.add 3 30,
            DictOp.add 4 40, DictOp.add 5 50]).d.type
          (runOps natType [DictOp.add 1 10, DictOp.add 2 20, DictOp.add 3 30,
            DictOp.add 4 40, DictOp.add 5 50]).d.ht0 k).isSome
          ≠ (findInHt (runOps natType [DictOp.add 1 10, DictOp.add 2 20, DictOp.add 3 30,
            DictOp.add 4 40, DictOp.add 5 50]).d.type
          (runOps natType [DictOp.add 1 10, DictOp.add 2 20, DictOp.add 3 30,
            DictOp.add 4 40, DictOp.add 5 50]).d.ht1 k).isSome) ∧
    dictSize (runOps natType [DictOp.add 1 10, DictOp.add 2 20, DictOp.add 3 30,
        DictOp.add 4 40, DictOp.add 5 50]).d
      = totalCount (runOps natType [DictOp.add 1 10, DictOp.add 2 20, DictOp.add 3 30,
        DictOp.add 4 40, DictOp.add 5 50]).d :=
  spec_c1 natType goodType_natType [DictOp.add 1 10, DictOp.add 2 20, DictOp.add 3 30,
    DictOp.add 4 40, DictOp.add 5 50]

/-- C9: mutating the dictionary (here: a successful insertion) between an
unsafe iterator's acquisition and its release makes the captured structural
fingerprint mismatch, so the release fails fatally with the Misuse abort
(modelled as `none`); releasing over the unmutated dictionary succeeds. -/
theorem spec_c9 (d : Dict K V) (hg : GoodType d.type) (h : Inv d) (k : K) (vv : V)
    (c : Bool) (hadd : (dictAdd d k vv c).2 = .ok ()) :
    dictReleaseIterator (dictAdd d k vv c).1 (dictGetIterator d) = none ∧
      dictReleaseIterator d (dictGetIterator d) = some d := by
  rcases dictAdd_spec (d := d) (k := k) (v := vv) hg h c with ⟨h1, _, hok, _⟩
  rcases hok hadd with ⟨_, hperm⟩
  have hsz : dictSize (dictAdd d k vv c).1 = dictSize d + 1 := by
    rw [h1.size_eq_total, h.size_eq_total, totalCount, totalCount]
    have hlen := hperm.length_eq
    simp only [allKeys, List.length_map, List.length_cons] at hlen
    omega
  have hne : dictFingerprint (dictAdd d k vv c).1 ≠ dictFingerprint d := by
    intro he
    rw [dictFingerprint, dictFingerprint] at he
    have h2 := Nat.pair_eq_pair.1 he
    have h3 := Nat.pair_eq_pair.1 h2.1
    have h4 := Nat.pair_eq_pair.1 h2.2
    rw [dictSize, dictSize] at hsz
    omega
  constructor
  · simp only [dictReleaseIterator, dictGetIterator]
    rw [if_neg Bool.false_ne_true, if_neg]
    intro hc'
    exact hne (beq_iff_eq.1 hc').symm
  · simp only [dictReleaseIterator, dictGetIterator]
    rw [if_neg Bool.false_ne_true, if_pos (beq_self_eq_true _)]

theorem spec_c9_witness :
    dictReleaseIterator (dictAdd (dictCreate natType) 1 10 true).1
        (dictGetIterator (dictCreate natType)) = none ∧
      dictReleaseIterator (dictCreate natType) (dictGetIterator (dictCreate natType))
        = some (dictCreate natType) :=
  spec_c9 (dictCreate natType) goodType_natType (Inv.dictCreate natType) 1 10 true rfl

/-- C6 (amended): a resize request fails with `InvalidSize`, leaving the
dictionary unchanged, exactly when a rehash is already in progress or the
requested size is strictly smaller than the current used count; a request
equal to the used count (the shrink-to-fit case) succeeds. -/
theorem spec_c6 (d : Dict K V) (n : Nat) :
    (dictIsRehashing d = true ∨ n < d.ht0.used) ↔
      ((dictExpand d n).2 = .error .invalidSize ∧ (dictExpand d n).1 = d) := by
  by_cases hgr : (dictIsRehashing d || decide (d.ht0.used > n)) = true
  · simp only [dictExpand]
    rw [if_pos hgr]
    simp only [Bool.or_eq_true, decide_eq_true_eq] at hgr
    constructor
    · intro _
      exact ⟨rfl, rfl⟩
    · intro _
      rcases hgr with h1 | h2
      · exact Or.inl h1
      · exact Or.inr h2
  · simp only [dictExpand]
    rw [if_neg hgr]
    simp only [Bool.or_eq_true, decide_eq_true_eq, not_or, Bool.not_eq_true, not_lt] at hgr
    constructor
    · intro hc
      rcases hc with h1 | h2
      · rw [hgr.1] at h1
        cases h1
      · have := hgr.2
        omega
    · intro hc
      by_cases h0 : (d.ht0.size == 0) = true
      · rw [if_pos h0] at hc
        cases hc.1
      · rw [if_neg h0] at hc
        cases hc.1

/-- C6, the counterexample to the frozen wording: a request exactly equal to
the used count ("not larger") succeeds rather than failing with
`InvalidSize`. -/
theorem spec_c6_counterexample :
    (dictExpand (runOps natType [DictOp.disableResize, DictOp.add 1 10, DictOp.add 2 20,
        DictOp.add 3 30, DictOp.add 4 40, DictOp.add 5 50]).d 5).2 = Except.ok () ∧
    (runOps natType [DictOp.disableResize, DictOp.add 1 10, DictOp.add 2 20,
        DictOp.add 3 30, DictOp.add 4 40, DictOp.add 5 50]).d.ht0.used = 5 ∧
    dictIsRehashing (runOps natType [DictOp.disableResize, DictOp.add 1 10, DictOp.add 2 20,
        DictOp.add 3 30, DictOp.add 4 40, DictOp.add 5 50]).d = false :=
  ⟨rfl, by decide, by decide⟩

theorem dictGenericDelete_nofree_agree (d : Dict K V) (k : K) :
    (dictGenericDelete d k true).1 = (dictGenericDelete d k false).1 ∧
      (dictGenericDelete d k true).2.1 = (dictGenericDelete d k false).2.1 := by
  simp only [dictGenericDelete]
  by_cases hz : (d.ht0.used == 0 && d.ht1.used == 0) = true
  · rw [if_pos hz, if_pos hz]
    exact ⟨rfl, rfl⟩
  · rw [if_neg hz, if_neg hz]
    rcases hr0 : removeFirst (_dictRehashStep d).type k
        ((_dictRehashStep d).ht0.table.getD
          ((_dictRehashStep d).type.hashFunction k &&& (_dictRehashStep d).ht0.sizemask) [])
        with _ | ⟨e, b'⟩
    · simp only [hr0]
      by_cases hreh : dictIsRehashing (_dictRehashStep d) = true
      · rw [if_pos hreh, if_pos hreh]
        rcases hr1 : removeFirst (_dictRehashStep d).type k
            ((_dictRehashStep d).ht1.table.getD
              ((_dictRehashStep d).type.hashFunction k &&& (_dictRehashStep d).ht1.sizemask) [])
            with _ | ⟨e, b'⟩
        · simp only [hr1]
          exact ⟨by trivial, by trivial⟩
        · simp only [hr1]
          exact ⟨by trivial, by trivial⟩
      · rw [if_neg hreh, if_neg hreh]
        exact ⟨by trivial, by trivial⟩
    · simp only [hr0]
      exact ⟨by trivial, by trivial⟩

theorem dictUnlink_cases (d : Dict K V) (k : K) :
    (∀ e, (dictGenericDelete d k true).2.1 = some e →
      dictUnlink d k
        = ((dictGenericDelete d k true).1, .ok e, (dictGenericDelete d k true).2.2)) ∧
    ((dictGenericDelete d k true).2.1 = none →
      dictUnlink d k
        = ((dictGenericDelete d k true).1, .error .notFound,
            (dictGenericDelete d k true).2.2)) := by
  rcases hG : dictGenericDelete d k true with ⟨d1, r, ev⟩
  cases r with
  | none =>
    constructor
    · intro e he
      exact absurd he (by simp)
    · intro _
      simp only [dictUnlink, hG]
  | some e0 =>
    constructor
    · intro e he
      have he2 : e0 = e := by simpa using he
      subst he2
      simp only [dictUnlink, hG]
    · intro he
      exact absurd he (by simp)

theorem dictDelete_cases (d : Dict K V) (k : K) :
    (∀ e, (dictGenericDelete d k false).2.1 = some e →
      dictDelete d k
        = ((dictGenericDelete d k false).1, .ok (), (dictGenericDelete d k false).2.2)) ∧
    ((dictGenericDelete d k false).2.1 = none →
      dictDelete d k
        = ((dictGenericDelete d k false).1, .error .notFound,
            (dictGenericDelete d k false).2.2)) := by
  rcases hG : dictGenericDelete d k false with ⟨d1, r, ev⟩
  cases r with
  | none =>
    constructor
    · intro e he
      exact absurd he (by simp)
    · intro _
      simp only [dictDelete, hG]
  | some e0 =>
    constructor
    · intro e he
      have he2 : e0 = e := by simpa using he
      subst he2
      simp only [dictDelete, hG]
    · intro he
      exact absurd he (by simp)

/-- C7 (amended): `dictUnlink` removes the key's node and decrements the used
count without firing any destructor; `dictFreeUnlinkedEntry` fires the key and
value destructors on the unlinked node; `dictDelete` is exactly `dictUnlink`
followed by that free step; both fail with `NotFound` exactly when the key is
absent, the only state change on that path being the implicit incremental
rehash step (the dictionary is untouched only when it is empty). -/
theorem spec_c7 (d : Dict K V) (hg : GoodType d.type) (h : Inv d) (k : K) :
    (dictUnlink d k).2.2 = [] ∧
    (∀ e, (dictUnlink d k).2.1 = .ok e → e.key = k ∧
      dictSize (dictUnlink d k).1 + 1 = dictSize d ∧
      List.Perm (k :: allKeys (dictUnlink d k).1) (allKeys d)) ∧
    (∀ e : DictEntry K V, dictFreeUnlinkedEntry d.type (some e) = freeEntryEvents d.type e) ∧
    (dictDelete d k).1 = (dictUnlink d k).1 ∧
    (∀ e, (dictUnlink d k).2.1 = .ok e →
      (dictDelete d k).2.1 = .ok () ∧
      (dictDelete d k).2.2
        = (dictUnlink d k).2.2 ++ dictFreeUnlinkedEntry d.type (some e)) ∧
    ((dictUnlink d k).2.1 = .error .notFound ↔ k ∉ allKeys d) ∧
    ((dictUnlink d k).2.1 = .error .notFound →
      (dictSize d = 0 ∧ (dictUnlink d k).1 = d) ∨
        (dictSize d ≠ 0 ∧ (dictUnlink d k).1 = _dictRehashStep d)) := by
  rcases dictGenericDelete_spec (d := d) (k := k) hg h true with ⟨hI, _, hnone, hsome⟩
  rcases dictGenericDelete_spec (d := d) (k := k) hg h false with ⟨_, _, hnoneF, hsomeF⟩
  rcases dictGenericDelete_nofree_agree d k with ⟨hagree1, hagree2⟩
  rcases dictUnlink_cases d k with ⟨hUs, hUn⟩
  rcases dictDelete_cases d k with ⟨hDs, hDn⟩
  rcases hr : (dictGenericDelete d k true).2.1 with _ | e0
  · -- miss
    rcases hnone hr with ⟨habs, _, hev, hst⟩
    have hU := hUn hr
    have hU21 : (dictUnlink d k).2.1 = Except.error ErrorKind.notFound := by rw [hU]
    have hU1 : (dictUnlink d k).1 = (dictGenericDelete d k true).1 := by rw [hU]
    have hU22 : (dictUnlink d k).2.2 = (dictGenericDelete d k true).2.2 := by rw [hU]
    have hrF : (dictGenericDelete d k false).2.1 = none := by rw [← hagree2]; exact hr
    have hD := hDn hrF
    have hD1 : (dictDelete d k).1 = (dictGenericDelete d k false).1 := by rw [hD]
    refine ⟨by rw [hU22]; exact hev, ?_, fun e => rfl, ?_, ?_, ?_, ?_⟩
    · intro e he
      have := hU21.symm.trans he
      cases this
    · rw [hU1, hD1]
      exact hagree1.symm
    · intro e he
      have := hU21.symm.trans he
      cases this
    · constructor
      · intro _
        exact habs
      · intro _
        exact hU21
    · intro _
      rw [hU1]
      rcases hst with ⟨hz, he⟩ | ⟨hz, he⟩
      · exact Or.inl ⟨hz, he⟩
      · exact Or.inr ⟨hz, he⟩
  · -- hit
    rcases hsome e0 hr with ⟨hek, hkm, hperm, hev⟩
    have hU := hUs e0 hr
    have hU21 : (dictUnlink d k).2.1 = Except.ok e0 := by rw [hU]
    have hU1 : (dictUnlink d k).1 = (dictGenericDelete d k true).1 := by rw [hU]
    have hU22 : (dictUnlink d k).2.2 = (dictGenericDelete d k true).2.2 := by rw [hU]
    have hev' : (dictGenericDelete d k true).2.2 = [] := by simpa using hev
    have hrF : (dictGenericDelete d k false).2.1 = some e0 := by rw [← hagree2]; exact hr
    rcases hsomeF e0 hrF with ⟨_, _, _, hevF⟩
    have hevF' : (dictGenericDelete d k false).2.2 = freeEntryEvents d.type e0 := by
      simpa using hevF
    have hD := hDs e0 hrF
    have hD1 : (dictDelete d k).1 = (dictGenericDelete d k false).1 := by rw [hD]
    have hD21 : (dictDelete d k).2.1 = Except.ok () := by rw [hD]
    have hD22 : (dictDelete d k).2.2 = (dictGenericDelete d k false).2.2 := by rw [hD]
    refine ⟨by rw [hU22]; exact hev', ?_, fun e => rfl, ?_, ?_, ?_, ?_⟩
    · intro e he
      injection hU21.symm.trans he with he2
      subst he2
      refine ⟨hek, ?_, ?_⟩
      · have hlen := hperm.length_eq
        rw [hU1, hI.size_eq_total, h.size_eq_total, totalCount, totalCount]
        simp only [allKeys, List.length_map, List.length_cons] at hlen
        omega
      · rw [hU1]
        exact hperm
    · rw [hU1, hD1]
      exact hagree1.symm
    · intro e he
      injection hU21.symm.trans he with he2
      subst he2
      refine ⟨hD21, ?_⟩
      rw [hD22, hU22, hevF', hev']
      simp [dictFreeUnlinkedEntry]
    · constructor
      · intro he
        cases hU21.symm.trans he
      · intro habs
        exact absurd hkm habs
    · intro he
      cases hU21.symm.trans he

/-- C7, the counterexample to the frozen wording: deleting an absent key from
a rehashing dictionary reports `NotFound` but does not leave the dictionary
unchanged — the implicit rehash step has advanced the cursor. -/
theorem spec_c7_counterexample :
    (dictDelete (runOps natType [DictOp.add 1 10, DictOp.add 2 20, DictOp.add 3 30,
        DictOp.add 4 40, DictOp.add 5 50]).d 99).2.1 = Except.error ErrorKind.notFound ∧
    (dictDelete (runOps natType [DictOp.add 1 10, DictOp.add 2 20, DictOp.add 3 30,
        DictOp.add 4 40, DictOp.add 5 50]).d 99).1.rehashidx
      ≠ (runOps natType [DictOp.add 1 10, DictOp.add 2 20, DictOp.add 3 30,
        DictOp.add 4 40, DictOp.add 5 50]).d.rehashidx :=
  ⟨rfl, by decide⟩

theorem spec_c7_witness :
    (dictUnlink (runOps natType [DictOp.add 1 10, DictOp.add 2 20, DictOp.add 3 30,
        DictOp.add 4 40, DictOp.add 5 50]).d 3).2.2 = [] :=
  (spec_c7 (runOps natType [DictOp.add 1 10, DictOp.add 2 20, DictOp.add 3 30,
      DictOp.add 4 40, DictOp.add 5 50]).d
    (runOps_natType_good [DictOp.add 1 10, DictOp.add 2 20, DictOp.add 3 30,
      DictOp.add 4 40, DictOp.add 5 50])
    (runOps_natType_inv [DictOp.add 1 10, DictOp.add 2 20, DictOp.add 3 30,
      DictOp.add 4 40, DictOp.add 5 50]) 3).1

/-- C4 (amended): `dictAddRaw` never fails with the expansion error; a
conflict returns an entry carrying the key and leaves the dictionary in
exactly the state produced by the implicit rehash step and expansion trigger
(not unmodified); a successful insertion head-inserts a node holding the
(possibly duplicated) key into the write table's bucket selected by the
hash masked with that table's mask — table 1 exactly when rehashing, so a new
node never enters table 0 while rehashing — incrementing that table's used
count. -/
theorem spec_c4 (d : Dict K V) (hg : GoodType d.type) (h : Inv d) (k : K) (c : Bool) :
    (dictAddRaw d k c).2 ≠ .err ∧
    (∀ e, (dictAddRaw d k c).2 = .existing e → e.key = k ∧ k ∈ allKeys d ∧
      (dictAddRaw d k c).1 = (_dictExpandIfNeeded (_dictRehashStep d) c).1) ∧
    (∀ t1 i, (dictAddRaw d k c).2 = .added t1 i →
      k ∉ allKeys d ∧
      t1 = dictIsRehashing (_dictExpandIfNeeded (_dictRehashStep d) c).1 ∧
      i = d.type.hashFunction k &&&
        (if t1 then (_dictExpandIfNeeded (_dictRehashStep d) c).1.ht1.sizemask
         else (_dictExpandIfNeeded (_dictRehashStep d) c).1.ht0.sizemask) ∧
      (dictAddRaw d k c).1 =
        (if t1 then
          { (_dictExpandIfNeeded (_dictRehashStep d) c).1 with
            ht1 := htInsertHead (_dictExpandIfNeeded (_dictRehashStep d) c).1.ht1 i
              ⟨dictStoredKey d.type k, .uninit⟩ }
         else
          { (_dictExpandIfNeeded (_dictRehashStep d) c).1 with
            ht0 := htInsertHead (_dictExpandIfNeeded (_dictRehashStep d) c).1.ht0 i
              ⟨dictStoredKey d.type k, .uninit⟩ })) := by
  rcases _dictRehashStep_spec h with ⟨hinv0, htype0, hperm0⟩
  have hg0 : GoodType (_dictRehashStep d).type := htype0 ▸ hg
  have hkperm0 : List.Perm (allKeys (_dictRehashStep d)) (allKeys d) :=
    hperm0.map (fun x : DictEntry K V => x.key)
  rcases _dictKeyIndex_spec (d := _dictRehashStep d) (k := k) hg0 hinv0 c
    with ⟨hKd, hKex, hKidx, hKerr⟩
  rcases _dictExpandIfNeeded_spec hinv0 c with ⟨_, htype1, _, _, _⟩
  rcases hKI : _dictKeyIndex (_dictRehashStep d) k
      ((_dictRehashStep d).type.hashFunction k) c with ⟨d1, res⟩
  rw [hKI] at hKd hKex hKidx hKerr
  simp only at hKd hKex hKidx hKerr
  rw [← hKd] at htype1
  have htype1' : d1.type = d.type := by rw [htype1, htype0]
  cases res with
  | err => exact absurd rfl hKerr
  | existing e =>
    simp only [dictAddRaw, hKI]
    refine ⟨?_, ?_, ?_⟩
    · intro hc'
      cases hc'
    · intro e' he'
      injection he' with he'
      subst he'
      rcases hKex e rfl with ⟨hek, hkm⟩
      exact ⟨hek, hkperm0.mem_iff.1 hkm, hKd⟩
    · intro t1 i hti
      cases hti
  | index i =>
    simp only [dictAddRaw, hKI]
    rcases hKidx i rfl with ⟨habs1, hidx⟩
    have habs : k ∉ allKeys d := fun hk => habs1 (hkperm0.mem_iff.2 hk)
    rw [htype0] at hidx
    rw [← hKd] at hidx
    by_cases hr1 : dictIsRehashing d1 = true
    · rw [if_pos hr1]
      refine ⟨?_, ?_, ?_⟩
      · intro hc'
        cases hc'
      · intro e' he'
        cases he'
      · intro t1' i' hti
        injection hti with ht1 hi
        subst ht1
        subst hi
        rw [if_pos hr1] at hidx
        refine ⟨habs, ?_, ?_, ?_⟩
        · rw [← hKd]
          exact hr1.symm
        · rw [if_pos rfl]
          rw [← hKd]
          exact hidx
        · rw [if_pos rfl, ← hKd, htype1']
    · rw [if_neg hr1]
      have hr1' : dictIsRehashing d1 = false := by
        cases hv : dictIsRehashing d1
        · rfl
        · exact absurd hv hr1
      refine ⟨?_, ?_, ?_⟩
      · intro hc'
        cases hc'
      · intro e' he'
        cases he'
      · intro t1' i' hti
        injection hti with ht1 hi
        subst ht1
        subst hi
        rw [if_neg hr1] at hidx
        refine ⟨habs, ?_, ?_, ?_⟩
        · rw [← hKd]
          exact hr1'.symm
        · rw [if_neg Bool.false_ne_true]
          rw [← hKd]
          exact hidx
        · rw [if_neg Bool.false_ne_true, ← hKd, htype1']

/-- C4, the counterexample to the frozen wording: a conflicting insert into a
rehashing dictionary returns the conflict but does not leave the dictionary
unmodified — the implicit rehash step has advanced the cursor. -/
theorem spec_c4_counterexample :
    (dictAddRaw (runOps natType [DictOp.add 1 10, DictOp.add 2 20, DictOp.add 3 30,
        DictOp.add 4 40, DictOp.add 5 50]).d 1 true).2
      = AddRawResult.existing ⟨1, DictUnion.val 10⟩ ∧
    (dictAddRaw (runOps natType [DictOp.add 1 10, DictOp.add 2 20, DictOp.add 3 30,
        DictOp.add 4 40, DictOp.add 5 50]).d 1 true).1.rehashidx
      ≠ (runOps natType [DictOp.add 1 10, DictOp.add 2 20, DictOp.add 3 30,
        DictOp.add 4 40, DictOp.add 5 50]).d.rehashidx :=
  ⟨by decide, by decide⟩

theorem spec_c4_witness :
    (dictAddRaw (runOps natType [DictOp.add 1 10, DictOp.add 2 20, DictOp.add 3 30,
        DictOp.add 4 40, DictOp.add 5 50]).d 7 true).2 ≠ AddRawResult.err :=
  (spec_c4 (runOps natType [DictOp.add 1 10, DictOp.add 2 20, DictOp.add 3 30,
      DictOp.add 4 40, DictOp.add 5 50]).d
    (runOps_natType_good [DictOp.add 1 10, DictOp.add 2 20, DictOp.add 3 30,
      DictOp.add 4 40, DictOp.add 5 50])
    (runOps_natType_inv [DictOp.add 1 10, DictOp.add 2 20, DictOp.add 3 30,
      DictOp.add 4 40, DictOp.add 5 50]) 7 true).1

/-- C2: a key successfully inserted and never subsequently targeted by a
delete or unlink is found by `dictFind` — the returned entry carries the key —
whatever growth, shrink and incremental-rehash states the operation sequence
drives the table through; and a lookup on a rehashing dictionary that misses
in table 0's bucket returns exactly the probe of table 1's bucket. -/
theorem spec_c2 (t : DictType K V) (hg : GoodType t) (ops1 ops2 : List (DictOp K V))
    (k : K) (vv : V)
    (hadd : (dictAdd (runOps t ops1).d k vv (runOps t ops1).canResize).2 = .ok ())
    (hnd : DictOp.delete k ∉ ops2) (hnu : DictOp.unlink k ∉ ops2) :
    (∃ e, (dictFind (runOps t (ops1 ++ DictOp.add k vv :: ops2)).d k).2 = some e ∧
      e.key = k) ∧
    ∀ (d1 : Dict K V) (k1 : K), dictSize d1 ≠ 0 →
      dictIsRehashing (_dictRehashStep d1) = true →
      searchBucket (_dictRehashStep d1).type k1
        (bucketOf (_dictRehashStep d1).ht0 ((_dictRehashStep d1).type.hashFunction k1))
        = none →
      (dictFind d1 k1).2
        = searchBucket (_dictRehashStep d1).type k1
            (bucketOf (_dictRehashStep d1).ht1 ((_dictRehashStep d1).type.hashFunction k1)) := by
  constructor
  · have hrun : runOps t (ops1 ++ DictOp.add k vv :: ops2)
        = ops2.foldl applyOp (applyOp (runOps t ops1) (DictOp.add k vv)) := by
      rw [runOps, runOps, List.foldl_append, List.foldl_cons]
    rcases runOps_inv t hg ops1 with ⟨h1, ht1⟩
    have hg1 : GoodType (runOps t ops1).d.type := by rw [ht1]; exact hg
    rcases dictAdd_spec (d := (runOps t ops1).d) (k := k) (v := vv) hg1 h1
        (runOps t ops1).canResize with ⟨hI2, hT2, hok, _⟩
    rcases hok hadd with ⟨_, hperm⟩
    have hk2 : k ∈ allKeys (applyOp (runOps t ops1) (DictOp.add k vv)).d :=
      hperm.mem_iff.2 (List.mem_cons_self _ _)
    have hI2' : Inv (applyOp (runOps t ops1) (DictOp.add k vv)).d := hI2
    have hG2 : GoodType (applyOp (runOps t ops1) (DictOp.add k vv)).d.type := by
      show GoodType (dictAdd (runOps t ops1).d k vv (runOps t ops1).canResize).1.type
      rw [hT2, ht1]
      exact hg
    have hk3 := foldl_applyOp_presence (applyOp (runOps t ops1) (DictOp.add k vv))
      hG2 hI2' ops2 hk2 hnd hnu
    rcases foldl_applyOp_inv (applyOp (runOps t ops1) (DictOp.add k vv)) hG2 hI2' ops2
      with ⟨hI3, hT3⟩
    have hG3 : GoodType
        (ops2.foldl applyOp (applyOp (runOps t ops1) (DictOp.add k vv))).d.type := by
      rw [hT3]
      exact hG2
    rw [hrun]
    exact dictFind_found hG3 hI3 hk3
  · intro d1 k1 hsz hreh hmiss
    simp only [dictFind]
    rw [if_neg (by simpa using hsz)]
    simp only [hmiss]
    rw [if_pos hreh]

theorem spec_c2_witness :
    ∃ e, (dictFind (runOps natType
        ([] ++ DictOp.add 1 7 :: [DictOp.add 2 5, DictOp.rehash 1])).d 1).2 = some e ∧
      e.key = 1 :=
  (spec_c2 natType goodType_natType [] [DictOp.add 2 5, DictOp.rehash 1] 1 7 rfl
    (by decide) (by decide)).1

theorem randomNonemptyBucket_sound (d : Dict K V) (g : Nat → Nat) :
    ∀ fuel i j b, randomNonemptyBucket d g i fuel = some (j, b) →
      ∀ e ∈ b, e ∈ allEntries d := by
  have h0 : ∀ (x : Nat) (e : DictEntry K V), e ∈ d.ht0.table.getD x [] → e ∈ allEntries d := by
    intro x e he
    rw [allEntries]
    exact List.mem_append.2 (Or.inl (mem_getD_flatten he))
  have h1 : ∀ (x : Nat) (e : DictEntry K V), e ∈ d.ht1.table.getD x [] → e ∈ allEntries d := by
    intro x e he
    rw [allEntries]
    exact List.mem_append.2 (Or.inr (mem_getD_flatten he))
  intro fuel
  induction fuel with
  | zero =>
    intro i j b hb
    simp [randomNonemptyBucket] at hb
  | succ f ih =>
    intro i j b hb
    simp only [randomNonemptyBucket] at hb
    repeat' split at hb
    all_goals
      first
        | exact ih (i + 1) j b hb
        | (injection hb with hb2
           injection hb2 with hbi hbb
           subst hbb
           first
             | exact fun e he => h0 _ e he
             | exact fun e he => h1 _ e he)

/-- C8 (amended): random-key sampling on an empty dictionary fails with the
`Empty` error leaving the dictionary untouched; a returned entry is always a
live entry; on a dictionary holding exactly one entry, any successful draw
returns that entry.  (The equal-selection-probability part of the frozen
wording is refuted by `spec_c8_counterexample`.) -/
theorem spec_c8 (d : Dict K V) (h : Inv d) (g : Nat → Nat) (fuel : Nat) :
    (dictSize d = 0 →
      (dictGetRandomKey d g fuel).1 = d ∧ (dictGetRandomKey d g fuel).2 = .emptyErr) ∧
    (∀ e, (dictGetRandomKey d g fuel).2 = .found e → e ∈ allEntries d) ∧
    (∀ e e', allEntries d = [e] → (dictGetRandomKey d g fuel).2 = .found e' → e' = e) := by
  rcases _dictRehashStep_spec h with ⟨_, _, hperm⟩
  have hfound : ∀ e, (dictGetRandomKey d g fuel).2 = .found e → e ∈ allEntries d := by
    intro e he
    simp only [dictGetRandomKey] at he
    by_cases hz : (dictSize d == 0) = true
    · rw [if_pos hz] at he
      cases he
    · rw [if_neg hz] at he
      rcases hR : randomNonemptyBucket (_dictRehashStep d) g 0 fuel with _ | ⟨i, b⟩
      · simp only [hR] at he
        cases he
      · simp only [hR] at he
        rcases hGet : b.get? (g i % b.length) with _ | e0
        · simp only [hGet] at he
          cases he
        · simp only [hGet] at he
          have he2 : e0 = e := by simpa using he
          subst he2
          have hmem : e0 ∈ allEntries (_dictRehashStep d) :=
            randomNonemptyBucket_sound (_dictRehashStep d) g fuel 0 i b hR e0
              (List.get?_mem hGet)
          exact hperm.mem_iff.1 hmem
  refine ⟨?_, hfound, ?_⟩
  · intro hz
    have hz' : (dictSize d == 0) = true := by simpa using hz
    constructor
    · simp only [dictGetRandomKey]
      rw [if_pos hz']
    · simp only [dictGetRandomKey]
      rw [if_pos hz']
  · intro e e' hone he'
    have := hfound e' he'
    rw [hone] at this
    simpa using this

/-- C8, the counterexample to the equal-probability wording: over uniform
draws, the entry alone in its bucket is sampled twice as often as either
entry of the two-element chain. -/
theorem spec_c8_counterexample :
    sampleCount (runOps natType [DictOp.add 0 10, DictOp.add 1 11, DictOp.add 5 15]).d 2
        ⟨0, DictUnion.val 10⟩ = 2 ∧
    sampleCount (runOps natType [DictOp.add 0 10, DictOp.add 1 11, DictOp.add 5 15]).d 2
        ⟨1, DictUnion.val 11⟩ = 1 ∧
    (⟨0, DictUnion.val 10⟩ : DictEntry Nat Nat)
      ∈ allEntries (runOps natType [DictOp.add 0 10, DictOp.add 1 11, DictOp.add 5 15]).d ∧
    (⟨1, DictUnion.val 11⟩ : DictEntry Nat Nat)
      ∈ allEntries (runOps natType [DictOp.add 0 10, DictOp.add 1 11, DictOp.add 5 15]).d :=
  ⟨by decide, by decide, by decide, by decide⟩

theorem spec_c8_witness :
    (dictGetRandomKey (dictCreate natType) (fun _ => 0) 3).1 = dictCreate natType ∧
      (dictGetRandomKey (dictCreate natType) (fun _ => 0) 3).2 = RandResult.emptyErr :=
  (spec_c8 (dictCreate natType) (Inv.dictCreate natType) (fun _ => 0) 3).1 rfl

theorem set_get?_self {α : Type _} {l : List α} {i : Nat} {a : α} (h : l.get? i = some a) :
    l.set i a = l := by
  have hlt : i < l.length := by
    by_contra hge
    rw [List.get?_eq_getElem?, List.getElem?_eq_none (Nat.le_of_not_lt hge)] at h
    cases h
  apply List.ext_getElem?
  intro n
  rcases eq_or_ne i n with rfl | hne
  · rw [List.getElem?_set_eq_of_lt _ hlt, ← List.get?_eq_getElem?, h]
  · rw [List.getElem?_set_ne hne]

theorem updateEntryAt_frame (ht : Dictht K V) (idx pos : Nat)
    (f : DictEntry K V → DictEntry K V) (hf : ∀ x, (f x).key = x.key) :
    (updateEntryAt ht idx pos f).size = ht.size ∧
    (updateEntryAt ht idx pos f).sizemask = ht.sizemask ∧
    (updateEntryAt ht idx pos f).used = ht.used ∧
    (htEntries (updateEntryAt ht idx pos f)).map (·.key) = (htEntries ht).map (·.key) ∧
    (∀ j, j ≠ idx → (updateEntryAt ht idx pos f).table.getD j [] = ht.table.getD j []) ∧
    (∀ q, q ≠ pos →
      ((updateEntryAt ht idx pos f).table.getD idx []).get? q
        = (ht.table.getD idx []).get? q) ∧
    (((updateEntryAt ht idx pos f).table.getD idx []).get? pos).map (·.key)
      = ((ht.table.getD idx []).get? pos).map (·.key) := by
  rcases hget : (ht.table.getD idx []).get? pos with _ | e
  · have hid : updateEntryAt ht idx pos f = ht := by
      simp only [updateEntryAt, hget]
    rw [hid]
    exact ⟨rfl, rfl, rfl, rfl, fun j _ => rfl, fun q _ => rfl, by rw [hget]⟩
  · have hlt : idx < ht.table.length := by
      by_contra hge
      rw [getD_eq_default_of_le (Nat.le_of_not_lt hge)] at hget
      cases hget
    have hplt : pos < (ht.table.getD idx []).length := by
      by_contra hge
      rw [List.get?_eq_getElem?, List.getElem?_eq_none (Nat.le_of_not_lt hge)] at hget
      cases hget
    have hupd : updateEntryAt ht idx pos f
        = { ht with table := ht.table.set idx ((ht.table.getD idx []).set pos (f e)) } := by
      simp only [updateEntryAt, hget]
    have hkeysb : ((ht.table.getD idx []).set pos (f e)).map
          (fun x : DictEntry K V => x.key)
        = (ht.table.getD idx []).map (fun x : DictEntry K V => x.key) := by
      rw [List.map_set, hf e]
      apply set_get?_self
      rw [List.get?_eq_getElem?, List.getElem?_map, ← List.get?_eq_getElem?, hget]
      rfl
    rw [hupd]
    refine ⟨rfl, rfl, rfl, ?_, ?_, ?_, ?_⟩
    · show ((ht.table.set idx ((ht.table.getD idx []).set pos (f e))).flatten).map (·.key)
        = (ht.table.flatten).map (·.key)
      rw [flatten_set hlt]
      conv_rhs => rw [flatten_frame (l := ht.table) (i := idx) hlt]
      simp only [List.map_append]
      rw [hkeysb]
    · intro j hj
      show (ht.table.set idx ((ht.table.getD idx []).set pos (f e))).getD j []
        = ht.table.getD j []
      exact getD_set_ne hj
    · intro q hq
      show ((ht.table.set idx ((ht.table.getD idx []).set pos (f e))).getD idx []).get? q
        = (ht.table.getD idx []).get? q
      rw [getD_set_self hlt, List.get?_eq_getElem?, List.get?_eq_getElem?,
        List.getElem?_set_ne (Ne.symm hq)]
    · show (((ht.table.set idx ((ht.table.getD idx []).set pos (f e))).getD idx []).get?
          pos).map (·.key) = (some e).map (·.key)
      rw [getD_set_self hlt, List.get?_eq_getElem?,
        List.getElem?_set_eq_of_lt _ hplt]
      simp [hf]

theorem dictUpdateEntryAt_frame (d : Dict K V) (tb : Bool) (idx pos : Nat)
    (f : DictEntry K V → DictEntry K V) (hf : ∀ x, (f x).key = x.key) :
    UpdateFrame d (dictUpdateEntryAt d tb idx pos f) tb idx pos := by
  rcases updateEntryAt_frame d.ht0 idx pos f hf with ⟨hs0, hm0, hu0, hk0, hb0, hq0, hp0⟩
  rcases updateEntryAt_frame d.ht1 idx pos f hf with ⟨hs1, hm1, hu1, hk1, hb1, hq1, hp1⟩
  cases tb with
  | false =>
    have hd : dictUpdateEntryAt d false idx pos f
        = { d with ht0 := updateEntryAt d.ht0 idx pos f } := by
      rw [dictUpdateEntryAt, if_neg Bool.false_ne_true]
    refine ⟨?_, ?_, ?_, ?_, ⟨?_, ?_, ?_, ?_, ?_, ?_⟩, ?_⟩
    · rw [hd]
    · rw [hd]
    · rw [hd]
    · rw [hd]
      exact rfl
    · rw [hd]
      exact hs0
    · rw [hd]
      exact hm0
    · rw [hd]
      exact hu0
    · rw [hd]
      exact hb0
    · rw [hd]
      exact hq0
    · rw [hd]
      exact hp0
    · rw [hd]
      show ((htEntries (updateEntryAt d.ht0 idx pos f)) ++ htEntries d.ht1).map (·.key)
        = ((htEntries d.ht0) ++ htEntries d.ht1).map (·.key)
      simp only [List.map_append]
      rw [hk0]
  | true =>
    have hd : dictUpdateEntryAt d true idx pos f
        = { d with ht1 := updateEntryAt d.ht1 idx pos f } := by
      rw [dictUpdateEntryAt, if_pos rfl]
    refine ⟨?_, ?_, ?_, ?_, ⟨?_, ?_, ?_, ?_, ?_, ?_⟩, ?_⟩
    · rw [hd]
    · rw [hd]
    · rw [hd]
    · rw [hd]
      exact rfl
    · rw [hd]
      exact hs1
    · rw [hd]
      exact hm1
    · rw [hd]
      exact hu1
    · rw [hd]
      exact hb1
    · rw [hd]
      exact hq1
    · rw [hd]
      exact hp1
    · rw [hd]
      show ((htEntries d.ht0) ++ htEntries (updateEntryAt d.ht1 idx pos f)).map (·.key)
        = ((htEntries d.ht0) ++ htEntries d.ht1).map (·.key)
      simp only [List.map_append]
      rw [hk1]

/-- C10: the numeric value setters write the entry's value union directly,
firing no behavior-set callback — the value-duplication and value-destructor
callbacks are consulted exactly by `dictSetVal` and `dictFreeVal` — and
writing through an entry pointer in place leaves the entry's key, the rest of
its chain, every other bucket, both tables' geometry and used counts, and
every other field of the dictionary unchanged. -/
theorem spec_c10 (t : DictType K V) (e : DictEntry K V) (s : Int) (u wd : Nat) (vv : V)
    (d : Dict K V) (tb : Bool) (idx pos : Nat) :
    (dictSetSignedIntegerVal e s).2 = [] ∧ (dictSetSignedIntegerVal e s).1.key = e.key ∧
    (dictSetSignedIntegerVal e s).1.v = .s64 s ∧
    (dictSetUnsignedIntegerVal e u).2 = [] ∧ (dictSetUnsignedIntegerVal e u).1.key = e.key ∧
    (dictSetUnsignedIntegerVal e u).1.v = .u64 u ∧
    (dictSetDoubleVal e wd).2 = [] ∧ (dictSetDoubleVal e wd).1.key = e.key ∧
    (dictSetDoubleVal e wd).1.v = .dbl wd ∧
    ((dictSetVal t e vv).2 = match t.valDup with
      | some _ => [CallbackEvent.valDupCall vv]
      | none => ([] : List (CallbackEvent K V))) ∧
    (dictFreeVal t e
      = if t.hasValDestructor then [CallbackEvent.valDestructorCall e.v] else []) ∧
    UpdateFrame d (dictUpdateEntryAt d tb idx pos
      (fun x => (dictSetSignedIntegerVal x s).1)) tb idx pos ∧
    UpdateFrame d (dictUpdateEntryAt d tb idx pos
      (fun x => (dictSetUnsignedIntegerVal x u).1)) tb idx pos ∧
    UpdateFrame d (dictUpdateEntryAt d tb idx pos
      (fun x => (dictSetDoubleVal x wd).1)) tb idx pos := by
  refine ⟨rfl, rfl, rfl, rfl, rfl, rfl, rfl, rfl, rfl, ?_, rfl, ?_, ?_, ?_⟩
  · rcases hv : t.valDup with _ | fdup
    · simp [dictSetVal, hv]
    · simp [dictSetVal, hv]
  · exact dictUpdateEntryAt_frame d tb idx pos _ (fun x => rfl)
  · exact dictUpdateEntryAt_frame d tb idx pos _ (fun x => rfl)
  · exact dictUpdateEntryAt_frame d tb idx pos _ (fun x => rfl)

/-- C3: one `dictRehash` bucket-step — after skipping a bounded run of empty
buckets — migrates every node of the non-empty table-0 bucket at the cursor
into table 1 (each node head-inserted at its hash masked with table 1's mask),
advances the cursor past that bucket, and completes the rehash the moment the
cursor reaches table 0's size by installing table 1 as table 0, resetting
table 1 and parking the cursor at -1; and driving the bulk step repeatedly
from any rehashing state terminates in the not-rehashing state with table 1
empty. -/
theorem spec_c3 (d : Dict K V) (h : Inv d) (hr : dictIsRehashing d = true) :
    (completeRehash d = { d with ht0 := d.ht1, ht1 := dicthtReset, rehashidx := -1 }) ∧
    (∀ (g1 : Dictht K V) (e1 : DictEntry K V),
      migrateEntry d.type g1 e1
        = htInsertHead g1 (d.type.hashFunction e1.key &&& g1.sizemask) e1) ∧
    (d.ht0.size ≤ d.rehashidx.toNat → dictRehash d 1 = (completeRehash d, false)) ∧
    (∀ idx vis' fnd, rehashSkip d.ht0.table d.rehashidx.toNat 10 = (idx, vis', fnd) →
      d.rehashidx.toNat < d.ht0.size →
      (∀ j, d.rehashidx.toNat ≤ j → j < idx → d.ht0.table.getD j [] = []) ∧
      (fnd = false →
        dictRehash d 1 = ({ d with rehashidx := (idx : Int) }, true) ∧
        d.rehashidx.toNat < idx) ∧
      (fnd = true → d.ht0.size ≤ idx →
        dictRehash d 1 = (completeRehash { d with rehashidx := (idx : Int) }, false)) ∧
      (fnd = true → idx < d.ht0.size →
        d.ht0.table.getD idx [] ≠ [] ∧
        List.Perm (htEntries (migrateBucket d.type (d.ht0.table.getD idx []) d.ht1))
          (d.ht0.table.getD idx [] ++ htEntries d.ht1) ∧
        (migrateBucket d.type (d.ht0.table.getD idx []) d.ht1).used
          = d.ht1.used + (d.ht0.table.getD idx []).length ∧
        (migrateBucket d.type (d.ht0.table.getD idx []) d.ht1).sizemask = d.ht1.sizemask ∧
        dictRehash d 1 =
          (if d.ht0.size ≤ idx + 1 then
            (completeRehash { d with
              ht0 := { d.ht0 with
                         table := d.ht0.table.set idx [],
                         used := d.ht0.used - (d.ht0.table.getD idx []).length },
              ht1 := migrateBucket d.type (d.ht0.table.getD idx []) d.ht1,
              rehashidx := ((idx + 1 : Nat) : Int) }, false)
           else
            ({ d with
              ht0 := { d.ht0 with
                         table := d.ht0.table.set idx [],
                         used := d.ht0.used - (d.ht0.table.getD idx []).length },
              ht1 := migrateBucket d.type (d.ht0.table.getD idx []) d.ht1,
              rehashidx := ((idx + 1 : Nat) : Int) }, true)))) ∧
    (dictIsRehashing (rehashUntilDone d (d.ht0.size + 1)) = false ∧
      (rehashUntilDone d (d.ht0.size + 1)).ht1 = dicthtReset ∧
      List.Perm (allEntries (rehashUntilDone d (d.ht0.size + 1))) (allEntries d)) := by
  have hloop : dictRehash d 1 = dictRehashLoop d 1 10 := by
    rw [dictRehash, if_neg (by rw [hr]; simp)]
  refine ⟨rfl, fun g1 e1 => rfl, ?_, ?_, ?_⟩
  · intro hc
    rw [hloop, dictRehashLoop, if_pos hc]
  · intro idx vis' fnd hskEq hlt
    rcases rehashSkip_spec d.ht0.table d.rehashidx.toNat 10 with ⟨hsk1, hsk2, hsk3, hsk4⟩
    rw [hskEq] at hsk1 hsk2 hsk3 hsk4
    simp only at hsk1 hsk2 hsk3 hsk4
    refine ⟨hsk2, ?_, ?_, ?_⟩
    · intro hf
      subst hf
      constructor
      · rw [hloop, dictRehashLoop, if_neg (not_le.2 hlt), hskEq]
      · exact hsk4 (by omega) rfl
    · intro hf hsz
      subst hf
      rw [hloop, dictRehashLoop, if_neg (not_le.2 hlt), hskEq]
      simp only [if_pos hsz]
    · intro hf hsz
      subst hf
      have hs1 : d.ht1.size ≠ 0 := (h.rehash_inr hr).2.2.1
      rcases migrateBucket_spec (b := d.ht0.table.getD idx []) h.wf1 hs1
        with ⟨_, hmp, hmu, _, hmm⟩
      have hnon : d.ht0.table.getD idx [] ≠ [] := by
        rcases hsk3 rfl with hlen | hne
        · rw [← h.wf0.size_def] at hlen
          omega
        · exact hne
      refine ⟨hnon, hmp, hmu, hmm, ?_⟩
      rw [hloop, dictRehashLoop, if_neg (not_le.2 hlt), hskEq]
      simp only [if_neg (not_le.2 (by omega : idx < d.ht0.size))]
      by_cases hfin : d.ht0.size ≤ idx + 1
      · rw [if_pos hfin]
        conv_lhs => rw [dictRehashLoop]
        rw [if_pos (by simpa using hfin)]
      · rw [if_neg hfin]
        conv_lhs => rw [dictRehashLoop]
        rw [if_neg (by simpa using hfin)]
  · rcases rehashUntilDone_spec h (d.ht0.size + 1) (by omega) with ⟨h1, h2, _, _, h5⟩
    exact ⟨h1, h2, h5⟩

theorem spec_c3_witness :
    completeRehash (runOps natType [DictOp.add 1 10, DictOp.add 2 20, DictOp.add 3 30,
        DictOp.add 4 40, DictOp.add 5 50]).d
      = { (runOps natType [DictOp.add 1 10, DictOp.add 2 20, DictOp.add 3 30,
          DictOp.add 4 40, DictOp.add 5 50]).d with
          ht0 := (runOps natType [DictOp.add 1 10, DictOp.add 2 20, DictOp.add 3 30,
            DictOp.add 4 40, DictOp.add 5 50]).d.ht1,
          ht1 := dicthtReset, rehashidx := -1 } :=
  (spec_c3 (runOps natType [DictOp.add 1 10, DictOp.add 2 20, DictOp.add 3 30,
      DictOp.add 4 40, DictOp.add 5 50]).d
    (runOps_natType_inv [DictOp.add 1 10, DictOp.add 2 20, DictOp.add 3 30,
      DictOp.add 4 40, DictOp.add 5 50])
    (by decide)).1

/-! #### Reverse-binary cursor arithmetic -/

theorem bitRev_zero (n : Nat) : bitRev n 0 = 0 := by
  induction n with
  | zero => rfl
  | succ m ih => simp [bitRev, ih]

theorem bitRev_lt (n x : Nat) : bitRev n x < 2 ^ n := by
  induction n generalizing x with
  | zero => simp [bitRev]
  | succ m ih =>
    have h2 := ih (x / 2)
    have hdef : bitRev (m + 1) x = (x % 2) * 2 ^ m + bitRev m (x / 2) := rfl
    have hpow : (2:Nat) ^ (m + 1) = 2 ^ m * 2 := by ring
    rw [hdef, hpow]
    have hx : x % 2 = 0 ∨ x % 2 = 1 := by omega
    rcases hx with hx | hx <;> rw [hx] <;> omega

theorem mod_pow_succ_mod_two (m x : Nat) : (x % 2 ^ (m + 1)) % 2 = x % 2 := by
  rw [Nat.mod_mod_of_dvd]
  exact dvd_pow_self 2 (Nat.succ_ne_zero m)

theorem mod_pow_succ_div_two (m x : Nat) : (x % 2 ^ (m + 1)) / 2 = (x / 2) % 2 ^ m := by
  rw [show (2:Nat) ^ (m + 1) = 2 * 2 ^ m from by ring]
  exact Nat.mod_mul_right_div_self x 2 (2 ^ m)

theorem bitRev_mod_two_pow (n x : Nat) : bitRev n (x % 2 ^ n) = bitRev n x := by
  induction n generalizing x with
  | zero => rfl
  | succ m ih =>
    show ((x % 2 ^ (m + 1)) % 2) * 2 ^ m + bitRev m ((x % 2 ^ (m + 1)) / 2)
      = (x % 2) * 2 ^ m + bitRev m (x / 2)
    rw [mod_pow_succ_mod_two, mod_pow_succ_div_two, ih]

theorem bitRev_split (a b x : Nat) :
    bitRev (a + b) x = bitRev a (x % 2 ^ a) * 2 ^ b + bitRev b (x / 2 ^ a) := by
  induction a generalizing x with
  | zero => simp [bitRev]
  | succ m ih =>
    have h3 : x / 2 ^ (m + 1) = (x / 2) / 2 ^ m := by
      rw [Nat.div_div_eq_div_mul]
      congr 1
      ring
    rw [Nat.succ_add]
    show (x % 2) * 2 ^ (m + b) + bitRev (m + b) (x / 2)
      = ((x % 2 ^ (m + 1)) % 2 * 2 ^ m + bitRev m ((x % 2 ^ (m + 1)) / 2)) * 2 ^ b
        + bitRev b (x / 2 ^ (m + 1))
    rw [ih (x / 2), mod_pow_succ_mod_two, mod_pow_succ_div_two, h3, pow_add]
    ring

theorem bitRev_involution {n x : Nat} (h : x < 2 ^ n) : bitRev n (bitRev n x) = x := by
  induction n generalizing x with
  | zero =>
    have hx : x = 0 := by
      have := h
      simp at this
      omega
    subst hx
    rfl
  | succ m ih =>
    have hr : bitRev (m + 1) x = (x % 2) * 2 ^ m + bitRev m (x / 2) := rfl
    have hlt : bitRev m (x / 2) < 2 ^ m := bitRev_lt m (x / 2)
    have hsp := bitRev_split m 1 ((x % 2) * 2 ^ m + bitRev m (x / 2))
    have hy1 : ((x % 2) * 2 ^ m + bitRev m (x / 2)) % 2 ^ m = bitRev m (x / 2) := by
      rw [Nat.mul_comm, Nat.mul_add_mod]
      exact Nat.mod_eq_of_lt hlt
    have hy2 : ((x % 2) * 2 ^ m + bitRev m (x / 2)) / 2 ^ m = x % 2 := by
      rw [Nat.mul_comm, Nat.mul_add_div (Nat.two_pow_pos m), Nat.div_eq_of_lt hlt]
      omega
    have hx2 : x / 2 < 2 ^ m := by
      have hpow : (2:Nat) ^ (m + 1) = 2 * 2 ^ m := by ring
      omega
    rw [hr, hsp, hy1, hy2, ih hx2]
    simp [bitRev]
    omega

theorem bitRev_inj {n x y : Nat} (hx : x < 2 ^ n) (hy : y < 2 ^ n)
    (h : bitRev n x = bitRev n y) : x = y := by
  rw [← bitRev_involution hx, ← bitRev_involution hy, h]

theorem bitRev_eq_zero {n x : Nat} (hx : x < 2 ^ n) : bitRev n x = 0 ↔ x = 0 := by
  constructor
  · intro h
    exact bitRev_inj hx (Nat.two_pow_pos n) (by rw [h, bitRev_zero])
  · rintro rfl
    exact bitRev_zero n

theorem bitRev_all_ones (n : Nat) : bitRev n (2 ^ n - 1) = 2 ^ n - 1 := by
  induction n with
  | zero => rfl
  | succ m ih =>
    have hpow : (2:Nat) ^ (m + 1) = 2 * 2 ^ m := by ring
    have h2 : (1:Nat) ≤ 2 ^ m := Nat.one_le_two_pow
    have h0 : (2 ^ (m + 1) - 1) % 2 = 1 := by omega
    have h1 : (2 ^ (m + 1) - 1) / 2 = 2 ^ m - 1 := by omega
    show (2 ^ (m + 1) - 1) % 2 * 2 ^ m + bitRev m ((2 ^ (m + 1) - 1) / 2) = 2 ^ (m + 1) - 1
    rw [h0, h1, ih]
    omega

theorem bitRev_mul_two_pow {a x : Nat} (b : Nat) (h : x < 2 ^ a) :
    bitRev (b + a) (x * 2 ^ b) = bitRev a x := by
  rw [bitRev_split b a (x * 2 ^ b), Nat.mul_mod_left,
    Nat.mul_div_cancel _ (Nat.two_pow_pos b), bitRev_zero]
  simp

theorem bitRev64_split {j : Nat} (hj : j ≤ 64) (x : Nat) :
    bitRev 64 x = bitRev j (x % 2 ^ j) * 2 ^ (64 - j) + bitRev (64 - j) (x / 2 ^ j) := by
  conv_lhs => rw [show (64:Nat) = j + (64 - j) from by omega]
  exact bitRev_split j (64 - j) x

/-- The reverse-binary pending order refines to any mask granularity: a
cursor 64-rev below the key hash's 64-rev is also below it on the low `j`
bits. -/
theorem pend_le {j : Nat} (hj : j ≤ 64) {v h : Nat}
    (hp : bitRev 64 v ≤ bitRev 64 h) :
    bitRev j (v % 2 ^ j) ≤ bitRev j (h % 2 ^ j) := by
  by_contra hlt
  push_neg at hlt
  have hv := bitRev64_split hj v
  have hh := bitRev64_split hj h
  have h1 := bitRev_lt (64 - j) (h / 2 ^ j)
  have key : bitRev 64 h < bitRev 64 v := by
    calc bitRev 64 h
        = bitRev j (h % 2 ^ j) * 2 ^ (64 - j) + bitRev (64 - j) (h / 2 ^ j) := hh
      _ < (bitRev j (h % 2 ^ j) + 1) * 2 ^ (64 - j) := by
          have he : (bitRev j (h % 2 ^ j) + 1) * 2 ^ (64 - j)
              = bitRev j (h % 2 ^ j) * 2 ^ (64 - j) + 2 ^ (64 - j) := by ring
          omega
      _ ≤ bitRev j (v % 2 ^ j) * 2 ^ (64 - j) := Nat.mul_le_mul_right _ (by omega)
      _ ≤ bitRev 64 v := by
          rw [hv]
          exact Nat.le_add_right _ _
  omega

/-- A cursor below the current mask size whose `j`-bit rev is below the key
hash's is 64-rev pending. -/
theorem pend64_of {j : Nat} (hj : j ≤ 64) {w h : Nat} (hw : w < 2 ^ j)
    (hle : bitRev j w ≤ bitRev j (h % 2 ^ j)) :
    bitRev 64 w ≤ bitRev 64 h := by
  have hwsplit := bitRev64_split hj w
  have hhsplit := bitRev64_split hj h
  rw [Nat.mod_eq_of_lt hw, Nat.div_eq_of_lt hw, bitRev_zero] at hwsplit
  calc bitRev 64 w = bitRev j w * 2 ^ (64 - j) + 0 := hwsplit
    _ ≤ bitRev j (h % 2 ^ j) * 2 ^ (64 - j) := by
        simpa using Nat.mul_le_mul_right (2 ^ (64 - j)) hle
    _ ≤ bitRev 64 h := by
        rw [hhsplit]
        exact Nat.le_add_right _ _

theorem lor_high_ones {j : Nat} (hj : j ≤ 64) {v : Nat} (hv : v < 2 ^ 64) :
    v ||| (2 ^ 64 - 1 - (2 ^ j - 1)) = v % 2 ^ j + (2 ^ (64 - j) - 1) * 2 ^ j := by
  have h1 : (2:Nat) ^ 64 = 2 ^ (64 - j) * 2 ^ j := by
    rw [← pow_add]
    congr 1
    omega
  have h2 : (1:Nat) ≤ 2 ^ j := Nat.one_le_two_pow
  have h3 : (1:Nat) ≤ 2 ^ (64 - j) := Nat.one_le_two_pow
  have hm : 2 ^ 64 - 1 - (2 ^ j - 1) = (2 ^ (64 - j) - 1) * 2 ^ j := by
    have hsm : (2 ^ (64 - j) - 1) * 2 ^ j = 2 ^ (64 - j) * 2 ^ j - 2 ^ j := by
      rw [Nat.sub_mul]
      omega
    have h4 : 2 ^ j ≤ 2 ^ (64 - j) * 2 ^ j := Nat.le_mul_of_pos_left _ (by omega)
    omega
  rw [hm]
  apply Nat.eq_of_testBit_eq
  intro i
  rw [Nat.testBit_lor]
  have hmodlt : v % 2 ^ j < 2 ^ j := Nat.mod_lt v (Nat.two_pow_pos j)
  rcases Nat.lt_or_ge i j with hij | hij
  · have hL : Nat.testBit ((2 ^ (64 - j) - 1) * 2 ^ j) i = false := by
      rw [Nat.mul_comm, show (2:Nat) ^ j * (2 ^ (64 - j) - 1)
        = 2 ^ j * (2 ^ (64 - j) - 1) + 0 from by omega,
        Nat.testBit_mul_pow_two_add _ (Nat.two_pow_pos j) i, if_pos hij]
      simp
    have hR : Nat.testBit (v % 2 ^ j + (2 ^ (64 - j) - 1) * 2 ^ j) i
        = Nat.testBit (v % 2 ^ j) i := by
      rw [Nat.add_comm, Nat.mul_comm,
        Nat.testBit_mul_pow_two_add _ hmodlt i, if_pos hij]
    rw [hL, hR, Bool.or_false, Nat.testBit_mod_two_pow]
    simp [hij]
  · have hL : Nat.testBit ((2 ^ (64 - j) - 1) * 2 ^ j) i
        = decide (i < 64) := by
      rw [Nat.mul_comm, show (2:Nat) ^ j * (2 ^ (64 - j) - 1)
        = 2 ^ j * (2 ^ (64 - j) - 1) + 0 from by omega,
        Nat.testBit_mul_pow_two_add _ (Nat.two_pow_pos j) i,
        if_neg (by omega), Nat.testBit_two_pow_sub_one]
      by_cases hi64 : i < 64
      · simp [hi64]
        omega
      · simp [hi64]
        omega
    have hR : Nat.testBit (v % 2 ^ j + (2 ^ (64 - j) - 1) * 2 ^ j) i
        = decide (i < 64) := by
      rw [Nat.add_comm, Nat.mul_comm,
        Nat.testBit_mul_pow_two_add _ hmodlt i, if_neg (by omega),
        Nat.testBit_two_pow_sub_one]
      by_cases hi64 : i < 64
      · simp [hi64]
        omega
      · simp [hi64]
        omega
    rw [hL, hR]
    by_cases hi64 : i < 64
    · simp [hi64]
    · have hvb : Nat.testBit v i = false := by
        apply Nat.testBit_lt_two_pow
        calc v < 2 ^ 64 := hv
          _ ≤ 2 ^ i := Nat.pow_le_pow_right (by omega) (by omega)
      simp [hvb, hi64]

set_option maxHeartbeats 1600000 in
/-- The reverse-binary cursor increment, characterized through the `j`-bit
reversal: advance the reversed cursor by one, wrapping to 0 at the end of the
table. -/
theorem scanStep_eq {j : Nat} (hj : j ≤ 64) {v : Nat} (hv : v < 2 ^ 64) :
    scanStep (2 ^ j - 1) v
      = if bitRev j (v % 2 ^ j) + 1 < 2 ^ j
        then bitRev j (bitRev j (v % 2 ^ j) + 1) else 0 := by
  rw [scanStep, lor_high_ones hj hv]
  have hrev : bitRev 64 (v % 2 ^ j + (2 ^ (64 - j) - 1) * 2 ^ j)
      = bitRev j (v % 2 ^ j) * 2 ^ (64 - j) + (2 ^ (64 - j) - 1) := by
    have hsplit := bitRev64_split hj (v % 2 ^ j + (2 ^ (64 - j) - 1) * 2 ^ j)
    have hmod : (v % 2 ^ j + (2 ^ (64 - j) - 1) * 2 ^ j) % 2 ^ j = v % 2 ^ j := by
      rw [Nat.add_mul_mod_self_right]
      exact Nat.mod_mod_of_dvd v dvd_rfl
    have hdiv : (v % 2 ^ j + (2 ^ (64 - j) - 1) * 2 ^ j) / 2 ^ j
        = 2 ^ (64 - j) - 1 := by
      rw [Nat.add_mul_div_right _ _ (Nat.two_pow_pos j),
        Nat.div_eq_of_lt (Nat.mod_lt v (Nat.two_pow_pos j))]
      omega
    rw [hsplit, hmod, hdiv, bitRev_all_ones]
  rw [hrev]
  have hP : (1:Nat) ≤ 2 ^ (64 - j) := Nat.one_le_two_pow
  have hsum : bitRev j (v % 2 ^ j) * 2 ^ (64 - j) + (2 ^ (64 - j) - 1) + 1
      = (bitRev j (v % 2 ^ j) + 1) * 2 ^ (64 - j) := by
    have he : (bitRev j (v % 2 ^ j) + 1) * 2 ^ (64 - j)
        = bitRev j (v % 2 ^ j) * 2 ^ (64 - j) + 2 ^ (64 - j) := by ring
    omega
  conv_lhs => rw [hsum]
  have hAlt : bitRev j (v % 2 ^ j) < 2 ^ j := bitRev_lt j (v % 2 ^ j)
  have h64 : (2:Nat) ^ j * 2 ^ (64 - j) = 2 ^ 64 := by
    rw [← pow_add, Nat.add_sub_cancel' hj]
  by_cases hc : bitRev j (v % 2 ^ j) + 1 < 2 ^ j
  · rw [if_pos hc]
    have hlt64 : (bitRev j (v % 2 ^ j) + 1) * 2 ^ (64 - j) < 2 ^ 64 := by
      rw [← h64]
      exact (Nat.mul_lt_mul_right (Nat.two_pow_pos (64 - j))).mpr hc
    rw [Nat.mod_eq_of_lt hlt64]
    have hmul := bitRev_mul_two_pow (x := bitRev j (v % 2 ^ j) + 1) (64 - j) hc
    rw [show (64 - j) + j = 64 from by omega] at hmul
    rw [hmul]
  · rw [if_neg hc]
    have hA1 : bitRev j (v % 2 ^ j) + 1 = 2 ^ j := by omega
    rw [hA1, h64, Nat.mod_self, bitRev_zero]

theorem two_pow_sub_two_pow {a b : Nat} (h : a ≤ b) :
    2 ^ b - 2 ^ a = (2 ^ (b - a) - 1) * 2 ^ a := by
  have h1 : (2:Nat) ^ b = 2 ^ (b - a) * 2 ^ a := by
    rw [← pow_add, Nat.sub_add_cancel h]
  have h2 : (1:Nat) ≤ 2 ^ a := Nat.one_le_two_pow
  have h3 : (2 ^ (b - a) - 1) * 2 ^ a = 2 ^ (b - a) * 2 ^ a - 1 * 2 ^ a := by
    rw [Nat.sub_mul]
  omega

theorem xor_masks {a b : Nat} (h : a ≤ b) :
    (2 ^ a - 1) ^^^ (2 ^ b - 1) = 2 ^ b - 2 ^ a := by
  rw [two_pow_sub_two_pow h]
  apply Nat.eq_of_testBit_eq
  intro i
  rw [Nat.testBit_xor, Nat.testBit_two_pow_sub_one, Nat.testBit_two_pow_sub_one]
  rcases Nat.lt_or_ge i a with hia | hia
  · have hR : Nat.testBit ((2 ^ (b - a) - 1) * 2 ^ a) i = false := by
      rw [Nat.mul_comm, show (2:Nat) ^ a * (2 ^ (b - a) - 1)
        = 2 ^ a * (2 ^ (b - a) - 1) + 0 from by omega,
        Nat.testBit_mul_pow_two_add _ (Nat.two_pow_pos a) i, if_pos hia]
      simp
    rw [hR]
    have hib : i < b := by omega
    simp [hia, hib]
  · have hR : Nat.testBit ((2 ^ (b - a) - 1) * 2 ^ a) i = decide (i < b) := by
      rw [Nat.mul_comm, show (2:Nat) ^ a * (2 ^ (b - a) - 1)
        = 2 ^ a * (2 ^ (b - a) - 1) + 0 from by omega,
        Nat.testBit_mul_pow_two_add _ (Nat.two_pow_pos a) i, if_neg (by omega),
        Nat.testBit_two_pow_sub_one]
      by_cases hib : i < b
      · simp [hib]
        omega
      · simp [hib]
        omega
    rw [hR]
    by_cases hib : i < b
    · simp [Nat.not_lt.2 hia, hib]
    · simp [Nat.not_lt.2 hia, hib]

theorem and_high_mask {js δ M L : Nat} (hM : M < 2 ^ δ) (hL : L < 2 ^ js) :
    (M * 2 ^ js + L) &&& ((2 ^ δ - 1) * 2 ^ js) = M * 2 ^ js := by
  apply Nat.eq_of_testBit_eq
  intro i
  rw [Nat.testBit_land]
  rcases Nat.lt_or_ge i js with hi | hi
  · have h2 : Nat.testBit ((2 ^ δ - 1) * 2 ^ js) i = false := by
      rw [Nat.mul_comm, show (2:Nat) ^ js * (2 ^ δ - 1)
        = 2 ^ js * (2 ^ δ - 1) + 0 from by omega,
        Nat.testBit_mul_pow_two_add _ (Nat.two_pow_pos js) i, if_pos hi]
      simp
    have h3 : Nat.testBit (M * 2 ^ js) i = false := by
      rw [Nat.mul_comm, show (2:Nat) ^ js * M = 2 ^ js * M + 0 from by omega,
        Nat.testBit_mul_pow_two_add _ (Nat.two_pow_pos js) i, if_pos hi]
      simp
    rw [h2, h3, Bool.and_false]
  · have h1 : Nat.testBit (M * 2 ^ js + L) i = Nat.testBit M (i - js) := by
      rw [Nat.mul_comm, Nat.testBit_mul_pow_two_add _ hL i, if_neg (by omega)]
    have h2 : Nat.testBit ((2 ^ δ - 1) * 2 ^ js) i = decide (i - js < δ) := by
      rw [Nat.mul_comm, show (2:Nat) ^ js * (2 ^ δ - 1)
        = 2 ^ js * (2 ^ δ - 1) + 0 from by omega,
        Nat.testBit_mul_pow_two_add _ (Nat.two_pow_pos js) i, if_neg (by omega),
        Nat.testBit_two_pow_sub_one]
    have h3 : Nat.testBit (M * 2 ^ js) i = Nat.testBit M (i - js) := by
      rw [Nat.mul_comm, show (2:Nat) ^ js * M = 2 ^ js * M + 0 from by omega,
        Nat.testBit_mul_pow_two_add _ (Nat.two_pow_pos js) i, if_neg (by omega)]
    rw [h1, h2, h3]
    by_cases hd : i - js < δ
    · simp [hd]
    · have hz : Nat.testBit M (i - js) = false :=
        Nat.testBit_lt_two_pow
          (Nat.lt_of_lt_of_le hM (Nat.pow_le_pow_right (by omega) (by omega)))
      simp [hz]

theorem bitRev_mod_low {js jl : Nat} (h : js ≤ jl) (ρ : Nat) :
    bitRev jl ρ % 2 ^ js = bitRev js (ρ / 2 ^ (jl - js)) := by
  have hsp : bitRev jl ρ
      = bitRev (jl - js) (ρ % 2 ^ (jl - js)) * 2 ^ js + bitRev js (ρ / 2 ^ (jl - js)) := by
    have hs := bitRev_split (jl - js) js ρ
    rw [show jl - js + js = jl from by omega] at hs
    exact hs
  rw [hsp, Nat.mul_comm, Nat.mul_add_mod, Nat.mod_eq_of_lt (bitRev_lt _ _)]

theorem mid_test {js jl : Nat} (h : js ≤ jl) (ρ : Nat) :
    bitRev jl ρ &&& (2 ^ jl - 2 ^ js) = 0 ↔ ρ % 2 ^ (jl - js) = 0 := by
  have hsp : bitRev jl ρ
      = bitRev (jl - js) (ρ % 2 ^ (jl - js)) * 2 ^ js + bitRev js (ρ / 2 ^ (jl - js)) := by
    have hs := bitRev_split (jl - js) js ρ
    rw [show jl - js + js = jl from by omega] at hs
    exact hs
  rw [two_pow_sub_two_pow h, hsp, and_high_mask (bitRev_lt _ _) (bitRev_lt _ _)]
  constructor
  · intro h0
    rcases Nat.mul_eq_zero.1 h0 with h1 | h1
    · exact (bitRev_eq_zero (Nat.mod_lt _ (Nat.two_pow_pos _))).1 h1
    · exact absurd h1 (Nat.pos_iff_ne_zero.1 (Nat.two_pow_pos js))
  · intro h0
    rw [h0, bitRev_zero, Nat.zero_mul]

theorem range_blocks (N δsz : Nat) :
    ((List.range N).map (fun q => List.range' (q * δsz) δsz)).flatten
      = List.range (N * δsz) := by
  induction N with
  | zero => simp
  | succ n ih =>
    rw [List.range_succ, List.map_append, List.flatten_append, ih]
    simp only [List.map_cons, List.map_nil, List.flatten_cons, List.flatten_nil,
      List.append_nil]
    rw [List.range_eq_range', List.range_eq_range']
    have ha := List.range'_append 0 (n * δsz) δsz 1
    simp only [Nat.one_mul, Nat.zero_add] at ha
    rw [show (n + 1) * δsz = δsz + n * δsz from by ring]
    exact ha

theorem flatten_map_flatten {α β : Type _} (g : α → List β) (R : Nat → List α)
    (l : List Nat) :
    (l.map (fun q => ((R q).map g).flatten)).flatten
      = ((l.map R).flatten.map g).flatten := by
  induction l with
  | nil => rfl
  | cons a l ih =>
    simp only [List.map_cons, List.flatten_cons, List.map_append, List.flatten_append, ih]

theorem map_getD_range {α : Type _} (l : List α) (d : α) :
    (List.range l.length).map (fun i => l.getD i d) = l := by
  apply List.ext_getElem
  · simp
  · intro i h1 h2
    simp only [List.getElem_map, List.getElem_range]
    rw [List.getD, List.get?_eq_getElem?, List.getElem?_eq_getElem h2]
    rfl

theorem bitRev_range_perm (j : Nat) :
    ((List.range (2 ^ j)).map (bitRev j)).Perm (List.range (2 ^ j)) := by
  apply List.perm_of_nodup_nodup_toFinset_eq
  · exact (List.nodup_range _).map_on
      (fun x hx y hy hxy => bitRev_inj (List.mem_range.1 hx) (List.mem_range.1 hy) hxy)
  · exact List.nodup_range _
  · ext x
    simp only [List.mem_toFinset, List.mem_map, List.mem_range]
    constructor
    · rintro ⟨y, hy, rfl⟩
      exact bitRev_lt j y
    · intro hx
      exact ⟨bitRev j x, bitRev_lt j x, bitRev_involution hx⟩

theorem flatten_bitRev_buckets_perm {α : Type _} (tbl : List (List α)) (j : Nat)
    (hlen : tbl.length = 2 ^ j) :
    (((List.range (2 ^ j)).map (fun ρ => tbl.getD (bitRev j ρ) [])).flatten).Perm
      tbl.flatten := by
  have h1 : (List.range (2 ^ j)).map (fun ρ => tbl.getD (bitRev j ρ) [])
      = ((List.range (2 ^ j)).map (bitRev j)).map (fun i => tbl.getD i []) := by
    rw [List.map_map]
    rfl
  have h3 : ((List.range (2 ^ j)).map (fun i => tbl.getD i [])) = tbl := by
    rw [← hlen]
    exact map_getD_range tbl []
  rw [h1]
  conv_rhs => rw [← h3]
  exact ((bitRev_range_perm j).map (fun i => tbl.getD i [])).flatten

theorem perm_append_mid {α : Type _} (x y z : List α) :
    (x ++ (y ++ z)).Perm (y ++ (x ++ z)) := by
  rw [← List.append_assoc, ← List.append_assoc]
  exact List.perm_append_comm.append_right z

theorem flatten_append_perm {α : Type _} (f g : Nat → List α) (l : List Nat) :
    ((l.map (fun q => f q ++ g q)).flatten).Perm
      ((l.map f).flatten ++ (l.map g).flatten) := by
  induction l with
  | nil => simp
  | cons a l ih =>
    simp only [List.map_cons, List.flatten_cons]
    rw [List.append_assoc, List.append_assoc]
    exact List.Perm.append_left (f a)
      ((ih.append_left (g a)).trans
        (perm_append_mid (g a) ((l.map f).flatten) ((l.map g).flatten)))

/-- One rehashing scan call's inner loop, solved: starting from cursor `v`
whose large-table reverse value is `r = bitRev jl (v % 2^jl)`, the loop emits
the large-table buckets of reverse values `r, r+1, ...` up to the end of the
current small-bucket block `(q+1)·2^(jl-js)`, and returns the cursor of the
next block (0 when the table is exhausted). -/
theorem scanExpand_run (t1 : Dictht K V) {js jl : Nat} (hjs : js ≤ jl) (hjl : jl ≤ 64)
    (fuel : Nat) :
    ∀ v q n, v < 2 ^ 64 →
      bitRev jl (v % 2 ^ jl) / 2 ^ (jl - js) = q →
      (q + 1) * 2 ^ (jl - js) - bitRev jl (v % 2 ^ jl) = n →
      n ≤ fuel →
      scanExpand t1 (2 ^ js - 1) (2 ^ jl - 1) v fuel
        = (((List.range' (bitRev jl (v % 2 ^ jl)) n).map
              (fun i => t1.table.getD (bitRev jl i) [])).flatten,
           if (q + 1) * 2 ^ (jl - js) < 2 ^ jl
           then bitRev jl ((q + 1) * 2 ^ (jl - js))
           else 0) := by
  induction fuel with
  | zero =>
    intro v q n hv hq hn hfuel
    exfalso
    have hdm := Nat.div_add_mod (bitRev jl (v % 2 ^ jl)) (2 ^ (jl - js))
    have hmlt := Nat.mod_lt (bitRev jl (v % 2 ^ jl)) (Nat.two_pow_pos (jl - js))
    have he1 : (q + 1) * 2 ^ (jl - js) = q * 2 ^ (jl - js) + 2 ^ (jl - js) := by ring
    have he2 : q * 2 ^ (jl - js) = 2 ^ (jl - js) * q := by ring
    rw [hq] at hdm
    omega
  | succ fuel ih =>
    intro v q n hv hq hn hfuel
    have hrlt : bitRev jl (v % 2 ^ jl) < 2 ^ jl := bitRev_lt _ _
    have hdm := Nat.div_add_mod (bitRev jl (v % 2 ^ jl)) (2 ^ (jl - js))
    rw [hq] at hdm
    have hmlt := Nat.mod_lt (bitRev jl (v % 2 ^ jl)) (Nat.two_pow_pos (jl - js))
    have he1 : (q + 1) * 2 ^ (jl - js) = q * 2 ^ (jl - js) + 2 ^ (jl - js) := by ring
    have he2 : q * 2 ^ (jl - js) = 2 ^ (jl - js) * q := by ring
    have hn1 : 1 ≤ n := by omega
    have hinv : bitRev jl (bitRev jl (v % 2 ^ jl)) = v % 2 ^ jl :=
      bitRev_involution (Nat.mod_lt _ (Nat.two_pow_pos _))
    simp only [scanExpand]
    rw [scanStep_eq hjl hv, xor_masks hjs, Nat.and_pow_two_sub_one_eq_mod]
    by_cases hw : bitRev jl (v % 2 ^ jl) + 1 < 2 ^ jl
    · rw [if_pos hw]
      by_cases hz : (bitRev jl (v % 2 ^ jl) + 1) % 2 ^ (jl - js) = 0
      · have hmid : bitRev jl (bitRev jl (v % 2 ^ jl) + 1) &&& (2 ^ jl - 2 ^ js) = 0 :=
          (mid_test hjs _).2 hz
        have hcond : (bitRev jl (bitRev jl (v % 2 ^ jl) + 1) &&& (2 ^ jl - 2 ^ js) == 0)
            = true := by
          rw [hmid]
          rfl
        rw [if_pos hcond]
        have hr1 : bitRev jl (v % 2 ^ jl) + 1
            = (bitRev jl (v % 2 ^ jl) % 2 ^ (jl - js) + 1) + q * 2 ^ (jl - js) := by
          omega
        have hz2 : (bitRev jl (v % 2 ^ jl) % 2 ^ (jl - js) + 1) % 2 ^ (jl - js) = 0 := by
          rw [hr1, Nat.add_mul_mod_self_right] at hz
          exact hz
        have hz3 : bitRev jl (v % 2 ^ jl) % 2 ^ (jl - js) + 1 = 2 ^ (jl - js) := by
          rcases Nat.lt_or_ge (bitRev jl (v % 2 ^ jl) % 2 ^ (jl - js) + 1)
            (2 ^ (jl - js)) with hlt | hge
          · rw [Nat.mod_eq_of_lt hlt] at hz2
            omega
          · omega
        have hB : (q + 1) * 2 ^ (jl - js) = bitRev jl (v % 2 ^ jl) + 1 := by omega
        have hn' : n = 1 := by omega
        rw [hn', hB, if_pos hw]
        simp [List.range'_one, hinv]
      · have hmid : bitRev jl (bitRev jl (v % 2 ^ jl) + 1) &&& (2 ^ jl - 2 ^ js) ≠ 0 :=
          fun hcontra => hz ((mid_test hjs _).1 hcontra)
        have hcond : ¬ ((bitRev jl (bitRev jl (v % 2 ^ jl) + 1) &&& (2 ^ jl - 2 ^ js) == 0)
            = true) := by
          simp only [beq_iff_eq]
          exact hmid
        rw [if_neg hcond]
        obtain ⟨m, rfl⟩ : ∃ m, n = m + 1 := ⟨n - 1, by omega⟩
        have hv1lt : bitRev jl (bitRev jl (v % 2 ^ jl) + 1) < 2 ^ jl := bitRev_lt _ _
        have hv1r : bitRev jl (bitRev jl (bitRev jl (v % 2 ^ jl) + 1) % 2 ^ jl)
            = bitRev jl (v % 2 ^ jl) + 1 := by
          rw [Nat.mod_eq_of_lt hv1lt]
          exact bitRev_involution hw
        have hrl : bitRev jl (v % 2 ^ jl) % 2 ^ (jl - js) + 1 < 2 ^ (jl - js) := by
          rcases Nat.lt_or_ge (bitRev jl (v % 2 ^ jl) % 2 ^ (jl - js) + 1)
            (2 ^ (jl - js)) with hlt | hge
          · exact hlt
          · exfalso
            apply hz
            have hr1 : bitRev jl (v % 2 ^ jl) + 1
                = 2 ^ (jl - js) + q * 2 ^ (jl - js) := by omega
            rw [hr1, Nat.add_mul_mod_self_right, Nat.mod_self]
        have hq1 : (bitRev jl (v % 2 ^ jl) + 1) / 2 ^ (jl - js) = q := by
          have hr1 : bitRev jl (v % 2 ^ jl) + 1
              = (bitRev jl (v % 2 ^ jl) % 2 ^ (jl - js) + 1) + q * 2 ^ (jl - js) := by
            omega
          rw [hr1, Nat.add_mul_div_right _ _ (Nat.two_pow_pos _), Nat.div_eq_of_lt hrl]
          omega
        have hn1' : (q + 1) * 2 ^ (jl - js) - (bitRev jl (v % 2 ^ jl) + 1) = m := by omega
        have hv64 : bitRev jl (bitRev jl (v % 2 ^ jl) + 1) < 2 ^ 64 :=
          Nat.lt_of_lt_of_le hv1lt (Nat.pow_le_pow_right (by omega) hjl)
        have hrec := ih (bitRev jl (bitRev jl (v % 2 ^ jl) + 1)) q m hv64
          (by rw [hv1r]; exact hq1) (by rw [hv1r]; exact hn1') (by omega)
        simp only [hrec, hv1r]
        have hrange : List.range' (bitRev jl (v % 2 ^ jl)) (m + 1)
            = bitRev jl (v % 2 ^ jl) :: List.range' (bitRev jl (v % 2 ^ jl) + 1) m :=
          List.range'_succ _ _ _
        rw [hrange]
        simp [hinv]
    · rw [if_neg hw]
      have hcond : (((0:Nat) &&& (2 ^ jl - 2 ^ js)) == 0) = true := by
        rw [Nat.zero_and]
        rfl
      rw [if_pos hcond]
      have h1s : (1:Nat) ≤ 2 ^ js := Nat.one_le_two_pow
      have h1d : (1:Nat) ≤ 2 ^ (jl - js) := Nat.one_le_two_pow
      have hreq : bitRev jl (v % 2 ^ jl) = 2 ^ jl - 1 := by omega
      have hps : (2:Nat) ^ jl = 2 ^ (jl - js) * 2 ^ js := by
        rw [← pow_add, Nat.sub_add_cancel hjs]
      have hsm : (2 ^ js - 1) * 2 ^ (jl - js)
          = 2 ^ js * 2 ^ (jl - js) - 1 * 2 ^ (jl - js) := by
        rw [Nat.sub_mul]
      have hc : (2:Nat) ^ js * 2 ^ (jl - js) = 2 ^ (jl - js) * 2 ^ js := Nat.mul_comm _ _
      have hA : 2 ^ (jl - js) * 1 ≤ 2 ^ (jl - js) * 2 ^ js :=
        Nat.mul_le_mul_left _ h1s
      have hx : (2 ^ (jl - js) - 1) + (2 ^ js - 1) * 2 ^ (jl - js) = 2 ^ jl - 1 := by
        rw [hsm, hps, hc]
        omega
      have hdec : bitRev jl (v % 2 ^ jl)
          = (2 ^ (jl - js) - 1) + (2 ^ js - 1) * 2 ^ (jl - js) := by
        rw [hx]
        exact hreq
      have hq' : q = 2 ^ js - 1 := by
        rw [← hq, hdec, Nat.add_mul_div_right _ _ (Nat.two_pow_pos _),
          Nat.div_eq_of_lt (by omega)]
        omega
      have hB2 : (q + 1) * 2 ^ (jl - js) = 2 ^ jl := by
        rw [hq', show 2 ^ js - 1 + 1 = 2 ^ js from by omega, Nat.mul_comm]
        exact hps.symm
      have hn2 : n = 1 := by omega
      rw [hn2, hB2, if_neg (lt_irrefl _)]
      simp [List.range'_one, hinv]

theorem vmod_small {js jl : Nat} (hjs : js ≤ jl) (v : Nat) :
    v % 2 ^ js = bitRev js (bitRev jl (v % 2 ^ jl) / 2 ^ (jl - js)) := by
  rw [← Nat.mod_mod_of_dvd v (pow_dvd_pow 2 hjs)]
  conv_lhs => rw [← bitRev_involution (x := v % 2 ^ jl) (Nat.mod_lt _ (Nat.two_pow_pos _))]
  exact bitRev_mod_low hjs _

theorem tau_div {js jl : Nat} (hjs : js ≤ jl) (h : Nat) :
    bitRev jl (h % 2 ^ jl) / 2 ^ (jl - js) = bitRev js (h % 2 ^ js) := by
  have hv := vmod_small hjs h
  have hlt : bitRev jl (h % 2 ^ jl) / 2 ^ (jl - js) < 2 ^ js := by
    rw [Nat.div_lt_iff_lt_mul (Nat.two_pow_pos _)]
    calc bitRev jl (h % 2 ^ jl) < 2 ^ jl := bitRev_lt _ _
      _ = 2 ^ js * 2 ^ (jl - js) := by rw [← pow_add, Nat.add_sub_cancel' hjs]
  rw [hv, bitRev_involution hlt]

/-- When the current block's end `B` is still reverse-below the key's bucket,
the next cursor returned by a scan call is nonzero and still pending for the
key. -/
theorem scan_pending_next {jl : Nat} (hjl : jl ≤ 64) {B h : Nat}
    (hB0 : 0 < B) (hBt : B ≤ bitRev jl (h % 2 ^ jl)) :
    (if B < 2 ^ jl then bitRev jl B else 0) ≠ 0
      ∧ (if B < 2 ^ jl then bitRev jl B else 0) < 2 ^ 64
      ∧ bitRev 64 (if B < 2 ^ jl then bitRev jl B else 0) ≤ bitRev 64 h := by
  have ht : bitRev jl (h % 2 ^ jl) < 2 ^ jl := bitRev_lt _ _
  have hBlt : B < 2 ^ jl := by omega
  rw [if_pos hBlt]
  refine ⟨?_, Nat.lt_of_lt_of_le (bitRev_lt _ _) (Nat.pow_le_pow_right (by omega) hjl), ?_⟩
  · intro h0
    have hz := (bitRev_eq_zero hBlt).1 h0
    omega
  · apply pend64_of hjl (bitRev_lt _ _)
    rw [bitRev_involution hBlt]
    exact hBt

/-- One non-rehashing scan call on a table holding the key's entry: the
emitted bucket contains the key, or the returned cursor is nonzero and still
pending for the key. -/
theorem scanCall_fixed_core {t : DictType K V} {ht : Dictht K V} {j : Nat}
    (hw : HtWF t.hashFunction ht) (hsz : ht.size = 2 ^ j) (hj : j ≤ 64)
    {k : K} {e : DictEntry K V} (he : e.key = k) (hmem : e ∈ htEntries ht)
    {v : Nat} (hv : v < 2 ^ 64)
    (hp : bitRev 64 v ≤ bitRev 64 (t.hashFunction k)) :
    (∃ e2 ∈ ht.table.getD (v &&& ht.sizemask) [], e2.key = k)
      ∨ (scanStep ht.sizemask v ≠ 0 ∧ scanStep ht.sizemask v < 2 ^ 64
          ∧ bitRev 64 (scanStep ht.sizemask v) ≤ bitRev 64 (t.hashFunction k)) := by
  have hm : ht.sizemask = 2 ^ j - 1 := by rw [hw.mask_def, hsz]
  rw [hm, scanStep_eq hj hv, Nat.and_pow_two_sub_one_eq_mod]
  obtain ⟨i, hi, hbk⟩ := exists_index_of_mem_flatten hmem
  have hplaced := hw.placed i e hbk
  rw [he, hm, Nat.and_pow_two_sub_one_eq_mod] at hplaced
  by_cases hhit : t.hashFunction k % 2 ^ j = v % 2 ^ j
  · left
    refine ⟨e, ?_, he⟩
    rw [← hhit, hplaced]
    exact hbk
  · right
    have hA := pend_le hj hp
    have hT := bitRev_lt j (t.hashFunction k % 2 ^ j)
    have hne : bitRev j (v % 2 ^ j) ≠ bitRev j (t.hashFunction k % 2 ^ j) := by
      intro hcontra
      exact hhit (bitRev_inj (Nat.mod_lt _ (Nat.two_pow_pos _))
        (Nat.mod_lt _ (Nat.two_pow_pos _)) hcontra).symm
    have hlt2 : bitRev j (v % 2 ^ j) + 1 < 2 ^ j := by omega
    rw [if_pos hlt2]
    refine ⟨?_, Nat.lt_of_lt_of_le (bitRev_lt _ _) (Nat.pow_le_pow_right (by omega) hj), ?_⟩
    · intro h0
      have hz := (bitRev_eq_zero hlt2).1 h0
      omega
    · apply pend64_of hj (bitRev_lt _ _)
      rw [bitRev_involution hlt2]
      omega

/-- One rehashing scan call (small bucket plus the large-table run over its
block) on tables holding the key's entry: the key is emitted, or the returned
cursor is nonzero and still pending for the key. -/
theorem scanCall_rehash_core {t : DictType K V} {tS tL : Dictht K V} {js jl : Nat}
    (hwS : HtWF t.hashFunction tS) (hwL : HtWF t.hashFunction tL)
    (hS : tS.size = 2 ^ js) (hL : tL.size = 2 ^ jl)
    (hjs : js ≤ jl) (hjl : jl ≤ 64)
    {k : K} {e : DictEntry K V} (he : e.key = k)
    (hmem : e ∈ htEntries tS ∨ e ∈ htEntries tL)
    {v : Nat} (hv : v < 2 ^ 64)
    (hp : bitRev 64 v ≤ bitRev 64 (t.hashFunction k)) :
    (∃ e2 ∈ tS.table.getD (v &&& tS.sizemask) []
        ++ (scanExpand tL tS.sizemask tL.sizemask v tL.size).1, e2.key = k)
    ∨ ((scanExpand tL tS.sizemask tL.sizemask v tL.size).2 ≠ 0
        ∧ (scanExpand tL tS.sizemask tL.sizemask v tL.size).2 < 2 ^ 64
        ∧ bitRev 64 (scanExpand tL tS.sizemask tL.sizemask v tL.size).2
            ≤ bitRev 64 (t.hashFunction k)) := by
  have hmS : tS.sizemask = 2 ^ js - 1 := by rw [hwS.mask_def, hS]
  have hmL : tL.sizemask = 2 ^ jl - 1 := by rw [hwL.mask_def, hL]
  have hdd : (2:Nat) ^ (jl - js) ≤ 2 ^ jl := Nat.pow_le_pow_right (by omega) (by omega)
  have hdm := Nat.div_add_mod (bitRev jl (v % 2 ^ jl)) (2 ^ (jl - js))
  have hmlt := Nat.mod_lt (bitRev jl (v % 2 ^ jl)) (Nat.two_pow_pos (jl - js))
  have he1 : (bitRev jl (v % 2 ^ jl) / 2 ^ (jl - js) + 1) * 2 ^ (jl - js)
      = 2 ^ (jl - js) * (bitRev jl (v % 2 ^ jl) / 2 ^ (jl - js)) + 2 ^ (jl - js) := by
    ring
  have hfuel : (bitRev jl (v % 2 ^ jl) / 2 ^ (jl - js) + 1) * 2 ^ (jl - js)
      - bitRev jl (v % 2 ^ jl) ≤ 2 ^ jl := by omega
  have hrun := scanExpand_run tL hjs hjl (2 ^ jl) v _ _ hv rfl rfl hfuel
  rw [hmS, hmL, hL]
  simp only [hrun]
  have hple : bitRev jl (v % 2 ^ jl) ≤ bitRev jl (t.hashFunction k % 2 ^ jl) :=
    pend_le hjl hp
  have htlt : bitRev jl (t.hashFunction k % 2 ^ jl) < 2 ^ jl := bitRev_lt _ _
  have hqt : bitRev jl (v % 2 ^ jl) / 2 ^ (jl - js)
      ≤ bitRev jl (t.hashFunction k % 2 ^ jl) / 2 ^ (jl - js) := Nat.div_le_div_right hple
  have htdm := Nat.div_add_mod (bitRev jl (t.hashFunction k % 2 ^ jl)) (2 ^ (jl - js))
  have hB0 : 0 < (bitRev jl (v % 2 ^ jl) / 2 ^ (jl - js) + 1) * 2 ^ (jl - js) :=
    Nat.mul_pos (Nat.succ_pos _) (Nat.two_pow_pos _)
  rcases hmem with hsmall | hlarge
  · obtain ⟨i, hi, hbk⟩ := exists_index_of_mem_flatten hsmall
    have hplaced := hwS.placed i e hbk
    rw [he, hmS, Nat.and_pow_two_sub_one_eq_mod] at hplaced
    by_cases hhit : bitRev jl (v % 2 ^ jl) / 2 ^ (jl - js)
        = bitRev jl (t.hashFunction k % 2 ^ jl) / 2 ^ (jl - js)
    · left
      refine ⟨e, List.mem_append_left _ ?_, he⟩
      rw [Nat.and_pow_two_sub_one_eq_mod, vmod_small hjs v, hhit, tau_div hjs,
        bitRev_involution (Nat.mod_lt _ (Nat.two_pow_pos _)), hplaced]
      exact hbk
    · right
      have hlt : bitRev jl (v % 2 ^ jl) / 2 ^ (jl - js) + 1
          ≤ bitRev jl (t.hashFunction k % 2 ^ jl) / 2 ^ (jl - js) := by omega
      have hmul := Nat.mul_le_mul_left (2 ^ (jl - js)) hlt
      have hr2 : 2 ^ (jl - js) * (bitRev jl (v % 2 ^ jl) / 2 ^ (jl - js) + 1)
          = 2 ^ (jl - js) * (bitRev jl (v % 2 ^ jl) / 2 ^ (jl - js)) + 2 ^ (jl - js) := by
        ring
      have hBt : (bitRev jl (v % 2 ^ jl) / 2 ^ (jl - js) + 1) * 2 ^ (jl - js)
          ≤ bitRev jl (t.hashFunction k % 2 ^ jl) := by omega
      exact scan_pending_next hjl hB0 hBt
  · obtain ⟨i, hi, hbk⟩ := exists_index_of_mem_flatten hlarge
    have hplaced := hwL.placed i e hbk
    rw [he, hmL, Nat.and_pow_two_sub_one_eq_mod] at hplaced
    by_cases hin : bitRev jl (t.hashFunction k % 2 ^ jl)
        < (bitRev jl (v % 2 ^ jl) / 2 ^ (jl - js) + 1) * 2 ^ (jl - js)
    · left
      refine ⟨e, List.mem_append_right _ ?_, he⟩
      apply List.mem_flatten.2
      refine ⟨tL.table.getD (t.hashFunction k % 2 ^ jl) [], ?_, ?_⟩
      · apply List.mem_map.2
        refine ⟨bitRev jl (t.hashFunction k % 2 ^ jl), List.mem_range'_1.2 ⟨hple, ?_⟩, ?_⟩
        · omega
        · rw [bitRev_involution (Nat.mod_lt _ (Nat.two_pow_pos _))]
      · rw [← hplaced] at hbk
        exact hbk
    · right
      have hBt : (bitRev jl (v % 2 ^ jl) / 2 ^ (jl - js) + 1) * 2 ^ (jl - js)
          ≤ bitRev jl (t.hashFunction k % 2 ^ jl) := by omega
      exact scan_pending_next hjl hB0 hBt

/-- One scan call, any state: if the key's entry is stored (and the tables are
no larger than `2^64`), either an entry with the key is emitted or the
returned cursor is nonzero and still reverse-pending for the key. -/
theorem dictScan_pending {d : Dict K V} (hI : Inv d)
    {k : K} {e : DictEntry K V} (he : e.key = k) (hmem : e ∈ allEntries d)
    (hs0 : d.ht0.size ≤ 2 ^ 64) (hs1 : d.ht1.size ≤ 2 ^ 64)
    {v : Nat} (hv : v < 2 ^ 64)
    (hp : bitRev 64 v ≤ bitRev 64 (d.type.hashFunction k)) :
    (∃ e2 ∈ (dictScan d v).1, e2.key = k)
      ∨ ((dictScan d v).2 ≠ 0 ∧ (dictScan d v).2 < 2 ^ 64
          ∧ bitRev 64 (dictScan d v).2 ≤ bitRev 64 (d.type.hashFunction k)) := by
  have hsz : dictSize d ≠ 0 := by
    intro h0
    rw [dictSize, hI.wf0.used_def, hI.wf1.used_def, ← List.length_flatten,
      ← List.length_flatten] at h0
    have hmem2 := hmem
    rw [allEntries] at hmem2
    rcases List.mem_append.1 hmem2 with hmm | hmm
    · have := List.length_pos.2 (List.ne_nil_of_mem hmm)
      rw [htEntries] at this
      omega
    · have := List.length_pos.2 (List.ne_nil_of_mem hmm)
      rw [htEntries] at this
      omega
  have hszb : ¬ ((dictSize d == 0) = true) := by
    simp only [beq_iff_eq]
    exact hsz
  rw [dictScan, if_neg hszb]
  by_cases hreh : dictIsRehashing d = true
  · rw [if_neg (by simp [hreh])]
    rcases hI.rehash_state with ⟨hneg, _⟩ | ⟨hpos, hs0n, hs1n, _⟩
    · exfalso
      rw [dictIsRehashing, hneg] at hreh
      simp at hreh
    · rcases hI.wf0.pow with h0z | ⟨a, ha⟩
      · exact absurd h0z hs0n
      rcases hI.wf1.pow with h1z | ⟨b, hb⟩
      · exact absurd h1z hs1n
      have haa : a ≤ 64 := by
        rw [ha] at hs0
        exact (Nat.pow_le_pow_iff_right (by omega)).1 hs0
      have hbb : b ≤ 64 := by
        rw [hb] at hs1
        exact (Nat.pow_le_pow_iff_right (by omega)).1 hs1
      have hmem2 : e ∈ htEntries d.ht0 ∨ e ∈ htEntries d.ht1 := by
        have hmm := hmem
        rw [allEntries] at hmm
        exact List.mem_append.1 hmm
      by_cases hgt : d.ht0.size > d.ht1.size
      · rw [if_pos hgt, if_pos hgt]
        have hba : b ≤ a := by
          rw [ha, hb] at hgt
          exact Nat.le_of_lt ((Nat.pow_lt_pow_iff_right (by omega)).1 hgt)
        have hcore := scanCall_rehash_core
          hI.wf1 hI.wf0 hb ha hba haa he (Or.symm hmem2) hv hp
        rcases hSE : scanExpand d.ht0 d.ht1.sizemask d.ht0.sizemask v d.ht0.size
          with ⟨es1, vf⟩
        rw [hSE] at hcore
        simp only [hSE]
        exact hcore
      · rw [if_neg hgt, if_neg hgt]
        have hab : a ≤ b := by
          rw [ha, hb] at hgt
          exact (Nat.pow_le_pow_iff_right (by omega)).1 (Nat.le_of_not_lt hgt)
        have hcore := scanCall_rehash_core
          hI.wf0 hI.wf1 ha hb hab hbb he hmem2 hv hp
        rcases hSE : scanExpand d.ht1 d.ht0.sizemask d.ht1.sizemask v d.ht1.size
          with ⟨es1, vf⟩
        rw [hSE] at hcore
        simp only [hSE]
        exact hcore
  · rw [if_pos (by simp [hreh])]
    rcases hI.rehash_state with ⟨hneg, hreset⟩ | ⟨hpos, _, _, _⟩
    · have hempty : htEntries d.ht1 = [] := by
        rw [hreset, dicthtReset, htEntries]
        rfl
      have hmem0 : e ∈ htEntries d.ht0 := by
        have hmm := hmem
        rw [allEntries, hempty, List.append_nil] at hmm
        exact hmm
      have hs0nz : d.ht0.size ≠ 0 := by
        intro hz
        have hlen : d.ht0.table.length = 0 := by
          rw [← hI.wf0.size_def]
          exact hz
        rw [htEntries, List.length_eq_zero.1 hlen] at hmem0
        cases hmem0
      rcases hI.wf0.pow with h0z | ⟨a, ha⟩
      · exact absurd h0z hs0nz
      have haa : a ≤ 64 := by
        rw [ha] at hs0
        exact (Nat.pow_le_pow_iff_right (by omega)).1 hs0
      exact scanCall_fixed_core hI.wf0 ha haa he hmem0 hv hp
    · exfalso
      rw [dictIsRehashing] at hreh
      simp at hreh
      rw [hreh] at hpos
      omega

/-- Along a completed scan session, a key stored at every call state (with
bounded tables) and reverse-pending at the current cursor is eventually
emitted. -/
theorem session_visits {t : DictType K V} (hg : GoodType t) :
    ∀ fuel (w : World K V) (v : Nat) (batches : List (List (DictOp K V))) (k : K)
      (es : List (DictEntry K V)),
      Inv w.d → w.d.type = t →
      v < 2 ^ 64 → bitRev 64 v ≤ bitRev 64 (t.hashFunction k) →
      (∀ w2 ∈ sessionStates w v batches fuel,
        (∃ e ∈ allEntries w2.d, e.key = k)
          ∧ w2.d.ht0.size ≤ 2 ^ 64 ∧ w2.d.ht1.size ≤ 2 ^ 64) →
      scanSessionAux w v batches fuel = (es, true) →
      ∃ e ∈ es, e.key = k := by
  intro fuel
  induction fuel with
  | zero =>
    intro w v batches k es _ _ _ _ _ hrun
    exfalso
    simp [scanSessionAux] at hrun
  | succ fuel ih =>
    intro w v batches k es hI htype hv hp hstates hrun
    rcases hDS : dictScan w.d v with ⟨es0, v1⟩
    have hw : w ∈ sessionStates w v batches (fuel + 1) := by
      simp only [sessionStates, hDS]
      split
      · exact List.mem_singleton_self w
      · exact List.mem_cons_self w _
    obtain ⟨⟨e, hemem, hekey⟩, hsz0, hsz1⟩ := hstates w hw
    have hcall := dictScan_pending hI hekey hemem hsz0 hsz1 hv (by rw [htype]; exact hp)
    rw [hDS] at hcall
    simp only [scanSessionAux, hDS] at hrun
    by_cases h0 : v1 = 0
    · simp only [h0] at hrun
      injection hrun with h1 h2
      rcases hcall with ⟨e2, hmem2, hkey2⟩ | ⟨hne, _, _⟩
      · exact ⟨e2, h1 ▸ hmem2, hkey2⟩
      · exact absurd h0 hne
    · have hneq : ¬ ((v1 == 0) = true) := by simp [h0]
      rw [if_neg hneq] at hrun
      rcases hSS : scanSessionAux ((batches.headD []).foldl applyOp w) v1
        batches.tail fuel with ⟨rest, done⟩
      simp only [hSS] at hrun
      injection hrun with h1 h2
      rcases hcall with ⟨e2, hmem2, hkey2⟩ | ⟨hne, hvlt, hpend⟩
      · exact ⟨e2, h1 ▸ List.mem_append_left _ hmem2, hkey2⟩
      · have hgw : GoodType w.d.type := by
          rw [htype]
          exact hg
        have hI2 : Inv (((batches.headD []).foldl applyOp w).d) :=
          (foldl_applyOp_inv w hgw hI _).1
        have htype2 : ((batches.headD []).foldl applyOp w).d.type = t := by
          rw [(foldl_applyOp_inv w hgw hI _).2]
          exact htype
        have hpend2 : bitRev 64 v1 ≤ bitRev 64 (t.hashFunction k) := by
          rw [← htype]
          exact hpend
        have hstates2 : ∀ w2 ∈ sessionStates ((batches.headD []).foldl applyOp w) v1
            batches.tail fuel,
            (∃ e3 ∈ allEntries w2.d, e3.key = k)
              ∧ w2.d.ht0.size ≤ 2 ^ 64 ∧ w2.d.ht1.size ≤ 2 ^ 64 := by
          intro w2 hw2
          apply hstates
          simp only [sessionStates, hDS]
          rw [if_neg hneq]
          exact List.mem_cons_of_mem _ hw2
        have hrec := ih ((batches.headD []).foldl applyOp w) v1 batches.tail k rest
          hI2 htype2 hvlt hpend2 hstates2 (h2 ▸ hSS)
        obtain ⟨e3, hmem3, hkey3⟩ := hrec
        exact ⟨e3, h1 ▸ List.mem_append_right _ hmem3, hkey3⟩

/-- The unmutated walk on a non-rehashing dictionary, solved: starting at the
cursor whose reverse value is `ρ`, it emits the buckets of reverse values
`ρ, ρ+1, ..., 2^j - 1` and stops. -/
theorem scanWalk_fixed {d : Dict K V} {j : Nat}
    (hsz : dictSize d ≠ 0) (hreh : ¬ dictIsRehashing d = true)
    (hm : d.ht0.sizemask = 2 ^ j - 1) (hj : j ≤ 64) :
    ∀ m ρ fuel, ρ + m = 2 ^ j → 1 ≤ m → m ≤ fuel →
      scanWalk d (bitRev j ρ) fuel
        = ((List.range' ρ m).map
            (fun i => d.ht0.table.getD (bitRev j i) [])).flatten := by
  intro m
  induction m with
  | zero =>
    intro ρ fuel h1 h2 h3
    exact absurd h2 (by omega)
  | succ m ih =>
    intro ρ fuel hsum hone hfuel
    obtain ⟨f2, rfl⟩ : ∃ f2, fuel = f2 + 1 := ⟨fuel - 1, by omega⟩
    have hρlt : ρ < 2 ^ j := by omega
    have hblt : bitRev j ρ < 2 ^ j := bitRev_lt _ _
    have hv64 : bitRev j ρ < 2 ^ 64 :=
      lt_of_lt_of_le hblt (Nat.pow_le_pow_right (by omega) hj)
    have hszb : ¬ ((dictSize d == 0) = true) := by
      simp only [beq_iff_eq]
      exact hsz
    have hρρ : bitRev j (bitRev j ρ) = ρ := bitRev_involution hρlt
    have hscan : dictScan d (bitRev j ρ)
        = (d.ht0.table.getD (bitRev j ρ) [],
           if ρ + 1 < 2 ^ j then bitRev j (ρ + 1) else 0) := by
      rw [dictScan, if_neg hszb, if_pos (by simp [hreh])]
      rw [hm, scanStep_eq hj hv64, Nat.and_pow_two_sub_one_eq_mod,
        Nat.mod_eq_of_lt hblt, hρρ]
    simp only [scanWalk, hscan]
    by_cases hlast : ρ + 1 < 2 ^ j
    · rw [if_pos hlast]
      have hne : ¬ ((bitRev j (ρ + 1) == 0) = true) := by
        simp only [beq_iff_eq]
        intro hzero
        have hz := (bitRev_eq_zero hlast).1 hzero
        omega
      rw [if_neg hne]
      rw [ih (ρ + 1) f2 (by omega) (by omega) (by omega)]
      rw [List.range'_succ]
      simp
    · have hm0 : m = 0 := by omega
      rw [if_neg hlast, if_pos (show ((0:Nat) == 0) = true from rfl), hm0,
        List.range'_one]
      simp

/-- The unmutated walk on a rehashing dictionary, solved: starting at the
cursor opening small-table block `q`, each call emits small bucket of reverse
value `q2` followed by the large-table buckets of its block, for
`q2 = q, ..., 2^js - 1`. -/
theorem scanWalk_rehash {d : Dict K V} (tS tL : Dictht K V) {js jl : Nat}
    (hsz : dictSize d ≠ 0) (hreh : dictIsRehashing d = true)
    (hpickS : (if d.ht0.size > d.ht1.size then d.ht1 else d.ht0) = tS)
    (hpickL : (if d.ht0.size > d.ht1.size then d.ht0 else d.ht1) = tL)
    (hmS : tS.sizemask = 2 ^ js - 1) (hmL : tL.sizemask = 2 ^ jl - 1)
    (hL : tL.size = 2 ^ jl) (hjs : js ≤ jl) (hjl : jl ≤ 64) :
    ∀ m q fuel, q + m = 2 ^ js → 1 ≤ m → m ≤ fuel →
      scanWalk d (bitRev jl (q * 2 ^ (jl - js))) fuel
        = ((List.range' q m).map
            (fun q2 => tS.table.getD (bitRev js q2) []
              ++ ((List.range' (q2 * 2 ^ (jl - js)) (2 ^ (jl - js))).map
                  (fun i => tL.table.getD (bitRev jl i) [])).flatten)).flatten := by
  intro m
  induction m with
  | zero =>
    intro q fuel h1 h2 h3
    exact absurd h2 (by omega)
  | succ m ih =>
    intro q fuel hsum hone hfuel
    obtain ⟨f2, rfl⟩ : ∃ f2, fuel = f2 + 1 := ⟨fuel - 1, by omega⟩
    have hqlt : q < 2 ^ js := by omega
    have hjleq : (2:Nat) ^ js * 2 ^ (jl - js) = 2 ^ jl := by
      rw [← pow_add, Nat.add_sub_cancel' hjs]
    have hcur : q * 2 ^ (jl - js) < 2 ^ jl := by
      rw [← hjleq]
      exact (Nat.mul_lt_mul_right (Nat.two_pow_pos _)).mpr hqlt
    have hblt : bitRev jl (q * 2 ^ (jl - js)) < 2 ^ jl := bitRev_lt _ _
    have hv64 : bitRev jl (q * 2 ^ (jl - js)) < 2 ^ 64 :=
      lt_of_lt_of_le hblt (Nat.pow_le_pow_right (by omega) hjl)
    have hszb : ¬ ((dictSize d == 0) = true) := by
      simp only [beq_iff_eq]
      exact hsz
    have hmod : bitRev jl (q * 2 ^ (jl - js)) % 2 ^ jl = bitRev jl (q * 2 ^ (jl - js)) :=
      Nat.mod_eq_of_lt hblt
    have hrr : bitRev jl (bitRev jl (q * 2 ^ (jl - js)) % 2 ^ jl) = q * 2 ^ (jl - js) := by
      rw [hmod]
      exact bitRev_involution hcur
    have hqdiv : q * 2 ^ (jl - js) / 2 ^ (jl - js) = q :=
      Nat.mul_div_cancel q (Nat.two_pow_pos _)
    have hrun := scanExpand_run tL hjs hjl (2 ^ jl)
      (bitRev jl (q * 2 ^ (jl - js))) q (2 ^ (jl - js)) hv64
      (by rw [hrr, hqdiv])
      (by rw [hrr, Nat.add_mul]; omega)
      (Nat.pow_le_pow_right (by omega) (by omega))
    have hscan : dictScan d (bitRev jl (q * 2 ^ (jl - js)))
        = (tS.table.getD (bitRev js q) []
            ++ ((List.range' (q * 2 ^ (jl - js)) (2 ^ (jl - js))).map
                (fun i => tL.table.getD (bitRev jl i) [])).flatten,
           if (q + 1) * 2 ^ (jl - js) < 2 ^ jl
           then bitRev jl ((q + 1) * 2 ^ (jl - js)) else 0) := by
      rw [dictScan, if_neg hszb, if_neg (by simp [hreh]), hpickS, hpickL]
      simp only [hmS, hmL, hL]
      simp only [hrun]
      rw [Nat.and_pow_two_sub_one_eq_mod, vmod_small hjs, hrr, hqdiv]
    simp only [scanWalk, hscan]
    by_cases hlast : q + 1 < 2 ^ js
    · have hBlt : (q + 1) * 2 ^ (jl - js) < 2 ^ jl := by
        rw [← hjleq]
        exact (Nat.mul_lt_mul_right (Nat.two_pow_pos _)).mpr hlast
      rw [if_pos hBlt]
      have hne : ¬ ((bitRev jl ((q + 1) * 2 ^ (jl - js)) == 0) = true) := by
        simp only [beq_iff_eq]
        intro hzero
        have hz := (bitRev_eq_zero hBlt).1 hzero
        have hp := Nat.mul_pos (show (0:Nat) < q + 1 from by omega)
          (Nat.two_pow_pos (jl - js))
        omega
      rw [if_neg hne]
      rw [ih (q + 1) f2 (by omega) (by omega) (by omega)]
      rw [List.range'_succ]
      simp
    · have hm0 : m = 0 := by omega
      have hq1 : q + 1 = 2 ^ js := by omega
      have hBeq : (q + 1) * 2 ^ (jl - js) = 2 ^ jl := by
        rw [hq1, hjleq]
      rw [hBeq, if_neg (lt_irrefl _), if_pos (show ((0:Nat) == 0) = true from rfl), hm0,
        List.range'_one]
      simp

/-- The interleaved block emission (small bucket + its large block, over all
blocks in reverse order) is a permutation of both tables' contents. -/
theorem blocks_perm {α : Type _} (tS tL : List (List α)) {js jl : Nat} (hjs : js ≤ jl)
    (hlenS : tS.length = 2 ^ js) (hlenL : tL.length = 2 ^ jl) :
    (((List.range' 0 (2 ^ js)).map
        (fun q2 => tS.getD (bitRev js q2) []
          ++ ((List.range' (q2 * 2 ^ (jl - js)) (2 ^ (jl - js))).map
              (fun i => tL.getD (bitRev jl i) [])).flatten)).flatten).Perm
      (tS.flatten ++ tL.flatten) := by
  rw [← List.range_eq_range']
  refine (flatten_append_perm _ _ _).trans (List.Perm.append ?_ ?_)
  · exact flatten_bitRev_buckets_perm tS js hlenS
  · rw [flatten_map_flatten (fun i => tL.getD (bitRev jl i) [])
      (fun q2 => List.range' (q2 * 2 ^ (jl - js)) (2 ^ (jl - js))) (List.range (2 ^ js))]
    rw [range_blocks]
    rw [show (2:Nat) ^ js * 2 ^ (jl - js) = 2 ^ jl from by
      rw [← pow_add, Nat.add_sub_cancel' hjs]]
    exact flatten_bitRev_buckets_perm tL jl hlenL

/-- A full unmutated walk from cursor 0, `dictSlots + 1` calls of fuel, visits
a permutation of all stored entries. -/
theorem scanWalk_complete {d : Dict K V} (hI : Inv d)
    (hs0 : d.ht0.size ≤ 2 ^ 64) (hs1 : d.ht1.size ≤ 2 ^ 64) :
    (scanWalk d 0 (dictSlots d + 1)).Perm (allEntries d) := by
  by_cases hsz : dictSize d = 0
  · have h0 := hI.wf0.used_def
    have h1 := hI.wf1.used_def
    have hlen : (htEntries d.ht0).length + (htEntries d.ht1).length = 0 := by
      rw [htEntries, htEntries, List.length_flatten, List.length_flatten]
      rw [dictSize] at hsz
      omega
    have hieq : allEntries d = [] := by
      rw [allEntries, List.length_eq_zero.1 (show (htEntries d.ht0).length = 0 by omega),
        List.length_eq_zero.1 (show (htEntries d.ht1).length = 0 by omega)]
      rfl
    have hds : dictScan d 0 = ([], 0) := by
      rw [dictScan, if_pos (by simp [hsz])]
    have hwalk : scanWalk d 0 (dictSlots d + 1) = [] := by
      simp [scanWalk, hds]
    rw [hwalk, hieq]
  · by_cases hreh : dictIsRehashing d = true
    · rcases hI.rehash_state with ⟨hneg, _⟩ | ⟨hpos, hs0n, hs1n, _⟩
      · exfalso
        rw [dictIsRehashing, hneg] at hreh
        simp at hreh
      rcases hI.wf0.pow with h0z | ⟨a, ha⟩
      · exact absurd h0z hs0n
      rcases hI.wf1.pow with h1z | ⟨b, hb⟩
      · exact absurd h1z hs1n
      have haa : a ≤ 64 := by
        rw [ha] at hs0
        exact (Nat.pow_le_pow_iff_right (by omega)).1 hs0
      have hbb : b ≤ 64 := by
        rw [hb] at hs1
        exact (Nat.pow_le_pow_iff_right (by omega)).1 hs1
      have hlen0 : d.ht0.table.length = 2 ^ a := by
        rw [← hI.wf0.size_def, ha]
      have hlen1 : d.ht1.table.length = 2 ^ b := by
        rw [← hI.wf1.size_def, hb]
      by_cases hgt : d.ht0.size > d.ht1.size
      · have hba : b ≤ a := by
          rw [ha, hb] at hgt
          exact Nat.le_of_lt ((Nat.pow_lt_pow_iff_right (by omega)).1 hgt)
        have hwalk := scanWalk_rehash d.ht1 d.ht0 hsz hreh
          (by rw [if_pos hgt]) (by rw [if_pos hgt])
          (by rw [hI.wf1.mask_def, hb]) (by rw [hI.wf0.mask_def, ha]) ha hba haa
          (2 ^ b) 0 (dictSlots d + 1) (by omega) Nat.one_le_two_pow
          (by rw [dictSlots]; omega)
        rw [Nat.zero_mul, bitRev_zero] at hwalk
        rw [hwalk]
        refine (blocks_perm d.ht1.table d.ht0.table hba hlen1 hlen0).trans ?_
        rw [allEntries, htEntries, htEntries]
        exact List.perm_append_comm
      · have hab : a ≤ b := by
          rw [ha, hb] at hgt
          exact (Nat.pow_le_pow_iff_right (by omega)).1 (Nat.le_of_not_lt hgt)
        have hwalk := scanWalk_rehash d.ht0 d.ht1 hsz hreh
          (by rw [if_neg hgt]) (by rw [if_neg hgt])
          (by rw [hI.wf0.mask_def, ha]) (by rw [hI.wf1.mask_def, hb]) hb hab hbb
          (2 ^ a) 0 (dictSlots d + 1) (by omega) Nat.one_le_two_pow
          (by rw [dictSlots]; omega)
        rw [Nat.zero_mul, bitRev_zero] at hwalk
        rw [hwalk]
        refine (blocks_perm d.ht0.table d.ht1.table hab hlen0 hlen1).trans ?_
        rw [allEntries, htEntries, htEntries]
    · rcases hI.rehash_state with ⟨hneg, hreset⟩ | ⟨hpos, _, _, _⟩
      · have hempty : htEntries d.ht1 = [] := by
          rw [hreset, dicthtReset, htEntries]
          rfl
        have hs0nz : d.ht0.size ≠ 0 := by
          intro hz
          apply hsz
          have hlen : d.ht0.table.length = 0 := by
            rw [← hI.wf0.size_def]
            exact hz
          rw [dictSize, hI.wf0.used_def, hI.wf1.used_def, List.length_eq_zero.1 hlen]
          have h1 : (htEntries d.ht1).length = 0 := by
            rw [hempty]
            rfl
          rw [htEntries, List.length_flatten] at h1
          simp
          omega
        rcases hI.wf0.pow with h0z | ⟨a, ha⟩
        · exact absurd h0z hs0nz
        have haa : a ≤ 64 := by
          rw [ha] at hs0
          exact (Nat.pow_le_pow_iff_right (by omega)).1 hs0
        have hlen0 : d.ht0.table.length = 2 ^ a := by
          rw [← hI.wf0.size_def, ha]
        have hwalk := scanWalk_fixed hsz hreh (by rw [hI.wf0.mask_def, ha]) haa
          (2 ^ a) 0 (dictSlots d + 1)
          (by omega) Nat.one_le_two_pow
          (by rw [dictSlots]; omega)
        rw [bitRev_zero] at hwalk
        rw [hwalk, allEntries, hempty, List.append_nil, htEntries]
        rw [← List.range_eq_range']
        exact flatten_bitRev_buckets_perm d.ht0.table a hlen0
      · exfalso
        rw [dictIsRehashing] at hreh
        simp at hreh
        rw [hreh] at hpos
        omega

/-- C5.  First conjunct ("every entry present for the entire duration of the
walk is visited at least once, even if the table grows, shrinks, or rehashes
between calls"): `scanSession` is the complete walk — first call at cursor 0,
each later call fed the previously returned cursor, an arbitrary operation
batch (`DictOp` covers add/delete/unlink/find/expand/resize/rehash) applied
between consecutive calls, ending with success exactly when a call returns
cursor 0.  For any key stored at every state at which a call is issued
(`sessionStates`; presence only at call states is weaker than presence for
the entire duration, so the theorem is stronger than the claim), some emitted
entry carries that key.  The `≤ 2^64` bounds state that the tables fit the
64-bit cursor space of the C `unsigned long` — automatic in C, a side
condition over `Nat`.  Second conjunct ("if the dictionary is never mutated
during the walk, every entry is visited exactly once ... regardless of
whether the table was pre-resized and then left alone"): an unmutated walk
from cursor 0 (`scanWalk`, with enough fuel for every call) emits a
permutation of `allEntries` — each stored entry exactly once — from any
reachable state, including mid-rehash ones. -/
theorem spec_c5 :
    (∀ (t : DictType K V), GoodType t →
      ∀ (w : World K V) (batches : List (List (DictOp K V))) (fuel : Nat) (k : K)
        (es : List (DictEntry K V)),
        Inv w.d → w.d.type = t →
        (∀ w2 ∈ sessionStates w 0 batches fuel,
          (∃ e ∈ allEntries w2.d, e.key = k)
            ∧ w2.d.ht0.size ≤ 2 ^ 64 ∧ w2.d.ht1.size ≤ 2 ^ 64) →
        scanSession w batches fuel = (es, true) →
        ∃ e ∈ es, e.key = k)
    ∧ (∀ (d : Dict K V), Inv d →
        d.ht0.size ≤ 2 ^ 64 → d.ht1.size ≤ 2 ^ 64 →
        (scanWalk d 0 (dictSlots d + 1)).Perm (allEntries d)) := by
  constructor
  · intro t hg w batches fuel k es hI htype hstates hrun
    exact session_visits hg fuel w 0 batches k es hI htype (Nat.two_pow_pos 64)
      (by rw [bitRev_zero]; exact Nat.zero_le _) hstates hrun
  · intro d hI hs0 hs1
    exact scanWalk_complete hI hs0 hs1

theorem spec_c5_witness :
    (∃ e ∈ (scanSession (runOps natType [DictOp.add 1 10, DictOp.add 2 20, DictOp.add 3 30])
        [[DictOp.add 4 40], [DictOp.rehash 1]] 10).1, e.key = 1)
    ∧ (scanWalk (runOps natType [DictOp.add 1 10, DictOp.add 2 20]).d 0
        (dictSlots (runOps natType [DictOp.add 1 10, DictOp.add 2 20]).d + 1)).Perm
      (allEntries (runOps natType [DictOp.add 1 10, DictOp.add 2 20]).d) := by
  constructor
  · exact spec_c5.1 natType goodType_natType
      (runOps natType [DictOp.add 1 10, DictOp.add 2 20, DictOp.add 3 30])
      [[DictOp.add 4 40], [DictOp.rehash 1]] 10 1 _
      (runOps_natType_inv _) rfl (by decide) rfl
  · exact spec_c5.2 _ (runOps_natType_inv _) (by decide) (by decide)

end Claims

end Redis5Dict
